import Mathlib

/-!
Verification of the `prefixtree` package (a compressed trie / radix tree with
unique-prefix lookup).

The repository snapshot contains several historical revisions of the single
implementation file.  The embedding below follows the current, generic
revision (the one implementing `Tree[V]`, with `isTerminal` defined as
`key != ""`, the `FindKey`/`FindKeyValue`/`FindValue` lookups, and the
find-all family `FindKeys`/`FindValues`/`FindKeyValues` that special-cases a
unique match to a single-element result).

Modelling conventions:
* Go strings are byte strings compared bytewise; they are modelled as
  `List Char`, with `Char` standing for a byte and Go's `<`/`>=` on strings
  modelled by the lexicographic `strLT` below.
* Go's `(value, err)` returns are modelled with `Except`; the Go zero value
  returned alongside a non-nil error carries no information and is dropped.
* The `value V` field of a node is modelled as `Option V`: `none` models the
  zero value a node carries before any `Add` stores a value at it.
* The unbounded `for { ... }` loops of `findSubtree` and `Add` are modelled
  with an explicit fuel argument.  Both loops consume at least one character
  of the remaining string per iteration whenever every edge label in the tree
  is non-empty (true of every tree the package can build), so fuel
  `length + 1` never runs out on reachable trees; the fuel-exhaustion
  branches are dead code for them.
* `sort.Search` is modelled by the same halving loop Go uses (`searchGo`).
-/

deriving instance DecidableEq for Except

namespace Prefixtree

/-- Keys, prefixes and edge labels: Go byte strings as lists of characters. -/
abbrev Str := List Char

/-- Lexicographic strict order on byte strings, Go's `s1 < s2`. -/
def strLT : Str → Str → Bool
  | [], [] => false
  | [], _ :: _ => true
  | _ :: _, [] => false
  | a :: s1, b :: s2 => if a < b then true else if b < a then false else strLT s1 s2

/-- `matchingChars` returns the number of shared characters in `s1` and `s2`,
starting from the beginning of each string. -/
def matchingChars : Str → Str → Nat
  | a :: s1, b :: s2 => if a = b then matchingChars s1 s2 + 1 else 0
  | _, _ => 0

/-- A node of the prefix tree: stored key (empty = non-terminal sentinel),
associated value, ordered labelled links, and descendant count. -/
inductive Tree (V : Type) : Type where
  | node (key : Str) (value : Option V) (links : List (Str × Tree V)) (descendants : Nat)

/-- The full stored key of this node (empty if the node is not terminal). -/
def Tree.key {V : Type} : Tree V → Str
  | .node k _ _ _ => k

/-- The value stored at this node (`none` until a key terminates here). -/
def Tree.value {V : Type} : Tree V → Option V
  | .node _ v _ _ => v

/-- The ordered labelled edges out of this node. -/
def Tree.links {V : Type} : Tree V → List (Str × Tree V)
  | .node _ _ ls _ => ls

/-- The `descendants` counter of this node. -/
def Tree.descendants {V : Type} : Tree V → Nat
  | .node _ _ _ d => d

/-- `isTerminal` returns true if the tree is a terminal subtree in the
prefix tree (`t.key != ""` in the source). -/
def Tree.isTerminal {V : Type} (t : Tree V) : Bool :=
  !t.key.isEmpty

/-- `New` returns an empty prefix tree (the Go zero value of `Tree`). -/
def new {V : Type} : Tree V := .node [] none [] 0

mutual

/-- Number of terminal (key-bearing) nodes in a subtree, itself included. -/
def countTerm {V : Type} : Tree V → Nat
  | .node k _ ls _ => (if k = [] then 0 else 1) + countTermL ls

/-- `countTerm` summed over a link list. -/
def countTermL {V : Type} : List (Str × Tree V) → Nat
  | [] => 0
  | (_, c) :: rest => countTerm c + countTermL rest

end

mutual

/-- The (key, value) pairs stored at the terminal nodes of a subtree, in
depth-first edge order. -/
def kvList {V : Type} : Tree V → List (Str × Option V)
  | .node k v ls _ => (if k = [] then [] else [(k, v)]) ++ kvListL ls

/-- `kvList` concatenated over a link list. -/
def kvListL {V : Type} : List (Str × Tree V) → List (Str × Option V)
  | [] => []
  | (_, c) :: rest => kvList c ++ kvListL rest

end

mutual

/-- `appendDescendantKeys` recursively appends a tree's descendant keys to an
array of keys. -/
def appendDescendantKeys {V : Type} : Tree V → List Str → List Str
  | .node k _ ls _, keys =>
      appendDescendantKeysL ls (if k = [] then keys else keys ++ [k])

/-- The loop over links inside `appendDescendantKeys`. -/
def appendDescendantKeysL {V : Type} : List (Str × Tree V) → List Str → List Str
  | [], keys => keys
  | (_, c) :: rest, keys => appendDescendantKeysL rest (appendDescendantKeys c keys)

end

mutual

/-- `appendDescendantValues` recursively appends a tree's descendant values to
an array of values. -/
def appendDescendantValues {V : Type} : Tree V → List (Option V) → List (Option V)
  | .node k v ls _, vals =>
      appendDescendantValuesL ls (if k = [] then vals else vals ++ [v])

/-- The loop over links inside `appendDescendantValues`. -/
def appendDescendantValuesL {V : Type} : List (Str × Tree V) → List (Option V) → List (Option V)
  | [], vals => vals
  | (_, c) :: rest, vals => appendDescendantValuesL rest (appendDescendantValues c vals)

end

mutual

/-- `appendDescendantKeyValues` recursively appends a tree's descendant keys
and values to an array of key/value pairs. -/
def appendDescendantKeyValues {V : Type} : Tree V → List (Str × Option V) → List (Str × Option V)
  | .node k v ls _, kvs =>
      appendDescendantKeyValuesL ls (if k = [] then kvs else kvs ++ [(k, v)])

/-- The loop over links inside `appendDescendantKeyValues`. -/
def appendDescendantKeyValuesL {V : Type} :
    List (Str × Tree V) → List (Str × Option V) → List (Str × Option V)
  | [], kvs => kvs
  | (_, c) :: rest, kvs => appendDescendantKeyValuesL rest (appendDescendantKeyValues c kvs)

end

/-- The halving loop of Go's `sort.Search`: smallest index in `[i, j)` at
which `f` flips to true, for monotone `f`.  Fuel-indexed; fuel `j - i`
suffices. -/
def searchGo (f : Nat → Bool) : Nat → Nat → Nat → Nat
  | 0, i, _ => i
  | fuel + 1, i, j =>
      if i < j then
        let h := (i + j) / 2
        if f h then searchGo f fuel i h else searchGo f fuel (h + 1) j
      else i

/-- Go's `sort.Search(n, f)`. -/
def search (n : Nat) (f : Nat → Bool) : Nat := searchGo f n 0 n

/-- The predicate passed to `sort.Search` in both `findSubtree` and `Add`:
`t.links[i].keyseg >= k`.  Out-of-range indices are never consulted. -/
def linkGE {V : Type} (ls : List (Str × Tree V)) (k : Str) (i : Nat) : Bool :=
  match ls[i]? with
  | some l => !strLT l.1 k
  | none => true

/-- The sub-list of candidate links with indices in `[start, stop]`,
mirroring Go's `for i := start; i <= stop; i++` over `t.links`. -/
def listSlice {α : Type} (ls : List α) (start stop : Nat) : List α :=
  (ls.drop start).take (stop + 1 - start)

/-- Result of `findSubtree`: Go's `(subtree, error)` pair, which is always one
of `(st, nil)`, `(st, ErrPrefixAmbiguous)`, `(nil, ErrPrefixNotFound)`. -/
inductive FindRes (V : Type) : Type where
  | found (st : Tree V)
  | ambiguous (st : Tree V)
  | notFound

/-- Result of one pass over the candidate links in `findSubtree`: either a
final answer or a descent into a subtree consuming `m` characters. -/
inductive ScanRes (V : Type) : Type where
  | action (r : FindRes V)
  | descend (st : Tree V) (m : Nat)

/-- The inner candidate-link loop of `findSubtree`. -/
def scan {V : Type} (pfx : Str) : List (Str × Tree V) → ScanRes V
  | [] => .action .notFound
  | l :: rest =>
      let m := matchingChars pfx l.1
      if m = 0 then scan pfx rest
      else if m = l.1.length then .descend l.2 m
      else if m = pfx.length then
        if 1 < l.2.descendants then .action (.ambiguous l.2)
        else if l.2.isTerminal then .action (.found l.2)
        else .action .notFound
      else scan pfx rest

/-- The candidate index range of `findSubtree`: all links, unless there are
20 or more, in which case a binary search narrows it to at most two. -/
def findRange {V : Type} (ls : List (Str × Tree V)) (pfx : Str) : Nat × Nat :=
  if 20 ≤ ls.length then
    let ix := search ls.length (linkGE ls pfx)
    (ix - 1, min ix (ls.length - 1))
  else (0, ls.length - 1)

/-- `findSubtree` searches the prefix tree for the deepest subtree matching
the prefix (fuel-indexed outer loop). -/
def findSubtreeF {V : Type} : Nat → Tree V → Str → FindRes V
  | 0, _, _ => .notFound
  | fuel + 1, t, pfx =>
      if pfx = [] then
        if t.isTerminal then .found t else .ambiguous t
      else
        let r := findRange t.links pfx
        match scan pfx (listSlice t.links r.1 r.2) with
        | .action res => res
        | .descend st m => findSubtreeF fuel st (pfx.drop m)

/-- `findSubtree` with fuel `|pfx| + 1`, which suffices on every tree whose
edge labels are non-empty (every reachable tree). -/
def findSubtree {V : Type} (t : Tree V) (pfx : Str) : FindRes V :=
  findSubtreeF (pfx.length + 1) t pfx

/-- The variant of `findSubtree` that always scans all links linearly,
regardless of how many there are (the reference behaviour the binary-search
narrowing must agree with). -/
def findSubtreeLinF {V : Type} : Nat → Tree V → Str → FindRes V
  | 0, _, _ => .notFound
  | fuel + 1, t, pfx =>
      if pfx = [] then
        if t.isTerminal then .found t else .ambiguous t
      else
        match scan pfx (listSlice t.links 0 (t.links.length - 1)) with
        | .action res => res
        | .descend st m => findSubtreeLinF fuel st (pfx.drop m)

/-- Linear-scan `findSubtree` with sufficient fuel. -/
def findSubtreeLin {V : Type} (t : Tree V) (pfx : Str) : FindRes V :=
  findSubtreeLinF (pfx.length + 1) t pfx

/-- The two lookup failure sentinels `ErrPrefixNotFound`/`ErrPrefixAmbiguous`. -/
inductive FindErr : Type where
  | notFound
  | ambiguous
deriving DecidableEq, Repr

/-- `FindValue` searches the prefix tree for a key string that uniquely
matches the prefix and returns the value associated with the key. -/
def FindValue {V : Type} (t : Tree V) (pfx : Str) : Except FindErr (Option V) :=
  match findSubtree t pfx with
  | .found st => .ok st.value
  | .ambiguous _ => .error .ambiguous
  | .notFound => .error .notFound

/-- `FindKey` searches the prefix tree for a key string that uniquely matches
the prefix and returns the full matching key. -/
def FindKey {V : Type} (t : Tree V) (pfx : Str) : Except FindErr Str :=
  match findSubtree t pfx with
  | .found st => .ok st.key
  | .ambiguous _ => .error .ambiguous
  | .notFound => .error .notFound

/-- `FindKeyValue` searches the prefix tree for a key string that uniquely
matches the prefix and returns the full matching key and its value. -/
def FindKeyValue {V : Type} (t : Tree V) (pfx : Str) : Except FindErr (Str × Option V) :=
  match findSubtree t pfx with
  | .found st => .ok (st.key, st.value)
  | .ambiguous _ => .error .ambiguous
  | .notFound => .error .notFound

/-- `FindKeys` searches the prefix tree for all key strings prefixed by the
provided prefix and returns them (singleton on a unique match). -/
def FindKeys {V : Type} (t : Tree V) (pfx : Str) : List Str :=
  match findSubtree t pfx with
  | .notFound => []
  | .found st => if st.isTerminal then [st.key] else appendDescendantKeys st []
  | .ambiguous st => appendDescendantKeys st []

/-- `FindValues` searches the prefix tree for all key strings prefixed by the
provided prefix and returns their values (singleton on a unique match). -/
def FindValues {V : Type} (t : Tree V) (pfx : Str) : List (Option V) :=
  match findSubtree t pfx with
  | .notFound => []
  | .found st => if st.isTerminal then [st.value] else appendDescendantValues st []
  | .ambiguous st => appendDescendantValues st []

/-- `FindKeyValues` searches the prefix tree for all key strings prefixed by
the provided prefix and returns the matching key/value pairs (singleton on a
unique match). -/
def FindKeyValues {V : Type} (t : Tree V) (pfx : Str) : List (Str × Option V) :=
  match findSubtree t pfx with
  | .notFound => []
  | .found st => if st.isTerminal then [(st.key, st.value)] else appendDescendantKeyValues st []
  | .ambiguous st => appendDescendantKeyValues st []

/-- Result of the candidate-link loop inside `Add`: index (within the
candidate slice), the link, and the action taken on it. -/
inductive AddScanRes (V : Type) : Type where
  | none
  | descend (i : Nat) (l : Str × Tree V) (m : Nat)
  | split (i : Nat) (l : Str × Tree V) (m : Nat)

/-- Shift the slice-relative index of an `AddScanRes` by one. -/
def AddScanRes.bump {V : Type} : AddScanRes V → AddScanRes V
  | .none => .none
  | .descend i l m => .descend (i + 1) l m
  | .split i l m => .split (i + 1) l m

/-- The inner candidate-link loop of `Add`: full label match descends, a
partial match splits, otherwise the next candidate is tried. -/
def addScan {V : Type} (k : Str) : List (Str × Tree V) → AddScanRes V
  | [] => .none
  | l :: rest =>
      let m := matchingChars l.1 k
      if m = l.1.length then .descend 0 l m
      else if 0 < m then .split 0 l m
      else (addScan k rest).bump

/-- The outer loop of `Add` (fuel-indexed): `key` is the full key being
inserted, `k` the remaining unconsumed suffix. -/
def addGoF {V : Type} : Nat → Tree V → Str → Str → V → Tree V
  | 0, t, _, _, _ => t
  | fuel + 1, .node key0 val0 ls d, key, k, v =>
      if k = [] then .node key (some v) ls (d + 1)
      else
        let ix := search ls.length (linkGE ls k)
        let start := ix - 1
        let stop := min ix (ls.length - 1)
        match addScan k (listSlice ls start stop) with
        | .none =>
            .node key0 val0 (ls.insertIdx ix (k, .node key (some v) [] 1)) (d + 1)
        | .descend i l m =>
            .node key0 val0 (ls.set (start + i) (l.1, addGoF fuel l.2 key (k.drop m) v)) (d + 1)
        | .split i l m =>
            let child : Tree V := .node [] none [(l.1.drop m, l.2)] l.2.descendants
            .node key0 val0 (ls.set (start + i) (l.1.take m, addGoF fuel child key (k.drop m) v)) (d + 1)

/-- `Add` a key string and its associated value data to the prefix tree. -/
def add {V : Type} (t : Tree V) (key : Str) (v : V) : Tree V :=
  addGoF (key.length + 1) t key key v

/-- Build a tree by inserting a list of key/value pairs in order into an
empty tree. -/
def build {V : Type} (ops : List (Str × V)) : Tree V :=
  ops.foldl (fun t kv => add t kv.1 kv.2) new

/-! ### Basic facts about the string order and `matchingChars` -/

theorem strLT_irrefl (a : Str) : strLT a a = false := by
  induction a with
  | nil => rfl
  | cons x s ih => simp [strLT, ih]

theorem strLT_nil_left {b : Str} (h : b ≠ []) : strLT [] b = true := by
  cases b with
  | nil => exact absurd rfl h
  | cons y t => rfl

theorem strLT_cons_iff (x y : Char) (s t : Str) :
    strLT (x :: s) (y :: t) = true ↔ x < y ∨ (x = y ∧ strLT s t = true) := by
  by_cases h1 : x < y
  · simp [strLT, h1]
  · by_cases h2 : y < x
    · have hne : x ≠ y := (ne_of_gt h2)
      simp [strLT, h1, h2, hne]
    · have hxy : x = y := le_antisymm (not_lt.mp h2) (not_lt.mp h1)
      subst hxy
      simp [strLT, h1]

theorem strLT_trans : ∀ {a b c : Str}, strLT a b = true → strLT b c = true → strLT a c = true := by
  intro a
  induction a with
  | nil =>
      intro b c hab hbc
      cases b with
      | nil => simp [strLT] at hab
      | cons y t =>
          cases c with
          | nil => simp [strLT] at hbc
          | cons z u => rfl
  | cons x s ih =>
      intro b c hab hbc
      cases b with
      | nil => simp [strLT] at hab
      | cons y t =>
          cases c with
          | nil => simp [strLT] at hbc
          | cons z u =>
              rw [strLT_cons_iff] at hab hbc ⊢
              rcases hab with h1 | ⟨h1, h1'⟩
              · rcases hbc with h2 | ⟨h2, _⟩
                · exact Or.inl (lt_trans h1 h2)
                · exact Or.inl (h2 ▸ h1)
              · rcases hbc with h2 | ⟨h2, h2'⟩
                · exact Or.inl (h1 ▸ h2)
                · exact Or.inr ⟨h1.trans h2, ih h1' h2'⟩

theorem strLT_asymm {a b : Str} (h : strLT a b = true) : strLT b a = false := by
  by_contra h'
  have h'' : strLT b a = true := by
    cases hba : strLT b a with
    | false => exact absurd hba h'
    | true => rfl
  have := strLT_trans h h''
  rw [strLT_irrefl] at this
  exact Bool.false_ne_true this

theorem strLT_eq_of_not_lt : ∀ {a b : Str}, strLT a b = false → strLT b a = false → a = b := by
  intro a
  induction a with
  | nil =>
      intro b hab _
      cases b with
      | nil => rfl
      | cons y t => simp [strLT] at hab
  | cons x s ih =>
      intro b hab hba
      cases b with
      | nil => simp [strLT] at hba
      | cons y t =>
          have hab' := hab
          have hba' := hba
          rw [Bool.eq_false_iff, Ne, strLT_cons_iff] at hab' hba'
          push_neg at hab' hba'
          have hxy : x = y := by
            rcases lt_trichotomy x y with h | h | h
            · exact absurd h (not_lt.mpr hab'.1)
            · exact h
            · exact absurd h (not_lt.mpr hba'.1)
          subst hxy
          have hst : s = t := by
            refine ih ?_ ?_
            · have := hab'.2 rfl
              simpa using this
            · have := hba'.2 rfl
              simpa using this
          rw [hst]

theorem strLT_append_left (c a b : Str) : strLT (c ++ a) (c ++ b) = strLT a b := by
  induction c with
  | nil => rfl
  | cons x s ih => simp [strLT, ih]

theorem strLT_of_proper_prefix {a b : Str} (h : a <+: b) (hne : a ≠ b) : strLT a b = true := by
  obtain ⟨r, rfl⟩ := h
  have hr : r ≠ [] := by
    intro h0
    subst h0
    simp at hne
  have := strLT_append_left a [] r
  simp at this
  rw [this]
  exact strLT_nil_left hr

theorem strLT_cons_le {x y : Char} {s t : Str} (h : strLT (x :: s) (y :: t) = true) : x ≤ y := by
  rw [strLT_cons_iff] at h
  rcases h with h | ⟨h, _⟩
  · exact le_of_lt h
  · exact le_of_eq h

theorem strLT_cons_ge {x y : Char} {s t : Str} (h : strLT (x :: s) (y :: t) = false) : y ≤ x := by
  rw [Bool.eq_false_iff, Ne, strLT_cons_iff] at h
  push_neg at h
  exact h.1

theorem matchingChars_comm : ∀ (a b : Str), matchingChars a b = matchingChars b a := by
  intro a
  induction a with
  | nil => intro b; cases b <;> rfl
  | cons x s ih =>
      intro b
      cases b with
      | nil => rfl
      | cons y t =>
          by_cases h : x = y
          · subst h; simp [matchingChars, ih]
          · simp [matchingChars, h, Ne.symm h]

theorem matchingChars_le_left : ∀ (a b : Str), matchingChars a b ≤ a.length := by
  intro a
  induction a with
  | nil => intro b; cases b <;> simp [matchingChars]
  | cons x s ih =>
      intro b
      cases b with
      | nil => simp [matchingChars]
      | cons y t =>
          by_cases h : x = y
          · subst h; simpa [matchingChars] using ih t
          · simp [matchingChars, h]

theorem matchingChars_le_right (a b : Str) : matchingChars a b ≤ b.length := by
  rw [matchingChars_comm]
  exact matchingChars_le_left b a

theorem matchingChars_self (a : Str) : matchingChars a a = a.length := by
  induction a with
  | nil => rfl
  | cons x s ih => simp [matchingChars, ih]

theorem matchingChars_cons_pos {x y : Char} {s t : Str} :
    matchingChars (x :: s) (y :: t) ≠ 0 ↔ x = y := by
  by_cases h : x = y
  · subst h; simp [matchingChars]
  · simp [matchingChars, h]

theorem matchingChars_eq_left_iff : ∀ (a b : Str), matchingChars a b = a.length ↔ a <+: b := by
  intro a
  induction a with
  | nil => intro b; cases b <;> simp [matchingChars]
  | cons x s ih =>
      intro b
      cases b with
      | nil => simp [matchingChars]
      | cons y t =>
          by_cases h : x = y
          · subst h
            simp [matchingChars, List.cons_prefix_cons, ih t]
          · simp [matchingChars, h, List.cons_prefix_cons]

theorem matchingChars_eq_right_iff (a b : Str) : matchingChars a b = b.length ↔ b <+: a := by
  rw [matchingChars_comm]
  exact matchingChars_eq_left_iff b a

theorem matchingChars_take : ∀ (a b : Str), a.take (matchingChars a b) = b.take (matchingChars a b) := by
  intro a
  induction a with
  | nil => intro b; cases b <;> simp [matchingChars]
  | cons x s ih =>
      intro b
      cases b with
      | nil => simp [matchingChars]
      | cons y t =>
          by_cases h : x = y
          · subst h; simp [matchingChars, ih t]
          · simp [matchingChars, h]

theorem matchingChars_drop : ∀ (a b : Str),
    matchingChars (a.drop (matchingChars a b)) (b.drop (matchingChars a b)) = 0 := by
  intro a
  induction a with
  | nil => intro b; cases b <;> simp [matchingChars]
  | cons x s ih =>
      intro b
      cases b with
      | nil => simp [matchingChars]
      | cons y t =>
          by_cases h : x = y
          · subst h; simpa [matchingChars] using ih t
          · simp [matchingChars, h]

theorem matchingChars_prefix_full {p k : Str} (h : p <+: k) : matchingChars p k = p.length :=
  (matchingChars_eq_left_iff p k).mpr h

/-! ### The candidate slice -/

theorem listSlice_subset {α : Type} (ls : List α) (a b : Nat) :
    ∀ x ∈ listSlice ls a b, x ∈ ls := by
  intro x hx
  unfold listSlice at hx
  exact (ls.drop_sublist a).mem ((List.take_sublist _ _).mem hx)

theorem listSlice_full {α : Type} (ls : List α) : listSlice ls 0 (ls.length - 1) = ls := by
  cases ls with
  | nil => rfl
  | cons x rest => simp [listSlice]

theorem listSlice_getElem {α : Type} (ls : List α) (a b i : Nat)
    (h1 : i < b + 1 - a) :
    (listSlice ls a b)[i]? = ls[a + i]? := by
  unfold listSlice
  rw [List.getElem?_take_of_lt h1, List.getElem?_drop]

theorem listSlice_length {α : Type} (ls : List α) (a b : Nat) :
    (listSlice ls a b).length = min (b + 1 - a) (ls.length - a) := by
  simp [listSlice]

/-! ### `sort.Search` returns the least index at which a monotone predicate
turns true -/

/-- Monotonicity of a search predicate. -/
def FMono (f : Nat → Bool) : Prop := ∀ i j, i ≤ j → f i = true → f j = true

theorem searchGo_spec (f : Nat → Bool) (hm : FMono f) :
    ∀ (fuel i j : Nat), i ≤ j → j - i ≤ fuel →
      (∀ x, x < i → f x = false) → (∀ x, j ≤ x → f x = true) →
      i ≤ searchGo f fuel i j ∧ searchGo f fuel i j ≤ j ∧
        (∀ x, x < searchGo f fuel i j → f x = false) ∧
        (∀ x, searchGo f fuel i j ≤ x → f x = true) := by
  intro fuel
  induction fuel with
  | zero =>
      intro i j hij hfuel hlow hhigh
      have : i = j := by omega
      subst this
      exact ⟨le_refl _, le_refl _, hlow, hhigh⟩
  | succ n ih =>
      intro i j hij hfuel hlow hhigh
      by_cases hlt : i < j
      · have hh1 : i ≤ (i + j) / 2 := by omega
        have hh2 : (i + j) / 2 < j := by omega
        cases hfh : f ((i + j) / 2) with
        | true =>
            have hres := ih i ((i + j) / 2) hh1 (by omega) hlow
              (fun x hx => hm _ _ hx hfh)
            have hstep : searchGo f (n + 1) i j = searchGo f n i ((i + j) / 2) := by
              simp [searchGo, hlt, hfh]
            rw [hstep]
            exact ⟨hres.1, le_trans hres.2.1 (le_of_lt hh2), hres.2.2⟩
        | false =>
            have hlow' : ∀ x, x < (i + j) / 2 + 1 → f x = false := by
              intro x hx
              cases hfx : f x with
              | false => rfl
              | true =>
                  have := hm x ((i + j) / 2) (by omega) hfx
                  rw [hfh] at this
                  exact absurd this (by simp)
            have hres := ih ((i + j) / 2 + 1) j (by omega) (by omega) hlow' hhigh
            have hstep : searchGo f (n + 1) i j = searchGo f n ((i + j) / 2 + 1) j := by
              simp [searchGo, hlt, hfh]
            rw [hstep]
            exact ⟨le_trans (by omega) hres.1, hres.2.1, hres.2.2⟩
      · have : i = j := by omega
        subst this
        have hstep : searchGo f (n + 1) i i = i := by simp [searchGo]
        rw [hstep]
        exact ⟨le_refl _, le_refl _, hlow, hhigh⟩

theorem search_spec (n : Nat) (f : Nat → Bool) (hm : FMono f) (hhigh : ∀ x, n ≤ x → f x = true) :
    search n f ≤ n ∧ (∀ x, x < search n f → f x = false) ∧
      (∀ x, search n f ≤ x → f x = true) := by
  have h := searchGo_spec f hm n 0 n (Nat.zero_le n) (by omega) (by omega) hhigh
  exact ⟨h.2.1, h.2.2⟩

/-! ### Relating the traversal helpers to `kvList` -/

mutual

theorem countTerm_eq_kvLen {V : Type} (t : Tree V) : countTerm t = (kvList t).length := by
  match t with
  | .node k v ls d =>
      rw [countTerm, kvList, countTermL_eq_kvLenL ls]
      by_cases hk : k = []
      · simp [hk]
      · simp [hk]
        omega

theorem countTermL_eq_kvLenL {V : Type} (ls : List (Str × Tree V)) :
    countTermL ls = (kvListL ls).length := by
  match ls with
  | [] => rfl
  | (a, c) :: rest =>
      rw [countTermL, kvListL, countTerm_eq_kvLen c, countTermL_eq_kvLenL rest]
      simp

end

mutual

theorem appendDescendantKeys_eq {V : Type} (t : Tree V) (acc : List Str) :
    appendDescendantKeys t acc = acc ++ (kvList t).map Prod.fst := by
  match t with
  | .node k v ls d =>
      rw [appendDescendantKeys, kvList, appendDescendantKeysL_eq ls]
      by_cases hk : k = [] <;> simp [hk]

theorem appendDescendantKeysL_eq {V : Type} (ls : List (Str × Tree V)) (acc : List Str) :
    appendDescendantKeysL ls acc = acc ++ (kvListL ls).map Prod.fst := by
  match ls with
  | [] => simp [appendDescendantKeysL, kvListL]
  | (a, c) :: rest =>
      rw [appendDescendantKeysL, kvListL, appendDescendantKeysL_eq rest,
        appendDescendantKeys_eq c acc]
      simp

end

mutual

theorem appendDescendantValues_eq {V : Type} (t : Tree V) (acc : List (Option V)) :
    appendDescendantValues t acc = acc ++ (kvList t).map Prod.snd := by
  match t with
  | .node k v ls d =>
      rw [appendDescendantValues, kvList, appendDescendantValuesL_eq ls]
      by_cases hk : k = [] <;> simp [hk]

theorem appendDescendantValuesL_eq {V : Type} (ls : List (Str × Tree V)) (acc : List (Option V)) :
    appendDescendantValuesL ls acc = acc ++ (kvListL ls).map Prod.snd := by
  match ls with
  | [] => simp [appendDescendantValuesL, kvListL]
  | (a, c) :: rest =>
      rw [appendDescendantValuesL, kvListL, appendDescendantValuesL_eq rest,
        appendDescendantValues_eq c acc]
      simp

end

mutual

theorem appendDescendantKeyValues_eq {V : Type} (t : Tree V) (acc : List (Str × Option V)) :
    appendDescendantKeyValues t acc = acc ++ kvList t := by
  match t with
  | .node k v ls d =>
      rw [appendDescendantKeyValues, kvList, appendDescendantKeyValuesL_eq ls]
      by_cases hk : k = [] <;> simp [hk]

theorem appendDescendantKeyValuesL_eq {V : Type} (ls : List (Str × Tree V))
    (acc : List (Str × Option V)) :
    appendDescendantKeyValuesL ls acc = acc ++ kvListL ls := by
  match ls with
  | [] => simp [appendDescendantKeyValuesL, kvListL]
  | (a, c) :: rest =>
      rw [appendDescendantKeyValuesL, kvListL, appendDescendantKeyValuesL_eq rest,
        appendDescendantKeyValues_eq c acc]
      simp

end

/-! ### Characterizing the candidate scans -/

/-- What `scan` does to the one candidate link whose label shares a leading
character with the prefix. -/
def scanAct {V : Type} (pfx : Str) (l : Str × Tree V) : ScanRes V :=
  let m := matchingChars pfx l.1
  if m = l.1.length then .descend l.2 m
  else if m = pfx.length then
    if 1 < l.2.descendants then .action (.ambiguous l.2)
    else if l.2.isTerminal then .action (.found l.2)
    else .action .notFound
  else .action .notFound

/-- What `addScan` does to the one candidate link whose label shares a leading
character with the remaining key. -/
def addScanAct {V : Type} (k : Str) (i : Nat) (l : Str × Tree V) : AddScanRes V :=
  let m := matchingChars l.1 k
  if m = l.1.length then .descend i l m
  else if 0 < m then .split i l m
  else .none

theorem scan_no_share {V : Type} (pfx : Str) :
    ∀ ls : List (Str × Tree V), (∀ l ∈ ls, matchingChars pfx l.1 = 0) →
      scan pfx ls = .action .notFound := by
  intro ls
  induction ls with
  | nil => intro _; rfl
  | cons l rest ih =>
      intro h
      have h0 : matchingChars pfx l.1 = 0 := h l (by simp)
      rw [scan]
      simp only [h0, if_pos rfl]
      exact ih (fun x hx => h x (by simp [hx]))

theorem scan_unique {V : Type} (pfx : Str) :
    ∀ (ls : List (Str × Tree V)) (i : Nat) (hi : i < ls.length),
      matchingChars pfx ls[i].1 ≠ 0 →
      (∀ j (hj : j < ls.length), j ≠ i → matchingChars pfx ls[j].1 = 0) →
      scan pfx ls = scanAct pfx ls[i] := by
  intro ls
  induction ls with
  | nil => intro i hi; simp at hi
  | cons l rest ih =>
      intro i hi hsh hothers
      cases i with
      | zero =>
          simp only [List.getElem_cons_zero] at hsh ⊢
          have hrest : ∀ x ∈ rest, matchingChars pfx x.1 = 0 := by
            intro x hx
            obtain ⟨j, hj, rfl⟩ := List.getElem_of_mem hx
            have := hothers (j + 1) (by simpa using Nat.succ_lt_succ hj) (by omega)
            simpa using this
          rw [scan, scanAct]
          simp only [hsh, if_neg hsh]
          by_cases h1 : matchingChars pfx l.1 = l.1.length
          · simp [h1]
          · simp only [h1, if_neg h1]
            by_cases h2 : matchingChars pfx l.1 = pfx.length
            · simp [h2]
            · simp only [h2, if_neg h2]
              exact scan_no_share pfx rest hrest
      | succ i' =>
          have h0 : matchingChars pfx l.1 = 0 :=
            hothers 0 (by simp) (by omega)
          have hi' : i' < rest.length := by simpa using Nat.lt_of_succ_lt_succ hi
          rw [scan]
          simp only [h0, if_pos rfl]
          have := ih i' hi' (by simpa using hsh)
            (fun j hj hne => by
              have := hothers (j + 1) (by simpa using Nat.succ_lt_succ hj) (by omega)
              simpa using this)
          simpa using this

theorem AddScanRes.bump_act {V : Type} (k : Str) (i : Nat) (l : Str × Tree V) :
    (addScanAct k i l).bump = addScanAct k (i + 1) l := by
  rw [addScanAct, addScanAct]
  by_cases h1 : matchingChars l.1 k = l.1.length
  · simp [h1, AddScanRes.bump]
  · by_cases h2 : 0 < matchingChars l.1 k
    · simp [h1, h2, AddScanRes.bump]
    · simp [h1, h2, AddScanRes.bump]

theorem addScan_no_share {V : Type} (k : Str) :
    ∀ ls : List (Str × Tree V), (∀ l ∈ ls, l.1 ≠ []) →
      (∀ l ∈ ls, matchingChars l.1 k = 0) → addScan k ls = .none := by
  intro ls
  induction ls with
  | nil => intro _ _; rfl
  | cons l rest ih =>
      intro hlab h
      have h0 : matchingChars l.1 k = 0 := h l (by simp)
      have hlen : l.1.length ≠ 0 := by
        have := hlab l (by simp)
        simpa [List.length_eq_zero] using this
      rw [addScan]
      simp only [h0]
      rw [if_neg (by omega), if_neg (by omega)]
      rw [ih (fun x hx => hlab x (by simp [hx])) (fun x hx => h x (by simp [hx]))]
      rfl

theorem addScan_unique {V : Type} (k : Str) :
    ∀ (ls : List (Str × Tree V)) (i : Nat) (hi : i < ls.length),
      (∀ l ∈ ls, l.1 ≠ []) →
      matchingChars ls[i].1 k ≠ 0 →
      (∀ j (hj : j < ls.length), j ≠ i → matchingChars ls[j].1 k = 0) →
      addScan k ls = addScanAct k i ls[i] := by
  intro ls
  induction ls with
  | nil => intro i hi; simp at hi
  | cons l rest ih =>
      intro i hi hlab hsh hothers
      cases i with
      | zero =>
          simp only [List.getElem_cons_zero] at hsh ⊢
          rw [addScan, addScanAct]
          by_cases h1 : matchingChars l.1 k = l.1.length
          · simp [h1]
          · simp only [h1, if_neg h1]
            have h2 : 0 < matchingChars l.1 k := by omega
            simp [h2]
      | succ i' =>
          have h0 : matchingChars l.1 k = 0 :=
            hothers 0 (by simp) (by omega)
          have hlen : l.1.length ≠ 0 := by
            have := hlab l (by simp)
            simpa [List.length_eq_zero] using this
          have hi' : i' < rest.length := by simpa using Nat.lt_of_succ_lt_succ hi
          rw [addScan]
          simp only [h0]
          rw [if_neg (by omega), if_neg (by omega)]
          have := ih i' hi' (fun x hx => hlab x (by simp [hx])) (by simpa using hsh)
            (fun j hj hne => by
              have := hothers (j + 1) (by simpa using Nat.succ_lt_succ hj) (by omega)
              simpa using this)
          rw [this]
          simpa using AddScanRes.bump_act k i' rest[i']

/-! ### At most one sibling shares a leading character; the binary search
localizes it to the two examined candidates -/

/-- The ordering invariant between two sibling links: strictly increasing
labels that share no leading character. -/
def LinkRel {V : Type} (a b : Str × Tree V) : Prop :=
  strLT a.1 b.1 = true ∧ matchingChars a.1 b.1 = 0

theorem mc_ne_zero_head {p a : Str} (hp : p ≠ []) (ha : a ≠ [])
    (h : matchingChars p a ≠ 0) : p.head hp = a.head ha := by
  cases p with
  | nil => exact absurd rfl hp
  | cons x pt =>
      cases a with
      | nil => exact absurd rfl ha
      | cons y bt => simpa using matchingChars_cons_pos.mp h

theorem mc_ne_zero_of_head {p a : Str} (hp : p ≠ []) (ha : a ≠ [])
    (h : p.head hp = a.head ha) : matchingChars p a ≠ 0 := by
  cases p with
  | nil => exact absurd rfl hp
  | cons x pt =>
      cases a with
      | nil => exact absurd rfl ha
      | cons y bt => exact matchingChars_cons_pos.mpr (by simpa using h)

theorem sandwich_up {p a b : Str} (hp : p ≠ []) (ha : a ≠ []) (hb : b ≠ [])
    (hsh : matchingChars p a ≠ 0) (h1 : strLT b a = true) (h2 : strLT b p = false) :
    matchingChars b a ≠ 0 := by
  cases p with
  | nil => exact absurd rfl hp
  | cons x pt =>
      cases a with
      | nil => exact absurd rfl ha
      | cons y at' =>
          cases b with
          | nil => simp [strLT] at h2
          | cons z bt =>
              have hxy : x = y := matchingChars_cons_pos.mp hsh
              have hzy : z ≤ y := strLT_cons_le h1
              have hxz : x ≤ z := strLT_cons_ge h2
              exact matchingChars_cons_pos.mpr (le_antisymm hzy (hxy ▸ hxz))

theorem sandwich_down {p a b : Str} (hp : p ≠ []) (ha : a ≠ []) (hb : b ≠ [])
    (hsh : matchingChars p a ≠ 0) (h1 : strLT a b = true) (h2 : strLT b p = true) :
    matchingChars a b ≠ 0 := by
  cases p with
  | nil => exact absurd rfl hp
  | cons x pt =>
      cases a with
      | nil => exact absurd rfl ha
      | cons y at' =>
          cases b with
          | nil => simp [strLT] at h1
          | cons z bt =>
              have hxy : x = y := matchingChars_cons_pos.mp hsh
              have hyz : y ≤ z := strLT_cons_le h1
              have hzx : z ≤ x := strLT_cons_le h2
              exact matchingChars_cons_pos.mpr (le_antisymm hyz (hxy ▸ hzx))

theorem share_unique_idx {V : Type} {ls : List (Str × Tree V)} {pfx : Str}
    (hord : ls.Pairwise LinkRel) (hlab : ∀ l ∈ ls, l.1 ≠ []) (hp : pfx ≠ [])
    (i j : Nat) (hi : i < ls.length) (hj : j < ls.length)
    (hshi : matchingChars pfx ls[i].1 ≠ 0) (hshj : matchingChars pfx ls[j].1 ≠ 0) :
    i = j := by
  have key : ∀ a b : Nat, ∀ ha : a < ls.length, ∀ hb : b < ls.length, a < b →
      matchingChars pfx ls[a].1 ≠ 0 → matchingChars pfx ls[b].1 ≠ 0 → False := by
    intro a b ha hb hab hsa hsb
    have hrel := List.pairwise_iff_getElem.mp hord a b ha hb hab
    have hlaba : ls[a].1 ≠ [] := hlab _ (List.getElem_mem ha)
    have hlabb : ls[b].1 ≠ [] := hlab _ (List.getElem_mem hb)
    have h1 := mc_ne_zero_head hp hlaba hsa
    have h2 := mc_ne_zero_head hp hlabb hsb
    exact mc_ne_zero_of_head hlaba hlabb (h1 ▸ h2) hrel.2
  rcases lt_trichotomy i j with h | h | h
  · exact absurd (key i j hi hj h hshi hshj) not_false
  · exact h
  · exact absurd (key j i hj hi h hshj hshi) not_false

theorem linkGE_mono {V : Type} (ls : List (Str × Tree V)) (pfx : Str)
    (hord : ls.Pairwise LinkRel) : FMono (linkGE ls pfx) := by
  intro i j hij hfi
  by_cases hjlen : j < ls.length
  · have hilen : i < ls.length := lt_of_le_of_lt hij hjlen
    rw [linkGE, List.getElem?_eq_getElem hilen] at hfi
    rw [linkGE, List.getElem?_eq_getElem hjlen]
    simp only [Bool.not_eq_true'] at hfi ⊢
    rcases Nat.lt_or_ge i j with hlt | hge
    · have hrel := List.pairwise_iff_getElem.mp hord i j hilen hjlen hlt
      cases hLT : strLT ls[j].1 pfx with
      | false => rfl
      | true =>
          have := strLT_trans hrel.1 hLT
          rw [hfi] at this
          exact absurd this (by simp)
    · have : i = j := le_antisymm hij hge
      subst this
      exact hfi
  · rw [linkGE, List.getElem?_eq_none (not_lt.mp hjlen)]

theorem linkGE_high {V : Type} (ls : List (Str × Tree V)) (pfx : Str) :
    ∀ x, ls.length ≤ x → linkGE ls pfx x = true := by
  intro x hx
  rw [linkGE, List.getElem?_eq_none hx]

theorem share_in_range {V : Type} {ls : List (Str × Tree V)} {pfx : Str}
    (hord : ls.Pairwise LinkRel) (hlab : ∀ l ∈ ls, l.1 ≠ []) (hp : pfx ≠ [])
    (j : Nat) (hj : j < ls.length) (hsh : matchingChars pfx ls[j].1 ≠ 0) :
    search ls.length (linkGE ls pfx) - 1 ≤ j ∧ j ≤ search ls.length (linkGE ls pfx) := by
  obtain ⟨hle, hlow, hhigh⟩ :=
    search_spec ls.length (linkGE ls pfx) (linkGE_mono ls pfx hord) (linkGE_high ls pfx)
  set ix := search ls.length (linkGE ls pfx) with hix
  have hlabj : ls[j].1 ≠ [] := hlab _ (List.getElem_mem hj)
  constructor
  · by_contra hcon
    push_neg at hcon
    have hj2 : j + 1 < ix := by omega
    have hix1 : ix - 1 < ls.length := by omega
    have hflow := hlow (ix - 1) (by omega)
    rw [linkGE, List.getElem?_eq_getElem hix1] at hflow
    simp only [Bool.not_eq_false'] at hflow
    have hrel := List.pairwise_iff_getElem.mp hord j (ix - 1) hj hix1 (by omega)
    have hlabi : ls[ix - 1].1 ≠ [] := hlab _ (List.getElem_mem hix1)
    exact sandwich_down hp hlabj hlabi hsh hrel.1 hflow hrel.2
  · by_contra hcon
    push_neg at hcon
    have hixlen : ix < ls.length := by omega
    have hfhigh := hhigh ix (le_refl _)
    rw [linkGE, List.getElem?_eq_getElem hixlen] at hfhigh
    simp only [Bool.not_eq_true'] at hfhigh
    have hrel := List.pairwise_iff_getElem.mp hord ix j hixlen hj (by omega)
    have hlabi : ls[ix].1 ≠ [] := hlab _ (List.getElem_mem hixlen)
    exact sandwich_up hp hlabj hlabi hsh hrel.1 hfhigh hrel.2

theorem no_share_of_forall_idx {V : Type} {ls : List (Str × Tree V)} {pfx : Str}
    (h : ∀ j, ∀ hj : j < ls.length, matchingChars pfx ls[j].1 = 0) :
    ∀ l ∈ ls, matchingChars pfx l.1 = 0 := by
  intro l hl
  obtain ⟨j, hj, rfl⟩ := List.getElem_of_mem hl
  exact h j hj

theorem scan_findRange {V : Type} (ls : List (Str × Tree V)) (pfx : Str)
    (hord : ls.Pairwise LinkRel) (hlab : ∀ l ∈ ls, l.1 ≠ []) (hp : pfx ≠ []) :
    scan pfx (listSlice ls (findRange ls pfx).1 (findRange ls pfx).2) = scan pfx ls := by
  by_cases h20 : 20 ≤ ls.length
  · rw [findRange, if_pos h20]
    set ix := search ls.length (linkGE ls pfx) with hix
    set start := ix - 1 with hstart
    set stop := min ix (ls.length - 1) with hstop
    obtain ⟨hle, _, _⟩ :=
      search_spec ls.length (linkGE ls pfx) (linkGE_mono ls pfx hord) (linkGE_high ls pfx)
    by_cases hex : ∃ j, ∃ hj : j < ls.length, matchingChars pfx ls[j].1 ≠ 0
    · obtain ⟨j, hj, hsh⟩ := hex
      obtain ⟨hr1, hr2⟩ := share_in_range hord hlab hp j hj hsh
      have hjstop : j ≤ stop := le_min hr2 (by omega)
      have hjstart : start ≤ j := hr1
      have hslice : (listSlice ls start stop)[j - start]? = some ls[j] := by
        have h0 := listSlice_getElem ls start stop (j - start) (by omega)
        rw [show start + (j - start) = j by omega] at h0
        rw [h0]
        exact List.getElem?_eq_getElem hj
      obtain ⟨hjs, hjs2⟩ := List.getElem?_eq_some.mp hslice
      have hscanls : scan pfx ls = scanAct pfx ls[j] :=
        scan_unique pfx ls j hj hsh (by
          intro j' hj' hne
          cases hmc : matchingChars pfx ls[j'].1 with
          | zero => rfl
          | succ n =>
              exact absurd (share_unique_idx hord hlab hp j' j hj' hj (by omega) hsh) hne)
      have hscansl : scan pfx (listSlice ls start stop) = scanAct pfx ls[j] := by
        rw [scan_unique pfx (listSlice ls start stop) (j - start) hjs
          (by rw [hjs2]; exact hsh) ?_, hjs2]
        intro j' hj' hne
        have hlen : j' < ls.length - start := by
          have := hj'
          rw [listSlice_length] at this
          omega
        have hsl' : (listSlice ls start stop)[j']? = some ls[start + j'] := by
          have hj'lt : j' < stop + 1 - start := by
            have := hj'
            rw [listSlice_length] at this
            omega
          rw [listSlice_getElem ls start stop j' hj'lt]
          exact List.getElem?_eq_getElem (by omega)
        obtain ⟨hq, hq2⟩ := List.getElem?_eq_some.mp hsl'
        rw [hq2]
        cases hmc : matchingChars pfx ls[start + j'].1 with
        | zero => rfl
        | succ n =>
            have := share_unique_idx hord hlab hp (start + j') j (by omega) hj (by omega) hsh
            exact absurd (by omega : j' = j - start) hne
      rw [hscansl, hscanls]
    · push_neg at hex
      have hnone : ∀ l ∈ ls, matchingChars pfx l.1 = 0 :=
        no_share_of_forall_idx (by intro j hj; have := hex j hj; omega)
      rw [scan_no_share pfx ls hnone, scan_no_share pfx _ (by
        intro l hl
        exact hnone l (listSlice_subset ls start stop l hl))]
  · rw [findRange, if_neg h20]
    rw [listSlice_full]

/-! ### Structural and counting invariants of reachable trees -/

/-- Structural well-formedness of a subtree sitting at path `π` from the
root: a terminal node stores exactly the concatenated path, sibling labels
are strictly sorted and share no leading character (prefix-free), and edge
labels are non-empty. -/
inductive SInv {V : Type} : Str → Tree V → Prop where
  | mk : ∀ (π k : Str) (v : Option V) (ls : List (Str × Tree V)) (d : Nat),
      (k ≠ [] → k = π) →
      ls.Pairwise LinkRel →
      (∀ l ∈ ls, l.1 ≠ []) →
      (∀ l ∈ ls, SInv (π ++ l.1) l.2) →
      SInv π (.node k v ls d)

theorem SInv.key_eq {V : Type} {π : Str} {t : Tree V} (h : SInv π t) :
    t.key ≠ [] → t.key = π := by
  cases h with
  | mk _ _ _ _ _ hkey _ _ _ => exact hkey

theorem SInv.ord {V : Type} {π : Str} {t : Tree V} (h : SInv π t) :
    t.links.Pairwise LinkRel := by
  cases h with
  | mk _ _ _ _ _ _ hord _ _ => exact hord

theorem SInv.lab {V : Type} {π : Str} {t : Tree V} (h : SInv π t) :
    ∀ l ∈ t.links, l.1 ≠ [] := by
  cases h with
  | mk _ _ _ _ _ _ _ hlab _ => exact hlab

theorem SInv.child {V : Type} {π : Str} {t : Tree V} (h : SInv π t) :
    ∀ l ∈ t.links, SInv (π ++ l.1) l.2 := by
  cases h with
  | mk _ _ _ _ _ _ _ _ hch => exact hch

/-- Counting well-formedness: at every non-root node, the `descendants`
counter equals the number of terminal nodes in its subtree, each subtree
stores at least one key, and every non-terminal non-root node branches at
least two ways. -/
inductive DInv {V : Type} : Tree V → Prop where
  | mk : ∀ (k : Str) (v : Option V) (ls : List (Str × Tree V)) (d : Nat),
      (∀ l ∈ ls, l.2.descendants = countTerm l.2) →
      (∀ l ∈ ls, 1 ≤ countTerm l.2) →
      (∀ l ∈ ls, l.2.key = [] → 2 ≤ l.2.links.length) →
      (∀ l ∈ ls, DInv l.2) →
      DInv (.node k v ls d)

theorem DInv.desc {V : Type} {t : Tree V} (h : DInv t) :
    ∀ l ∈ t.links, l.2.descendants = countTerm l.2 := by
  cases h with
  | mk _ _ _ _ h1 _ _ _ => exact h1

theorem DInv.cnt {V : Type} {t : Tree V} (h : DInv t) :
    ∀ l ∈ t.links, 1 ≤ countTerm l.2 := by
  cases h with
  | mk _ _ _ _ _ h2 _ _ => exact h2

theorem DInv.branch {V : Type} {t : Tree V} (h : DInv t) :
    ∀ l ∈ t.links, l.2.key = [] → 2 ≤ l.2.links.length := by
  cases h with
  | mk _ _ _ _ _ _ h3 _ => exact h3

theorem DInv.sub {V : Type} {t : Tree V} (h : DInv t) :
    ∀ l ∈ t.links, DInv l.2 := by
  cases h with
  | mk _ _ _ _ _ _ _ h4 => exact h4

/-! ### Facts about `kvList` under the invariants -/

theorem kvListL_append {V : Type} (a b : List (Str × Tree V)) :
    kvListL (a ++ b) = kvListL a ++ kvListL b := by
  induction a with
  | nil => simp [kvListL]
  | cons l rest ih =>
      obtain ⟨a0, c0⟩ := l
      simp [kvListL, ih]

theorem kvListL_mem {V : Type} {e : Str × Option V} {ls : List (Str × Tree V)} :
    e ∈ kvListL ls ↔ ∃ l ∈ ls, e ∈ kvList l.2 := by
  induction ls with
  | nil =>
      rw [kvListL]
      constructor
      · intro h
        exact absurd h (List.not_mem_nil e)
      · rintro ⟨l, hl, _⟩
        exact absurd hl (List.not_mem_nil l)
  | cons l rest ih =>
      obtain ⟨a0, c0⟩ := l
      rw [kvListL, List.mem_append, ih]
      constructor
      · rintro (h | ⟨l', hl', he⟩)
        · exact ⟨(a0, c0), by simp, h⟩
        · exact ⟨l', by simp [hl'], he⟩
      · rintro ⟨l', hl', he⟩
        rcases List.mem_cons.mp hl' with rfl | h
        · exact Or.inl he
        · exact Or.inr ⟨l', h, he⟩

theorem kvList_terminal {V : Type} (t : Tree V) (h : t.key ≠ []) :
    kvList t = (t.key, t.value) :: kvListL t.links := by
  cases t with
  | node k v ls d =>
      simp only [Tree.key] at h
      simp [kvList, h, Tree.key, Tree.value, Tree.links]

theorem kvList_nonterminal {V : Type} (t : Tree V) (h : t.key = []) :
    kvList t = kvListL t.links := by
  cases t with
  | node k v ls d =>
      simp only [Tree.key] at h
      simp [kvList, h, Tree.links]

theorem kvList_ext {V : Type} {π : Str} {t : Tree V} (h : SInv π t) :
    ∀ e ∈ kvList t, π <+: e.1 := by
  induction h with
  | mk π k v ls d hkey hord hlab hch ih =>
      intro e he
      rw [kvList] at he
      rcases List.mem_append.mp he with h1 | h2
      · by_cases hk : k = []
        · simp [hk] at h1
        · simp only [if_neg hk, List.mem_singleton] at h1
          subst h1
          rw [hkey hk]
      · obtain ⟨l, hl, he'⟩ := kvListL_mem.mp h2
        exact (List.prefix_append π l.1).trans (ih l hl e he')

theorem head_of_pref {a b : Str} (h : a <+: b) (ha : a ≠ []) (hb : b ≠ []) :
    a.head ha = b.head hb := by
  cases a with
  | nil => exact absurd rfl ha
  | cons x s =>
      cases b with
      | nil => exact absurd rfl hb
      | cons y t =>
          have := (List.cons_prefix_cons.mp h).1
          simpa using this

/-- Two non-empty strings that are both prefixes of the same string share a
leading character. -/
theorem share_of_prefix_both {p L e : Str} (hp : p ≠ []) (hL : L ≠ [])
    (h1 : p <+: e) (h2 : L <+: e) : matchingChars p L ≠ 0 := by
  rcases List.prefix_or_prefix_of_prefix h1 h2 with h | h
  · exact mc_ne_zero_of_head hp hL (head_of_pref h hp hL)
  · exact mc_ne_zero_of_head hp hL (head_of_pref h hL hp).symm

/-- Stripping a common leading path: if `π ++ a` and `π ++ b` are both
prefixes of the same string and `a`, `b` are non-empty, then `a` and `b`
share a leading character. -/
theorem prefix_strip {π a b e : Str} (ha : a ≠ []) (hb : b ≠ [])
    (h1 : (π ++ a) <+: e) (h2 : (π ++ b) <+: e) : matchingChars a b ≠ 0 := by
  rcases List.prefix_or_prefix_of_prefix h1 h2 with h | h
  · rw [List.prefix_append_right_inj] at h
    exact mc_ne_zero_of_head ha hb (head_of_pref h ha hb)
  · rw [List.prefix_append_right_inj] at h
    exact mc_ne_zero_of_head ha hb (head_of_pref h hb ha).symm

theorem countTermL_ge_len {V : Type} (ls : List (Str × Tree V))
    (h : ∀ l ∈ ls, 1 ≤ countTerm l.2) : ls.length ≤ countTermL ls := by
  induction ls with
  | nil => simp [countTermL]
  | cons l rest ih =>
      rw [countTermL]
      have h1 := h l (by simp)
      have h2 := ih (fun x hx => h x (by simp [hx]))
      simp only [List.length_cons]
      omega

theorem countTermL_zero {V : Type} (ls : List (Str × Tree V))
    (h : ∀ l ∈ ls, 1 ≤ countTerm l.2) (h0 : countTermL ls = 0) : ls = [] := by
  cases ls with
  | nil => rfl
  | cons l rest =>
      rw [countTermL] at h0
      have := h l (by simp)
      omega

/-- A terminal subtree holding exactly one key is a leaf, and its `kvList`
is the corresponding singleton. -/
theorem kvList_singleton {V : Type} (c : Tree V) (hd : DInv c)
    (h1 : countTerm c = 1) (hterm : c.key ≠ []) :
    kvList c = [(c.key, c.value)] := by
  cases c with
  | node k v ls d =>
      simp only [Tree.key] at hterm
      rw [countTerm, if_neg hterm] at h1
      have hzero : countTermL ls = 0 := by omega
      have hnil : ls = [] :=
        countTermL_zero ls (fun l hl => hd.cnt l hl) hzero
      subst hnil
      simp [kvList, hterm, kvListL, Tree.key, Tree.value]

/-! ### The specification-level resolution outcome -/

/-- The abstract outcome of prefix resolution: the matched key and value, the
key/value pairs of an ambiguous subtree, or nothing. -/
inductive Outcome (V : Type) : Type where
  | found (k : Str) (v : Option V)
  | ambiguous (entries : List (Str × Option V))
  | notFound
deriving DecidableEq

/-- First value bound to key `k` in an association list. -/
def lookupA {V : Type} (k : Str) : List (Str × Option V) → Option (Option V)
  | [] => none
  | e :: rest => if e.1 = k then some e.2 else lookupA k rest

/-- Resolution specified purely on the association list of stored keys: keep
the stored pairs extending `full`; an exact hit wins, otherwise a unique
extension wins, two or more extensions are ambiguous, none is not-found. -/
def specResolve {V : Type} (A : List (Str × Option V)) (full : Str) : Outcome V :=
  let M := A.filter (fun e => full.isPrefixOf e.1)
  match lookupA full M with
  | some v => .found full v
  | none =>
      match M with
      | [] => .notFound
      | [e] => .found e.1 e.2
      | _ => .ambiguous M

/-- Abstraction of a concrete `findSubtree` result. -/
def abstr {V : Type} : FindRes V → Outcome V
  | .found st => .found st.key st.value
  | .ambiguous st => .ambiguous (kvList st)
  | .notFound => .notFound

theorem specResolve_congr {V : Type} (A B : List (Str × Option V)) (full : Str)
    (h : A.filter (fun e => full.isPrefixOf e.1) = B.filter (fun e => full.isPrefixOf e.1)) :
    specResolve A full = specResolve B full := by
  rw [specResolve, specResolve, h]

theorem lookupA_none {V : Type} (k : Str) (A : List (Str × Option V))
    (h : ∀ e ∈ A, e.1 ≠ k) : lookupA k A = none := by
  induction A with
  | nil => rfl
  | cons e rest ih =>
      rw [lookupA, if_neg (h e (by simp))]
      exact ih (fun x hx => h x (by simp [hx]))

theorem specResolve_eq_notFound {V : Type} (A : List (Str × Option V)) (full : Str)
    (h : A.filter (fun e => full.isPrefixOf e.1) = []) : specResolve A full = .notFound := by
  unfold specResolve
  simp only [h]
  rfl

theorem specResolve_eq_found_exact {V : Type} (A : List (Str × Option V)) (full : Str)
    (v : Option V) (h : lookupA full (A.filter (fun e => full.isPrefixOf e.1)) = some v) :
    specResolve A full = .found full v := by
  unfold specResolve
  simp only [h]

theorem specResolve_eq_found_one {V : Type} (A : List (Str × Option V)) (full : Str)
    (e : Str × Option V) (hM : A.filter (fun e => full.isPrefixOf e.1) = [e])
    (hne : e.1 ≠ full) : specResolve A full = .found e.1 e.2 := by
  unfold specResolve
  simp only [hM]
  rw [show lookupA full [e] = none by simp [lookupA, hne]]

theorem specResolve_eq_ambiguous {V : Type} (A : List (Str × Option V)) (full : Str)
    (hlen : 2 ≤ (A.filter (fun e => full.isPrefixOf e.1)).length)
    (hnone : lookupA full (A.filter (fun e => full.isPrefixOf e.1)) = none) :
    specResolve A full = .ambiguous (A.filter (fun e => full.isPrefixOf e.1)) := by
  unfold specResolve
  simp only [hnone]
  rcases hM : A.filter (fun e => full.isPrefixOf e.1) with _ | ⟨e1, M'⟩
  · rw [hM] at hlen
    simp at hlen
  · rcases M' with _ | ⟨e2, M''⟩
    · rw [hM] at hlen
      simp at hlen
    · simp only [hM]

/-- The self entry of a node at path `π` never extends `π ++ pfx` for a
non-empty `pfx`. -/
theorem self_not_ext {V : Type} {π pfx k : Str} {v : Option V}
    {ls : List (Str × Tree V)} {d : Nat}
    (hs : SInv π (Tree.node k v ls d)) (hp : pfx ≠ []) :
    ((if k = [] then ([] : List (Str × Option V)) else [(k, v)]).filter
      (fun e => (π ++ pfx).isPrefixOf e.1)) = [] := by
  by_cases hk : k = []
  · simp [hk]
  · have hkπ : k = π := hs.key_eq (by simpa [Tree.key] using hk)
    rw [if_neg hk]
    apply List.filter_eq_nil_iff.mpr
    intro e he
    simp only [List.mem_singleton] at he
    subst he
    simp only [decide_eq_true_eq, Bool.not_eq_true]
    rw [Bool.eq_false_iff, Ne, List.isPrefixOf_iff_prefix]
    intro hpf
    have := hpf.length_le
    simp only [hkπ, List.length_append] at this
    have : pfx.length = 0 := by omega
    exact hp (List.length_eq_zero.mp this)

/-- No entry below a link whose label shares no leading character with `pfx`
extends `π ++ pfx`. -/
theorem kvListL_filter_nil {V : Type} (π pfx : Str) (hp : pfx ≠ [])
    (ls' : List (Str × Tree V))
    (hch : ∀ l ∈ ls', SInv (π ++ l.1) l.2)
    (hlab : ∀ l ∈ ls', l.1 ≠ [])
    (hns : ∀ l ∈ ls', matchingChars pfx l.1 = 0) :
    (kvListL ls').filter (fun e => (π ++ pfx).isPrefixOf e.1) = [] := by
  apply List.filter_eq_nil_iff.mpr
  intro e he
  obtain ⟨l, hl, he'⟩ := kvListL_mem.mp he
  simp only [decide_eq_true_eq, Bool.not_eq_true]
  rw [Bool.eq_false_iff, Ne, List.isPrefixOf_iff_prefix]
  intro hpf
  have hext : (π ++ l.1) <+: e.1 := kvList_ext (hch l hl) e he'
  have := prefix_strip hp (hlab l hl) hpf hext
  exact this (hns l hl)

/-- If exactly the `j`-th link shares a leading character with `pfx`, the
entries of the node extending `π ++ pfx` are exactly those of the `j`-th
subtree extending it. -/
theorem filter_kvList_block {V : Type} {π pfx k : Str} {v : Option V}
    {ls : List (Str × Tree V)} {d : Nat}
    (hs : SInv π (Tree.node k v ls d)) (hp : pfx ≠ [])
    (j : Nat) (hj : j < ls.length)
    (hothers : ∀ i, ∀ hi : i < ls.length, i ≠ j → matchingChars pfx ls[i].1 = 0) :
    (kvList (Tree.node k v ls d)).filter (fun e => (π ++ pfx).isPrefixOf e.1)
      = (kvList ls[j].2).filter (fun e => (π ++ pfx).isPrefixOf e.1) := by
  have hls : ls = ls.take j ++ ls[j] :: ls.drop (j + 1) := by
    conv =>
      lhs
      rw [← List.take_append_drop j ls]
    rw [List.drop_eq_getElem_cons hj]
  rw [kvList]
  rw [List.filter_append, self_not_ext hs hp, List.nil_append]
  conv =>
    lhs
    rw [hls]
  rw [kvListL_append, kvListL]
  rw [List.filter_append, List.filter_append]
  have hch := hs.child
  have hlab := hs.lab
  simp only [Tree.links] at hch hlab
  have htake : (kvListL (ls.take j)).filter (fun e => (π ++ pfx).isPrefixOf e.1) = [] := by
    apply kvListL_filter_nil π pfx hp
    · intro l hl
      exact hch l (List.take_subset j ls hl)
    · intro l hl
      exact hlab l (List.take_subset j ls hl)
    · intro l hl
      rw [List.mem_take_iff_getElem] at hl
      obtain ⟨i, hi, rfl⟩ := hl
      exact hothers i (by omega) (by omega)
  have hdrop : (kvListL (ls.drop (j + 1))).filter (fun e => (π ++ pfx).isPrefixOf e.1) = [] := by
    apply kvListL_filter_nil π pfx hp
    · intro l hl
      exact hch l (List.drop_subset (j + 1) ls hl)
    · intro l hl
      exact hlab l (List.drop_subset (j + 1) ls hl)
    · intro l hl
      rw [List.mem_drop_iff_getElem] at hl
      obtain ⟨i, hi, rfl⟩ := hl
      exact hothers (j + 1 + i) (by omega) (by omega)
  rw [htake, hdrop]
  simp

/-- With no link sharing a leading character with `pfx`, no stored key
extends `π ++ pfx` at all. -/
theorem filter_kvList_nil {V : Type} {π pfx k : Str} {v : Option V}
    {ls : List (Str × Tree V)} {d : Nat}
    (hs : SInv π (Tree.node k v ls d)) (hp : pfx ≠ [])
    (hnone : ∀ l ∈ ls, matchingChars pfx l.1 = 0) :
    (kvList (Tree.node k v ls d)).filter (fun e => (π ++ pfx).isPrefixOf e.1) = [] := by
  rw [kvList, List.filter_append, self_not_ext hs hp, List.nil_append]
  have hch := hs.child
  have hlab := hs.lab
  simp only [Tree.links] at hch hlab
  exact kvListL_filter_nil π pfx hp ls hch hlab hnone

/-! ### The master theorem: `findSubtree` computes `specResolve` -/

theorem isTerminal_iff {V : Type} (t : Tree V) : t.isTerminal = true ↔ t.key ≠ [] := by
  cases t with
  | node k v ls d =>
      cases k <;> simp [Tree.isTerminal, Tree.key]

theorem findSubtreeF_nil {V : Type} (fuel : Nat) (t : Tree V) (h : 1 ≤ fuel) :
    findSubtreeF fuel t [] = if t.isTerminal then .found t else .ambiguous t := by
  cases fuel with
  | zero => omega
  | succ n => rw [findSubtreeF, if_pos rfl]

theorem countTerm_expand {V : Type} (t : Tree V) :
    countTerm t = (if t.key = [] then 0 else 1) + countTermL t.links := by
  cases t with
  | node k v ls d => rw [countTerm, Tree.key, Tree.links]

/-- Keys stored strictly below path `ρ` are strictly longer than `ρ`. -/
theorem kvList_key_long {V : Type} {ρ : Str} {c : Tree V} (hsc : SInv ρ c)
    {e : Str × Option V} (he : e ∈ kvListL c.links) : ρ.length < e.1.length := by
  obtain ⟨l, hl, he'⟩ := kvListL_mem.mp he
  have hext : (ρ ++ l.1) <+: e.1 := kvList_ext (hsc.child l hl) e he'
  have hlen := hext.length_le
  have hlab := hsc.lab l hl
  have : l.1.length ≠ 0 := by simpa [List.length_eq_zero] using hlab
  simp only [List.length_append] at hlen
  omega

/-- Every key of a subtree at path `ρ` extends `ρ`, so if all of them also
extend `full`, filtering is the identity. -/
theorem filter_kvList_self {V : Type} {ρ full : Str} {c : Tree V} (hsc : SInv ρ c)
    (hful : full <+: ρ) : (kvList c).filter (fun e => full.isPrefixOf e.1) = kvList c := by
  apply List.filter_eq_self.mpr
  intro e he
  rw [List.isPrefixOf_iff_prefix]
  exact hful.trans (kvList_ext hsc e he)

theorem findSubtreeF_spec {V : Type} :
    ∀ (fuel : Nat) (t : Tree V) (π pfx : Str),
      SInv π t → DInv t → pfx ≠ [] → pfx.length < fuel →
      abstr (findSubtreeF fuel t pfx) = specResolve (kvList t) (π ++ pfx) := by
  intro fuel
  induction fuel with
  | zero =>
      intro t π pfx _ _ _ h
      omega
  | succ n ih =>
      intro t π pfx hs hd hp hfuel
      have hplen : 1 ≤ pfx.length := List.length_pos.mpr hp
      cases t with
      | node k v ls d =>
          have hord := hs.ord
          have hlab := hs.lab
          have hch := hs.child
          have hdch := hd.sub
          have hddesc := hd.desc
          have hdcnt := hd.cnt
          have hdbr := hd.branch
          simp only [Tree.links] at hord hlab hch hdch hddesc hdcnt hdbr
          rw [findSubtreeF, if_neg hp]
          simp only [Tree.links]
          rw [scan_findRange ls pfx hord hlab hp]
          by_cases hex : ∃ j, ∃ hj : j < ls.length, matchingChars pfx ls[j].1 ≠ 0
          · obtain ⟨j, hj, hsh⟩ := hex
            have hothers : ∀ i, ∀ hi : i < ls.length, i ≠ j → matchingChars pfx ls[i].1 = 0 := by
              intro i hi hne
              by_contra hcon
              exact hne (share_unique_idx hord hlab hp i j hi hj hcon hsh)
            rw [scan_unique pfx ls j hj hsh hothers]
            have hmem : ls[j] ∈ ls := List.getElem_mem hj
            have hsc : SInv (π ++ ls[j].1) ls[j].2 := hch _ hmem
            have hdc : DInv ls[j].2 := hdch _ hmem
            have hlabj : ls[j].1 ≠ [] := hlab _ hmem
            have hblock := filter_kvList_block hs hp j hj hothers
            have hm1 : 1 ≤ matchingChars pfx ls[j].1 := by omega
            by_cases hmL : matchingChars pfx ls[j].1 = ls[j].1.length
            · -- full label match: descend
              simp only [scanAct, if_pos hmL]
              have hLpfx : ls[j].1 <+: pfx := (matchingChars_eq_right_iff pfx ls[j].1).mp hmL
              obtain ⟨r, hr⟩ := hLpfx
              have hdropr : pfx.drop (matchingChars pfx ls[j].1) = r := by
                rw [hmL, ← hr, List.drop_left]
              have hfull : π ++ pfx = (π ++ ls[j].1) ++ r := by
                rw [← hr, List.append_assoc]
              by_cases hrnil : r = []
              · subst hrnil
                have hpfxL : pfx = ls[j].1 := by rw [← hr, List.append_nil]
                rw [hdropr]
                rw [findSubtreeF_nil n ls[j].2 (by omega)]
                by_cases hterm : ls[j].2.isTerminal = true
                · rw [if_pos hterm]
                  have hkey : ls[j].2.key ≠ [] := (isTerminal_iff _).mp hterm
                  have hkeyπ : ls[j].2.key = π ++ ls[j].1 := hsc.key_eq hkey
                  have hfilter : (kvList (Tree.node k v ls d)).filter
                      (fun e => (π ++ pfx).isPrefixOf e.1) = kvList ls[j].2 := by
                    rw [hblock, hpfxL]
                    exact filter_kvList_self hsc (List.prefix_refl _)
                  rw [abstr]
                  rw [specResolve_eq_found_exact _ _ ls[j].2.value ?_]
                  · rw [hkeyπ, hpfxL]
                  · rw [hfilter, kvList_terminal _ hkey, lookupA]
                    rw [if_pos (by rw [hkeyπ, hpfxL])]
                · rw [if_neg hterm]
                  have hkey : ls[j].2.key = [] := by
                    by_contra hcon
                    exact hterm ((isTerminal_iff _).mpr hcon)
                  have hfilter : (kvList (Tree.node k v ls d)).filter
                      (fun e => (π ++ pfx).isPrefixOf e.1) = kvList ls[j].2 := by
                    rw [hblock, hpfxL]
                    exact filter_kvList_self hsc (List.prefix_refl _)
                  rw [abstr]
                  rw [specResolve_eq_ambiguous _ _ ?_ ?_]
                  · rw [hfilter]
                  · rw [hfilter, ← countTerm_eq_kvLen, countTerm_expand, if_pos hkey]
                    have hbr : 2 ≤ ls[j].2.links.length := hdbr _ hmem hkey
                    have := countTermL_ge_len ls[j].2.links (fun l hl => hdc.cnt l hl)
                    omega
                  · rw [hfilter]
                    apply lookupA_none
                    intro e he
                    rw [kvList_nonterminal _ hkey] at he
                    have := kvList_key_long hsc he
                    intro hcon
                    rw [hcon] at this
                    rw [hpfxL] at this
                    omega
              · -- keep descending with the unconsumed suffix r
                have hrlen : r.length < n := by
                  have h1 : pfx.length = ls[j].1.length + r.length := by
                    rw [← hr]
                    simp
                  have h2 : 1 ≤ ls[j].1.length := by
                    have : ls[j].1.length ≠ 0 := by
                      simpa [List.length_eq_zero] using hlabj
                    omega
                  omega
                rw [hdropr]
                rw [ih ls[j].2 (π ++ ls[j].1) r hsc hdc hrnil hrlen]
                rw [← hfull]
                exact (specResolve_congr _ _ _ hblock).symm
            · -- the label is not fully consumed
              simp only [scanAct, if_neg hmL]
              by_cases hmp : matchingChars pfx ls[j].1 = pfx.length
              · -- prefix exhausted mid-label
                rw [if_pos hmp]
                have hpfxL : pfx <+: ls[j].1 := (matchingChars_eq_left_iff pfx ls[j].1).mp hmp
                have hlt : pfx.length < ls[j].1.length := by
                  have := hpfxL.length_le
                  omega
                have hfull_le : (π ++ pfx) <+: (π ++ ls[j].1) :=
                  (List.prefix_append_right_inj π).mpr hpfxL
                have hfilter : (kvList (Tree.node k v ls d)).filter
                    (fun e => (π ++ pfx).isPrefixOf e.1) = kvList ls[j].2 := by
                  rw [hblock]
                  exact filter_kvList_self hsc hfull_le
                have hkeyne : ∀ e ∈ kvList ls[j].2, e.1 ≠ π ++ pfx := by
                  intro e he hcon
                  have hext : (π ++ ls[j].1) <+: e.1 := kvList_ext hsc e he
                  have := hext.length_le
                  rw [hcon] at this
                  simp only [List.length_append] at this
                  omega
                by_cases hdesc : 1 < ls[j].2.descendants
                · rw [if_pos hdesc, abstr]
                  rw [specResolve_eq_ambiguous _ _ ?_ ?_]
                  · rw [hfilter]
                  · rw [hfilter, ← countTerm_eq_kvLen]
                    have := hddesc _ hmem
                    omega
                  · rw [hfilter]
                    exact lookupA_none _ _ hkeyne
                · rw [if_neg hdesc]
                  have hcnt1 : countTerm ls[j].2 = 1 := by
                    have h1 := hddesc _ hmem
                    have h2 := hdcnt _ hmem
                    omega
                  by_cases hterm : ls[j].2.isTerminal = true
                  · rw [if_pos hterm, abstr]
                    have hkey : ls[j].2.key ≠ [] := (isTerminal_iff _).mp hterm
                    have hsing := kvList_singleton ls[j].2 hdc hcnt1 hkey
                    rw [specResolve_eq_found_one _ _ (ls[j].2.key, ls[j].2.value) ?_ ?_]
                    · rw [hfilter, hsing]
                    · exact hkeyne _ (by rw [hsing]; simp)
                  · -- impossible: one stored key below but not terminal
                    exfalso
                    have hkey : ls[j].2.key = [] := by
                      by_contra hcon
                      exact hterm ((isTerminal_iff _).mpr hcon)
                    have hbr : 2 ≤ ls[j].2.links.length := hdbr _ hmem hkey
                    have := countTermL_ge_len ls[j].2.links (fun l hl => hdc.cnt l hl)
                    rw [countTerm_expand, if_pos hkey] at hcnt1
                    omega
              · -- the prefix diverges inside the label: nothing matches
                rw [if_neg hmp]
                rw [abstr]
                rw [specResolve_eq_notFound]
                rw [hblock]
                apply List.filter_eq_nil_iff.mpr
                intro e he hpf
                rw [List.isPrefixOf_iff_prefix] at hpf
                have hext : (π ++ ls[j].1) <+: e.1 := kvList_ext hsc e he
                rcases List.prefix_or_prefix_of_prefix hpf hext with hcase | hcase
                · rw [List.prefix_append_right_inj] at hcase
                  exact hmp ((matchingChars_eq_left_iff pfx ls[j].1).mpr hcase)
                · rw [List.prefix_append_right_inj] at hcase
                  exact hmL ((matchingChars_eq_right_iff pfx ls[j].1).mpr hcase)
          · push_neg at hex
            have hnone : ∀ l ∈ ls, matchingChars pfx l.1 = 0 := by
              intro l hl
              obtain ⟨i, hi, rfl⟩ := List.getElem_of_mem hl
              have := hex i hi
              omega
            rw [scan_no_share pfx ls hnone]
            rw [abstr]
            rw [specResolve_eq_notFound]
            exact filter_kvList_nil hs hp hnone

/-! ### Helpers for the insertion proof -/

theorem headLT_of_rel {a b : Str} (ha : a ≠ []) (hb : b ≠ [])
    (h1 : strLT a b = true) (h2 : matchingChars a b = 0) :
    a.head ha < b.head hb := by
  cases a with
  | nil => exact absurd rfl ha
  | cons x s =>
      cases b with
      | nil => exact absurd rfl hb
      | cons y t =>
          have hne : x ≠ y := by
            intro hcon
            exact matchingChars_cons_pos.mpr hcon h2
          have hle := strLT_cons_le h1
          simp only [List.head_cons]
          exact lt_of_le_of_ne hle hne

theorem rel_of_headLT {a b : Str} (ha : a ≠ []) (hb : b ≠ [])
    (h : a.head ha < b.head hb) : strLT a b = true ∧ matchingChars a b = 0 := by
  cases a with
  | nil => exact absurd rfl ha
  | cons x s =>
      cases b with
      | nil => exact absurd rfl hb
      | cons y t =>
          simp only [List.head_cons] at h
          constructor
          · exact (strLT_cons_iff x y s t).mpr (Or.inl h)
          · by_cases hc : x = y
            · subst hc
              exact absurd h (lt_irrefl x)
            · simp [matchingChars, hc]

theorem head_take {a : Str} (m : Nat) (hm : 1 ≤ m) (ha : a ≠ []) :
    (a.take m).head (by cases a with
      | nil => exact absurd rfl ha
      | cons x s => cases m with
        | zero => omega
        | succ m' => simp) = a.head ha := by
  cases a with
  | nil => exact absurd rfl ha
  | cons x s =>
      cases m with
      | zero => omega
      | succ m' => simp

/-- Replacing the `j`-th link with one whose label starts with the same
character preserves the sibling ordering invariant. -/
theorem pairwise_set_head {V : Type} (ls : List (Str × Tree V)) (j : Nat)
    (hj : j < ls.length) (a : Str × Tree V)
    (hord : ls.Pairwise LinkRel) (hlab : ∀ l ∈ ls, l.1 ≠ []) (ha : a.1 ≠ [])
    (hhead : a.1.head ha = ls[j].1.head (hlab _ (List.getElem_mem hj))) :
    (ls.set j a).Pairwise LinkRel := by
  rw [List.set_eq_take_cons_drop a hj]
  have hdecomp : ls = ls.take j ++ ls[j] :: ls.drop (j + 1) := by
    conv =>
      lhs
      rw [← List.take_append_drop j ls]
    rw [List.drop_eq_getElem_cons hj]
  have hord' := hord
  rw [hdecomp, List.pairwise_append] at hord'
  obtain ⟨h1, h2, h3⟩ := hord'
  rw [List.pairwise_cons] at h2
  obtain ⟨h2a, h2b⟩ := h2
  have hlabj : ls[j].1 ≠ [] := hlab _ (List.getElem_mem hj)
  have hrel_new_r : ∀ b ∈ ls.drop (j + 1), LinkRel a b := by
    intro b hb
    have hrel := h2a b hb
    have hlabb : b.1 ≠ [] := hlab b (List.drop_subset _ ls hb)
    have hh := headLT_of_rel hlabj hlabb hrel.1 hrel.2
    have := rel_of_headLT ha hlabb (by rw [hhead]; exact hh)
    exact this
  have hrel_l_new : ∀ b ∈ ls.take j, LinkRel b a := by
    intro b hb
    have hrel := h3 b hb ls[j] (List.mem_cons_self _ _)
    have hlabb : b.1 ≠ [] := hlab b (List.take_subset _ ls hb)
    have hh := headLT_of_rel hlabb hlabj hrel.1 hrel.2
    have := rel_of_headLT hlabb ha (by rw [hhead]; exact hh)
    exact this
  rw [List.pairwise_append]
  refine ⟨h1, ?_, ?_⟩
  · rw [List.pairwise_cons]
    exact ⟨hrel_new_r, h2b⟩
  · intro b hb c hc
    rcases List.mem_cons.mp hc with rfl | hc'
    · exact hrel_l_new b hb
    · exact h3 b hb c (List.mem_cons_of_mem _ hc')

theorem insertIdx_decomp {α : Type} (ls : List α) (n : Nat) (a : α) (h : n ≤ ls.length) :
    ls.insertIdx n a = ls.take n ++ a :: ls.drop n := by
  induction ls generalizing n with
  | nil =>
      simp at h
      subst h
      rfl
  | cons x rest ih =>
      cases n with
      | zero => rfl
      | succ n' =>
          simp only [List.insertIdx_succ_cons, List.take_succ_cons, List.drop_succ_cons,
            List.cons_append]
          rw [ih n' (by simpa using h)]

theorem countTermL_append {V : Type} (a b : List (Str × Tree V)) :
    countTermL (a ++ b) = countTermL a + countTermL b := by
  induction a with
  | nil => simp [countTermL]
  | cons l rest ih =>
      obtain ⟨a0, c0⟩ := l
      rw [List.cons_append, countTermL, countTermL, ih]
      omega

/-- Membership in the `kvList` of a node, given membership below one link. -/
theorem kvList_sub_child {V : Type} {k : Str} {v : Option V}
    {ls : List (Str × Tree V)} {d : Nat} {l : Str × Tree V} (hl : l ∈ ls)
    {e : Str × Option V} (he : e ∈ kvList l.2) : e ∈ kvList (Tree.node k v ls d) := by
  rw [kvList, List.mem_append]
  exact Or.inr (kvListL_mem.mpr ⟨l, hl, he⟩)

/-- Decomposition of `kvListL` after a `set`. -/
theorem kvListL_set {V : Type} (ls : List (Str × Tree V)) (j : Nat)
    (hj : j < ls.length) (a : Str × Tree V) :
    kvListL (ls.set j a)
      = kvListL (ls.take j) ++ kvList a.2 ++ kvListL (ls.drop (j + 1)) := by
  rw [List.set_eq_take_cons_drop a hj, kvListL_append, kvListL]
  simp

theorem kvListL_decomp {V : Type} (ls : List (Str × Tree V)) (j : Nat)
    (hj : j < ls.length) :
    kvListL ls
      = kvListL (ls.take j) ++ kvList ls[j].2 ++ kvListL (ls.drop (j + 1)) := by
  conv =>
    lhs
    rw [← List.take_append_drop j ls, List.drop_eq_getElem_cons hj]
  rw [kvListL_append, kvListL]
  simp

theorem countTermL_set {V : Type} (ls : List (Str × Tree V)) (j : Nat)
    (hj : j < ls.length) (a : Str × Tree V) :
    countTermL (ls.set j a)
      = countTermL (ls.take j) + countTerm a.2 + countTermL (ls.drop (j + 1)) := by
  rw [List.set_eq_take_cons_drop a hj, countTermL_append, countTermL]
  omega

theorem countTermL_decomp {V : Type} (ls : List (Str × Tree V)) (j : Nat)
    (hj : j < ls.length) :
    countTermL ls
      = countTermL (ls.take j) + countTerm ls[j].2 + countTermL (ls.drop (j + 1)) := by
  conv =>
    lhs
    rw [← List.take_append_drop j ls, List.drop_eq_getElem_cons hj]
  rw [countTermL_append, countTermL]
  omega

/-- The `addScan` over the two binary-search candidates, when no link shares
a leading character with `k`: no action. -/
theorem addScan_slice_none {V : Type} (ls : List (Str × Tree V)) (k : Str)
    (hlab : ∀ l ∈ ls, l.1 ≠ [])
    (hnone : ∀ l ∈ ls, matchingChars l.1 k = 0) (start stop : Nat) :
    addScan k (listSlice ls start stop) = .none := by
  apply addScan_no_share
  · intro l hl
    exact hlab l (listSlice_subset ls start stop l hl)
  · intro l hl
    exact hnone l (listSlice_subset ls start stop l hl)

/-- The `addScan` over the two binary-search candidates, when exactly the
`j`-th link shares a leading character with `k`. -/
theorem addScan_slice_share {V : Type} (ls : List (Str × Tree V)) (k : Str)
    (hord : ls.Pairwise LinkRel) (hlab : ∀ l ∈ ls, l.1 ≠ [])
    (hk : k ≠ []) (j : Nat) (hj : j < ls.length)
    (hsh : matchingChars ls[j].1 k ≠ 0)
    (hothers : ∀ i, ∀ hi : i < ls.length, i ≠ j → matchingChars ls[i].1 k = 0) :
    (search ls.length (linkGE ls k) - 1) + (j - (search ls.length (linkGE ls k) - 1)) = j ∧
    addScan k (listSlice ls (search ls.length (linkGE ls k) - 1)
        (min (search ls.length (linkGE ls k)) (ls.length - 1)))
      = addScanAct k (j - (search ls.length (linkGE ls k) - 1)) ls[j] := by
  have hsh' : matchingChars k ls[j].1 ≠ 0 := by
    rw [matchingChars_comm]
    exact hsh
  obtain ⟨hr1, hr2⟩ := share_in_range hord hlab hk j hj hsh'
  set ix := search ls.length (linkGE ls k) with hix
  set start := ix - 1 with hstart
  set stop := min ix (ls.length - 1) with hstop
  refine ⟨by omega, ?_⟩
  have hjstop : j ≤ stop := le_min hr2 (by omega)
  have hslice : (listSlice ls start stop)[j - start]? = some ls[j] := by
    have h0 := listSlice_getElem ls start stop (j - start) (by omega)
    rw [show start + (j - start) = j by omega] at h0
    rw [h0]
    exact List.getElem?_eq_getElem hj
  obtain ⟨hjs, hjs2⟩ := List.getElem?_eq_some.mp hslice
  rw [addScan_unique k (listSlice ls start stop) (j - start) hjs ?_ ?_ ?_, hjs2]
  · intro l hl
    exact hlab l (listSlice_subset ls start stop l hl)
  · rw [hjs2]
    exact hsh
  · intro j' hj' hne
    have hlen : j' < ls.length - start := by
      have := hj'
      rw [listSlice_length] at this
      omega
    have hsl' : (listSlice ls start stop)[j']? = some ls[start + j'] := by
      have hj'lt : j' < stop + 1 - start := by
        have := hj'
        rw [listSlice_length] at this
        omega
      rw [listSlice_getElem ls start stop j' hj'lt]
      exact List.getElem?_eq_getElem (by omega)
    obtain ⟨hq, hq2⟩ := List.getElem?_eq_some.mp hsl'
    rw [hq2]
    have hcase : start + j' ≠ j := by
      intro hcon
      exact hne (by omega)
    exact hothers (start + j') (by omega) hcase

/-- Sorting facts about the insertion position when no link shares a leading
character with the new remaining key. -/
theorem insert_pos_bounds {V : Type} (ls : List (Str × Tree V)) (k : Str)
    (hord : ls.Pairwise LinkRel) (hk : k ≠ [])
    (hnone : ∀ l ∈ ls, matchingChars l.1 k = 0) :
    (∀ x, ∀ hx : x < ls.length, x < search ls.length (linkGE ls k) →
        strLT ls[x].1 k = true) ∧
    (∀ x, ∀ hx : x < ls.length, search ls.length (linkGE ls k) ≤ x →
        strLT k ls[x].1 = true) := by
  obtain ⟨hle, hlow, hhigh⟩ :=
    search_spec ls.length (linkGE ls k) (linkGE_mono ls k hord) (linkGE_high ls k)
  constructor
  · intro x hx hlt
    have := hlow x hlt
    rw [linkGE, List.getElem?_eq_getElem hx] at this
    simpa using this
  · intro x hx hge
    have := hhigh x hge
    rw [linkGE, List.getElem?_eq_getElem hx] at this
    simp only [Bool.not_eq_true'] at this
    cases hLT : strLT k ls[x].1 with
    | true => rfl
    | false =>
        have heq : k = ls[x].1 := strLT_eq_of_not_lt hLT this
        have := hnone _ (List.getElem_mem hx)
        rw [← heq, matchingChars_self] at this
        have : k.length = 0 := this
        exact absurd (List.length_eq_zero.mp this) hk

theorem addGoF_nil {V : Type} (fuel : Nat) (t : Tree V) (key : Str) (v : V)
    (h : 1 ≤ fuel) :
    addGoF fuel t key [] v = .node key (some v) t.links (t.descendants + 1) := by
  cases fuel with
  | zero => omega
  | succ n =>
      cases t with
      | node k0 v0 ls d => rw [addGoF, if_pos rfl, Tree.links, Tree.descendants]

theorem addGoF_nil_node {V : Type} (fuel : Nat) (k0 : Str) (v0 : Option V)
    (ls : List (Str × Tree V)) (d : Nat) (key : Str) (v : V) (h : 1 ≤ fuel) :
    addGoF fuel (.node k0 v0 ls d) key [] v = .node key (some v) ls (d + 1) := by
  cases fuel with
  | zero => omega
  | succ n => rw [addGoF, if_pos rfl]

theorem append_ne_nil_right {π k : Str} (hk : k ≠ []) : π ++ k ≠ [] := by
  simp [hk]

theorem take_ne_nil {a : Str} {m : Nat} (hm : 1 ≤ m) (ha : a ≠ []) : a.take m ≠ [] := by
  cases a with
  | nil => exact absurd rfl ha
  | cons x s =>
      cases m with
      | zero => omega
      | succ m' => simp

theorem drop_ne_nil {a : Str} {m : Nat} (hm : m < a.length) : a.drop m ≠ [] := by
  intro hcon
  have := congrArg List.length hcon
  simp at this
  omega

theorem forall_mem_set {α : Type} {ls : List α} {j : Nat} {a : α} {P : α → Prop}
    (h1 : ∀ x ∈ ls, P x) (h2 : P a) : ∀ x ∈ ls.set j a, P x := by
  intro x hx
  rcases List.mem_or_eq_of_mem_set hx with h | h
  · exact h1 x h
  · exact h ▸ h2

/-- `SInv` for a node after replacing the `j`-th link with a same-head link
to a well-formed subtree. -/
theorem SInv_set {V : Type} {π k0 : Str} {v0 : Option V} {ls : List (Str × Tree V)}
    {d d' : Nat} (j : Nat) (hj : j < ls.length) (lab : Str) (c' : Tree V)
    (hs : SInv π (Tree.node k0 v0 ls d)) (hlabne : lab ≠ [])
    (hhead : lab.head hlabne = ls[j].1.head (hs.lab _ (List.getElem_mem hj)))
    (hc' : SInv (π ++ lab) c') :
    SInv π (Tree.node k0 v0 (ls.set j (lab, c')) d') := by
  have hord := hs.ord
  have hlab := hs.lab
  have hch := hs.child
  simp only [Tree.links] at hord hlab hch
  refine SInv.mk π k0 v0 _ d' (by
      intro h
      exact hs.key_eq (by simpa [Tree.key] using h)) ?_ ?_ ?_
  · exact pairwise_set_head ls j hj (lab, c') hord hlab hlabne hhead
  · exact forall_mem_set hlab hlabne
  · exact forall_mem_set hch hc'

/-- `DInv` for a node after replacing the `j`-th link with a subtree whose
counting facts are known. -/
theorem DInv_set {V : Type} {k0 : Str} {v0 : Option V} {ls : List (Str × Tree V)}
    {d d' : Nat} (j : Nat) (lab : Str) (c' : Tree V)
    (hd : DInv (Tree.node k0 v0 ls d))
    (hdesc : c'.descendants = countTerm c') (hcnt : 1 ≤ countTerm c')
    (hbr : c'.key = [] → 2 ≤ c'.links.length) (hdc : DInv c') :
    DInv (Tree.node k0 v0 (ls.set j (lab, c')) d') := by
  have h1 := hd.desc
  have h2 := hd.cnt
  have h3 := hd.branch
  have h4 := hd.sub
  simp only [Tree.links] at h1 h2 h3 h4
  exact DInv.mk k0 v0 _ d' (forall_mem_set h1 hdesc) (forall_mem_set h2 hcnt)
    (forall_mem_set h3 hbr) (forall_mem_set h4 hdc)

/-- Membership in the key/value list after replacing the `j`-th link. -/
theorem kvList_set_iff {V : Type} {k0 : Str} {v0 : Option V} {ls : List (Str × Tree V)}
    {d d' : Nat} (j : Nat) (hj : j < ls.length) (lab : Str) (c' : Tree V)
    (ne : Str × Option V)
    (hiff : ∀ e, e ∈ kvList c' ↔ e ∈ kvList ls[j].2 ∨ e = ne) :
    ∀ e, e ∈ kvList (Tree.node k0 v0 (ls.set j (lab, c')) d')
      ↔ e ∈ kvList (Tree.node k0 v0 ls d) ∨ e = ne := by
  intro e
  rw [kvList, kvList, kvListL_set ls j hj, kvListL_decomp ls j hj]
  simp only [List.mem_append, hiff e]
  tauto

/-- Terminal-node count after replacing the `j`-th link with a subtree
holding one more key. -/
theorem countTerm_set_eq {V : Type} {k0 : Str} {v0 : Option V} {ls : List (Str × Tree V)}
    {d d' : Nat} (j : Nat) (hj : j < ls.length) (lab : Str) (c' : Tree V)
    (hcnt : countTerm c' = countTerm ls[j].2 + 1) :
    countTerm (Tree.node k0 v0 (ls.set j (lab, c')) d')
      = countTerm (Tree.node k0 v0 ls d) + 1 := by
  rw [countTerm, countTerm, countTermL_set ls j hj, countTermL_decomp ls j hj, hcnt]
  omega

/-- The sibling-order invariant after inserting a fresh link at the sorted
position. -/
theorem pairwise_insertIdx {V : Type} (ls : List (Str × Tree V)) (nl : Str × Tree V)
    (ix : Nat) (hle : ix ≤ ls.length) (hord : ls.Pairwise LinkRel)
    (hbefore : ∀ x, ∀ hx : x < ls.length, x < ix → LinkRel ls[x] nl)
    (hafter : ∀ x, ∀ hx : x < ls.length, ix ≤ x → LinkRel nl ls[x]) :
    (ls.insertIdx ix nl).Pairwise LinkRel := by
  rw [insertIdx_decomp ls ix nl hle, List.pairwise_append, List.pairwise_cons]
  refine ⟨hord.sublist (List.take_sublist ix ls), ⟨?_, hord.sublist (List.drop_sublist ix ls)⟩, ?_⟩
  · intro b hb
    rw [List.mem_drop_iff_getElem] at hb
    obtain ⟨i, hi, rfl⟩ := hb
    exact hafter (ix + i) (by omega) (by omega)
  · intro a ha b hb
    rw [List.mem_take_iff_getElem] at ha
    obtain ⟨i, hi, rfl⟩ := ha
    rcases List.mem_cons.mp hb with rfl | hb'
    · exact hbefore i (by omega) (by omega)
    · rw [List.mem_drop_iff_getElem] at hb'
      obtain ⟨i', hi', rfl⟩ := hb'
      exact List.pairwise_iff_getElem.mp hord i (ix + i') (by omega) (by omega) (by omega)

/-- The correctness of one `Add` pass for a fresh non-empty remaining key:
both invariants are preserved, exactly the new binding is added to the
stored key/value pairs, and the bookkeeping fields change as expected. -/
theorem addGoF_spec {V : Type} :
    ∀ (fuel : Nat) (t : Tree V) (π key k : Str) (v : V),
      SInv π t → DInv t → k ≠ [] → key = π ++ k → k.length < fuel →
      (∀ e ∈ kvList t, e.1 ≠ π ++ k) →
      SInv π (addGoF fuel t key k v) ∧
      DInv (addGoF fuel t key k v) ∧
      (∀ e, e ∈ kvList (addGoF fuel t key k v) ↔ e ∈ kvList t ∨ e = (π ++ k, some v)) ∧
      countTerm (addGoF fuel t key k v) = countTerm t + 1 ∧
      (addGoF fuel t key k v).descendants = t.descendants + 1 ∧
      (addGoF fuel t key k v).key = t.key ∧
      t.links.length ≤ (addGoF fuel t key k v).links.length := by
  intro fuel
  induction fuel with
  | zero =>
      intro t π key k v _ _ _ _ h _
      omega
  | succ n ih =>
      intro t π key k v hs hd hk hkey hfuel hfresh
      have hklen : 1 ≤ k.length := List.length_pos.mpr hk
      cases t with
      | node k0 v0 ls d =>
          have hord := hs.ord
          have hlab := hs.lab
          have hch := hs.child
          have hddesc := hd.desc
          have hdcnt := hd.cnt
          have hdbr := hd.branch
          have hdch := hd.sub
          simp only [Tree.links] at hord hlab hch hddesc hdcnt hdbr hdch
          by_cases hex : ∃ j, ∃ hj : j < ls.length, matchingChars ls[j].1 k ≠ 0
          · obtain ⟨j, hj, hsh⟩ := hex
            have hothers : ∀ i, ∀ hi : i < ls.length, i ≠ j → matchingChars ls[i].1 k = 0 := by
              intro i hi hne
              by_contra hcon
              refine hne (share_unique_idx hord hlab hk i j hi hj ?_ ?_)
              · rw [matchingChars_comm]
                exact hcon
              · rw [matchingChars_comm]
                exact hsh
            obtain ⟨hidx, hscan⟩ := addScan_slice_share ls k hord hlab hk j hj hsh hothers
            have hmem : ls[j] ∈ ls := List.getElem_mem hj
            have hsc : SInv (π ++ ls[j].1) ls[j].2 := hch _ hmem
            have hdc : DInv ls[j].2 := hdch _ hmem
            have hlabj : ls[j].1 ≠ [] := hlab _ hmem
            have hlabjlen : 1 ≤ ls[j].1.length := List.length_pos.mpr hlabj
            have hm1 : 1 ≤ matchingChars ls[j].1 k := by omega
            have hdescj := hddesc _ hmem
            have hcntj := hdcnt _ hmem
            have hbrj := hdbr _ hmem
            by_cases hmL : matchingChars ls[j].1 k = ls[j].1.length
            · -- full label match: descend into the existing subtree
              have hstep : addGoF (n + 1) (Tree.node k0 v0 ls d) key k v
                  = Tree.node k0 v0
                      (ls.set j (ls[j].1,
                        addGoF n ls[j].2 key (k.drop (matchingChars ls[j].1 k)) v))
                      (d + 1) := by
                rw [addGoF, if_neg hk]
                simp only [hscan, addScanAct, if_pos hmL, hidx]
              rw [hstep]
              have hLk : ls[j].1 <+: k := (matchingChars_eq_left_iff ls[j].1 k).mp hmL
              obtain ⟨r, hr⟩ := hLk
              have hdropr : k.drop (matchingChars ls[j].1 k) = r := by
                rw [hmL, ← hr, List.drop_left]
              have hpk : (π ++ ls[j].1) ++ r = π ++ k := by
                rw [List.append_assoc, hr]
              rw [hdropr]
              by_cases hrnil : r = []
              · -- the key equals the full path of the existing child
                subst hrnil
                have hkls : k = ls[j].1 := by rw [← hr, List.append_nil]
                have hterm : ls[j].2.key = [] := by
                  by_contra hcon
                  have hkeyj := hsc.key_eq hcon
                  have hmemkv : (ls[j].2.key, ls[j].2.value) ∈ kvList ls[j].2 := by
                    rw [kvList_terminal _ hcon]
                    simp
                  exact hfresh _ (kvList_sub_child hmem hmemkv) (by rw [hkeyj, hkls])
                have hng : 1 ≤ n := by omega
                rw [addGoF_nil n ls[j].2 key v hng]
                have hkeyne : key ≠ [] := by
                  rw [hkey]
                  exact append_ne_nil_right hk
                have hkvc' : kvList (Tree.node key (some v) ls[j].2.links
                    (ls[j].2.descendants + 1)) = (key, some v) :: kvListL ls[j].2.links := by
                  rw [kvList, if_neg hkeyne]
                  rfl
                have hkvj : kvList ls[j].2 = kvListL ls[j].2.links :=
                  kvList_nonterminal _ hterm
                have hcntc' : countTerm (Tree.node key (some v) ls[j].2.links
                    (ls[j].2.descendants + 1)) = countTerm ls[j].2 + 1 := by
                  rw [countTerm, if_neg hkeyne, countTerm_expand, if_pos hterm]
                  omega
                have hsc' : SInv (π ++ ls[j].1) (Tree.node key (some v) ls[j].2.links
                    (ls[j].2.descendants + 1)) := by
                  refine SInv.mk _ key (some v) _ _ (fun _ => by rw [hkey, hkls]) ?_ ?_ ?_
                  · exact hsc.ord
                  · exact hsc.lab
                  · exact hsc.child
                have hdc' : DInv (Tree.node key (some v) ls[j].2.links
                    (ls[j].2.descendants + 1)) :=
                  DInv.mk key (some v) _ _ hdc.desc hdc.cnt hdc.branch hdc.sub
                refine ⟨SInv_set j hj ls[j].1 _ hs hlabj rfl hsc',
                  DInv_set j ls[j].1 _ hd ?_ ?_ ?_ hdc',
                  kvList_set_iff j hj ls[j].1 _ (π ++ k, some v) ?_,
                  countTerm_set_eq j hj ls[j].1 _ hcntc', ?_, ?_, ?_⟩
                · rw [Tree.descendants, hcntc', hdescj]
                · rw [hcntc']
                  omega
                · intro hcon
                  rw [Tree.key] at hcon
                  exact absurd hcon hkeyne
                · intro e
                  rw [hkvc', ← hkvj, List.mem_cons]
                  have : key = π ++ k := hkey
                  rw [this]
                  tauto
                · rw [Tree.descendants, Tree.descendants]
                · rw [Tree.key, Tree.key]
                · simp [Tree.links]
              · -- descend with the unconsumed suffix r
                have hrlen : r.length < n := by
                  have h1 : ls[j].1.length + r.length = k.length := by
                    rw [← hr]
                    simp
                  omega
                have hkey' : key = (π ++ ls[j].1) ++ r := by
                  rw [hkey, ← hr, List.append_assoc]
                have hfresh' : ∀ e ∈ kvList ls[j].2, e.1 ≠ (π ++ ls[j].1) ++ r := by
                  intro e he hcon
                  refine hfresh e (kvList_sub_child hmem he) ?_
                  rw [hcon, hpk]
                obtain ⟨ihS, ihD, ihM, ihC, ihdesc, ihkey, ihlinks⟩ :=
                  ih ls[j].2 (π ++ ls[j].1) key r v hsc hdc hrnil hkey' hrlen hfresh'
                refine ⟨SInv_set j hj ls[j].1 _ hs hlabj rfl ihS,
                  DInv_set j ls[j].1 _ hd ?_ ?_ ?_ ihD,
                  kvList_set_iff j hj ls[j].1 _ (π ++ k, some v) ?_,
                  countTerm_set_eq j hj ls[j].1 _ ihC, ?_, ?_, ?_⟩
                · rw [ihdesc, hdescj, ← ihC]
                · rw [ihC]
                  omega
                · intro hcon
                  rw [ihkey] at hcon
                  calc 2 ≤ ls[j].2.links.length := hbrj hcon
                    _ ≤ _ := ihlinks
                · intro e
                  rw [ihM e, hpk]
                · rw [Tree.descendants, Tree.descendants]
                · rw [Tree.key, Tree.key]
                · simp [Tree.links]
            · -- partial label match: split the edge
              have hm0 : 0 < matchingChars ls[j].1 k := by omega
              have hmlt : matchingChars ls[j].1 k < ls[j].1.length := by
                have := matchingChars_le_left ls[j].1 k
                omega
              have hmlek : matchingChars ls[j].1 k ≤ k.length :=
                matchingChars_le_right ls[j].1 k
              have hstep : addGoF (n + 1) (Tree.node k0 v0 ls d) key k v
                  = Tree.node k0 v0
                      (ls.set j (ls[j].1.take (matchingChars ls[j].1 k),
                        addGoF n
                          (Tree.node [] none
                            [(ls[j].1.drop (matchingChars ls[j].1 k), ls[j].2)]
                            ls[j].2.descendants)
                          key (k.drop (matchingChars ls[j].1 k)) v))
                      (d + 1) := by
                rw [addGoF, if_neg hk]
                simp only [hscan, addScanAct, if_neg hmL, if_pos hm0, hidx]
              rw [hstep]
              have hdropne : ls[j].1.drop (matchingChars ls[j].1 k) ≠ [] := drop_ne_nil hmlt
              have htke : ls[j].1.take (matchingChars ls[j].1 k)
                  = k.take (matchingChars ls[j].1 k) := matchingChars_take ls[j].1 k
              have htakene : ls[j].1.take (matchingChars ls[j].1 k) ≠ [] :=
                take_ne_nil hm1 hlabj
              have hpathfix : (π ++ ls[j].1.take (matchingChars ls[j].1 k))
                  ++ ls[j].1.drop (matchingChars ls[j].1 k) = π ++ ls[j].1 := by
                rw [List.append_assoc, List.take_append_drop]
              have hkeyq : key = (π ++ ls[j].1.take (matchingChars ls[j].1 k))
                  ++ k.drop (matchingChars ls[j].1 k) := by
                rw [hkey, htke, List.append_assoc, List.take_append_drop]
              have hchildS : SInv (π ++ ls[j].1.take (matchingChars ls[j].1 k))
                  (Tree.node [] none [(ls[j].1.drop (matchingChars ls[j].1 k), ls[j].2)]
                    ls[j].2.descendants) := by
                refine SInv.mk _ [] none _ _ (fun h => absurd rfl h) ?_ ?_ ?_
                · exact List.pairwise_singleton _ _
                · intro l hl
                  rw [List.mem_singleton] at hl
                  rw [hl]
                  exact hdropne
                · intro l hl
                  rw [List.mem_singleton] at hl
                  rw [hl]
                  rw [hpathfix]
                  exact hsc
              have hchildD : DInv (Tree.node [] none
                  [(ls[j].1.drop (matchingChars ls[j].1 k), ls[j].2)]
                  ls[j].2.descendants) := by
                refine DInv.mk _ _ _ _ ?_ ?_ ?_ ?_ <;>
                  · intro l hl
                    rw [List.mem_singleton] at hl
                    rw [hl]
                    first
                      | exact hdescj
                      | exact hcntj
                      | exact hbrj
                      | exact hdc
              have hkvchild : kvList (Tree.node [] none
                  [(ls[j].1.drop (matchingChars ls[j].1 k), ls[j].2)]
                  ls[j].2.descendants) = kvList ls[j].2 := by
                rw [kvList, if_pos rfl, kvListL, kvListL]
                simp
              have hctchild : countTerm (Tree.node [] none
                  [(ls[j].1.drop (matchingChars ls[j].1 k), ls[j].2)]
                  ls[j].2.descendants) = countTerm ls[j].2 := by
                rw [countTerm, if_pos rfl, countTermL, countTermL]
                omega
              have hheadtake : (ls[j].1.take (matchingChars ls[j].1 k)).head htakene
                  = ls[j].1.head hlabj := head_take _ hm1 hlabj
              by_cases hk' : k.drop (matchingChars ls[j].1 k) = []
              · -- the new key ends exactly at the split point
                have hng : 1 ≤ n := by omega
                rw [hk', addGoF_nil_node n _ _ _ _ key v hng]
                have hkeyπ : key = π ++ ls[j].1.take (matchingChars ls[j].1 k) := by
                  rw [hkeyq, hk', List.append_nil]
                have hkeyne : key ≠ [] := by
                  rw [hkey]
                  exact append_ne_nil_right hk
                have hsc' : SInv (π ++ ls[j].1.take (matchingChars ls[j].1 k))
                    (Tree.node key (some v)
                      [(ls[j].1.drop (matchingChars ls[j].1 k), ls[j].2)]
                      (ls[j].2.descendants + 1)) := by
                  refine SInv.mk _ key (some v) _ _ (fun _ => hkeyπ) ?_ ?_ ?_
                  · exact List.pairwise_singleton _ _
                  · intro l hl
                    rw [List.mem_singleton] at hl
                    rw [hl]
                    exact hdropne
                  · intro l hl
                    rw [List.mem_singleton] at hl
                    rw [hl]
                    rw [hpathfix]
                    exact hsc
                have hdc' : DInv (Tree.node key (some v)
                    [(ls[j].1.drop (matchingChars ls[j].1 k), ls[j].2)]
                    (ls[j].2.descendants + 1)) := by
                  refine DInv.mk _ _ _ _ ?_ ?_ ?_ ?_ <;>
                    · intro l hl
                      rw [List.mem_singleton] at hl
                      rw [hl]
                      first
                        | exact hdescj
                        | exact hcntj
                        | exact hbrj
                        | exact hdc
                have hkvc' : kvList (Tree.node key (some v)
                    [(ls[j].1.drop (matchingChars ls[j].1 k), ls[j].2)]
                    (ls[j].2.descendants + 1)) = (key, some v) :: kvList ls[j].2 := by
                  rw [kvList, if_neg hkeyne, kvListL, kvListL]
                  simp
                have hcntc' : countTerm (Tree.node key (some v)
                    [(ls[j].1.drop (matchingChars ls[j].1 k), ls[j].2)]
                    (ls[j].2.descendants + 1)) = countTerm ls[j].2 + 1 := by
                  rw [countTerm, if_neg hkeyne, countTermL, countTermL]
                  omega
                refine ⟨SInv_set j hj _ _ hs htakene hheadtake hsc',
                  DInv_set j _ _ hd ?_ ?_ ?_ hdc',
                  kvList_set_iff j hj _ _ (π ++ k, some v) ?_,
                  countTerm_set_eq j hj _ _ hcntc', ?_, ?_, ?_⟩
                · rw [Tree.descendants, hcntc', hdescj]
                · rw [hcntc']
                  omega
                · intro hcon
                  rw [Tree.key] at hcon
                  exact absurd hcon hkeyne
                · intro e
                  rw [hkvc', List.mem_cons, hkey]
                  tauto
                · rw [Tree.descendants, Tree.descendants]
                · rw [Tree.key, Tree.key]
                · simp [Tree.links]
              · -- the new key continues below the split point
                have hdropshare : matchingChars (ls[j].1.drop (matchingChars ls[j].1 k))
                    (k.drop (matchingChars ls[j].1 k)) = 0 := matchingChars_drop ls[j].1 k
                have hdropklen : 1 ≤ (k.drop (matchingChars ls[j].1 k)).length :=
                  List.length_pos.mpr hk'
                have hfuel' : (k.drop (matchingChars ls[j].1 k)).length < n := by
                  rw [List.length_drop]
                  omega
                have hfresh' : ∀ e ∈ kvList (Tree.node [] none
                    [(ls[j].1.drop (matchingChars ls[j].1 k), ls[j].2)]
                    ls[j].2.descendants),
                    e.1 ≠ (π ++ ls[j].1.take (matchingChars ls[j].1 k))
                      ++ k.drop (matchingChars ls[j].1 k) := by
                  intro e he hcon
                  rw [hkvchild] at he
                  refine hfresh e (kvList_sub_child hmem he) ?_
                  rw [hcon, ← hkeyq, hkey]
                obtain ⟨ihS, ihD, ihM, ihC, ihdesc, ihkey, ihlinks⟩ :=
                  ih _ _ key _ v hchildS hchildD hk' hkeyq hfuel' hfresh'
                have hbig : 2 ≤ (addGoF n
                    (Tree.node [] none [(ls[j].1.drop (matchingChars ls[j].1 k), ls[j].2)]
                      ls[j].2.descendants)
                    key (k.drop (matchingChars ls[j].1 k)) v).links.length := by
                  have hn2 : 2 ≤ n := by omega
                  obtain ⟨n', rfl⟩ : ∃ n', n = n' + 1 := ⟨n - 1, by omega⟩
                  have hnone1 : ∀ l ∈ [(ls[j].1.drop (matchingChars ls[j].1 k), ls[j].2)],
                      matchingChars l.1 (k.drop (matchingChars ls[j].1 k)) = 0 := by
                    intro l hl
                    rw [List.mem_singleton] at hl
                    rw [hl]
                    exact hdropshare
                  have hlab1 : ∀ l ∈ [(ls[j].1.drop (matchingChars ls[j].1 k), ls[j].2)],
                      l.1 ≠ [] := by
                    intro l hl
                    rw [List.mem_singleton] at hl
                    rw [hl]
                    exact hdropne
                  have hord1 : List.Pairwise LinkRel
                      [(ls[j].1.drop (matchingChars ls[j].1 k), ls[j].2)] :=
                    List.pairwise_singleton _ _
                  have hle1 := (search_spec
                    (List.length [(ls[j].1.drop (matchingChars ls[j].1 k), ls[j].2)])
                    (linkGE [(ls[j].1.drop (matchingChars ls[j].1 k), ls[j].2)]
                      (k.drop (matchingChars ls[j].1 k)))
                    (linkGE_mono _ _ hord1) (linkGE_high _ _)).1
                  have hscannone2 := addScan_slice_none
                    [(ls[j].1.drop (matchingChars ls[j].1 k), ls[j].2)]
                    (k.drop (matchingChars ls[j].1 k)) hlab1 hnone1
                    (search (List.length [(ls[j].1.drop (matchingChars ls[j].1 k), ls[j].2)])
                      (linkGE [(ls[j].1.drop (matchingChars ls[j].1 k), ls[j].2)]
                        (k.drop (matchingChars ls[j].1 k))) - 1)
                    (min (search
                        (List.length [(ls[j].1.drop (matchingChars ls[j].1 k), ls[j].2)])
                        (linkGE [(ls[j].1.drop (matchingChars ls[j].1 k), ls[j].2)]
                          (k.drop (matchingChars ls[j].1 k))))
                      (List.length [(ls[j].1.drop (matchingChars ls[j].1 k), ls[j].2)] - 1))
                  rw [addGoF, if_neg hk']
                  simp only [hscannone2]
                  simp only [Tree.links]
                  rw [List.length_insertIdx _ _ (by simpa using hle1)]
                  simp
                have hchdesc : (Tree.node [] none
                    [(ls[j].1.drop (matchingChars ls[j].1 k), ls[j].2)]
                    ls[j].2.descendants).descendants = ls[j].2.descendants := rfl
                refine ⟨SInv_set j hj _ _ hs htakene hheadtake ihS,
                  DInv_set j _ _ hd ?_ ?_ ?_ ihD,
                  kvList_set_iff j hj _ _ (π ++ k, some v) ?_,
                  countTerm_set_eq j hj _ _ ?_, ?_, ?_, ?_⟩
                · omega
                · omega
                · intro _
                  exact hbig
                · intro e
                  rw [ihM e, hkvchild, ← hkeyq, hkey]
                · omega
                · rw [Tree.descendants, Tree.descendants]
                · rw [Tree.key, Tree.key]
                · simp [Tree.links]
          · -- no link shares a leading character: insert a fresh link
            push_neg at hex
            have hnone : ∀ l ∈ ls, matchingChars l.1 k = 0 := by
              intro l hl
              obtain ⟨i, hi, rfl⟩ := List.getElem_of_mem hl
              have := hex i hi
              omega
            have hscannone := addScan_slice_none ls k hlab hnone
              (search ls.length (linkGE ls k) - 1)
              (min (search ls.length (linkGE ls k)) (ls.length - 1))
            have hstep : addGoF (n + 1) (Tree.node k0 v0 ls d) key k v
                = Tree.node k0 v0
                    (ls.insertIdx (search ls.length (linkGE ls k))
                      (k, Tree.node key (some v) [] 1))
                    (d + 1) := by
              rw [addGoF, if_neg hk]
              simp only [hscannone]
            rw [hstep]
            have hixle : search ls.length (linkGE ls k) ≤ ls.length :=
              (search_spec ls.length (linkGE ls k) (linkGE_mono ls k hord)
                (linkGE_high ls k)).1
            obtain ⟨hbef, haft⟩ := insert_pos_bounds ls k hord hk hnone
            have hkeyne : key ≠ [] := by
              rw [hkey]
              exact append_ne_nil_right hk
            have hleafS : SInv (π ++ k) (Tree.node key (some v) [] 1) := by
              refine SInv.mk _ key (some v) [] 1 (fun _ => hkey) ?_ ?_ ?_ <;> simp
            have hleafD : DInv (Tree.node key (some v) [] 1) := by
              refine DInv.mk key (some v) [] 1 ?_ ?_ ?_ ?_ <;> simp
            have hleafCnt : countTerm (Tree.node key (some v) [] 1) = 1 := by
              rw [countTerm, if_neg hkeyne, countTermL]
            have hmemins : ∀ x ∈ ls.insertIdx (search ls.length (linkGE ls k))
                (k, Tree.node key (some v) [] 1),
                x = (k, Tree.node key (some v) [] 1) ∨ x ∈ ls := by
              intro x hx
              rw [insertIdx_decomp ls _ _ hixle, List.mem_append, List.mem_cons] at hx
              rcases hx with h | h | h
              · exact Or.inr (List.take_subset _ ls h)
              · exact Or.inl h
              · exact Or.inr (List.drop_subset _ ls h)
            refine ⟨?_, ?_, ?_, ?_, ?_, ?_, ?_⟩
            · refine SInv.mk π k0 v0 _ (d + 1) (fun h =>
                hs.key_eq (by simpa [Tree.key] using h)) ?_ ?_ ?_
              · refine pairwise_insertIdx ls _ _ hixle hord ?_ ?_
                · intro x hx hlt
                  exact ⟨hbef x hx hlt, hnone _ (List.getElem_mem hx)⟩
                · intro x hx hge
                  refine ⟨haft x hx hge, ?_⟩
                  rw [matchingChars_comm]
                  exact hnone _ (List.getElem_mem hx)
              · intro l hl
                rcases hmemins l hl with rfl | h
                · exact hk
                · exact hlab l h
              · intro l hl
                rcases hmemins l hl with rfl | h
                · exact hleafS
                · exact hch l h
            · refine DInv.mk k0 v0 _ (d + 1) ?_ ?_ ?_ ?_
              · intro l hl
                rcases hmemins l hl with rfl | h
                · rw [Tree.descendants, hleafCnt]
                · exact hddesc l h
              · intro l hl
                rcases hmemins l hl with rfl | h
                · rw [hleafCnt]
                · exact hdcnt l h
              · intro l hl
                rcases hmemins l hl with rfl | h
                · intro hcon
                  rw [Tree.key] at hcon
                  exact absurd hcon hkeyne
                · exact hdbr l h
              · intro l hl
                rcases hmemins l hl with rfl | h
                · exact hleafD
                · exact hdch l h
            · intro e
              have hsplitkv : kvListL ls
                  = kvListL (ls.take (search ls.length (linkGE ls k)))
                    ++ kvListL (ls.drop (search ls.length (linkGE ls k))) := by
                conv_lhs =>
                  rw [← List.take_append_drop (search ls.length (linkGE ls k)) ls]
                rw [kvListL_append]
              have hkvleaf : kvList (Tree.node key (some v) [] 1) = [(key, some v)] := by
                rw [kvList, if_neg hkeyne, kvListL, List.append_nil]
              rw [kvList, kvList, insertIdx_decomp ls _ _ hixle, kvListL_append, kvListL,
                hkvleaf, hsplitkv, hkey]
              simp only [List.mem_append, List.mem_cons, List.mem_singleton]
              tauto
            · have hsplitct : countTermL ls
                  = countTermL (ls.take (search ls.length (linkGE ls k)))
                    + countTermL (ls.drop (search ls.length (linkGE ls k))) := by
                conv_lhs =>
                  rw [← List.take_append_drop (search ls.length (linkGE ls k)) ls]
                rw [countTermL_append]
              rw [countTerm, countTerm, insertIdx_decomp ls _ _ hixle, countTermL_append,
                countTermL, hleafCnt, hsplitct]
              omega
            · rw [Tree.descendants, Tree.descendants]
            · rw [Tree.key, Tree.key]
            · simp only [Tree.links]
              rw [List.length_insertIdx _ _ hixle]
              omega

/-! ### `Add` at the top level: structural invariant preservation without
freshness, the empty-key case, and the fold over an operation list -/

/-- `Add` on a non-empty remaining key never changes the current node's
`key` field. -/
theorem addGoF_key {V : Type} (fuel : Nat) (t : Tree V) (key k : Str) (v : V)
    (hk : k ≠ []) : (addGoF fuel t key k v).key = t.key := by
  cases fuel with
  | zero => rfl
  | succ n =>
      cases t with
      | node k0 v0 ls d =>
          rw [addGoF, if_neg hk]
          cases hsc : addScan k (listSlice ls (search ls.length (linkGE ls k) - 1)
              (min (search ls.length (linkGE ls k)) (ls.length - 1))) with
          | none => simp only [hsc, Tree.key]
          | descend i l m => simp only [hsc, Tree.key]
          | split i l m => simp only [hsc, Tree.key]

/-- One `Add` pass on a non-empty remaining key preserves the structural
invariant at the current path — with no freshness or counting assumptions,
so this applies to duplicate insertions as well. -/
theorem addGoF_SInv {V : Type} :
    ∀ (fuel : Nat) (t : Tree V) (π key k : Str) (v : V),
      SInv π t → k ≠ [] → key = π ++ k → k.length < fuel →
      SInv π (addGoF fuel t key k v) := by
  intro fuel
  induction fuel with
  | zero =>
      intro t π key k v _ _ _ h
      omega
  | succ n ih =>
      intro t π key k v hs hk hkey hfuel
      have hklen : 1 ≤ k.length := List.length_pos.mpr hk
      cases t with
      | node k0 v0 ls d =>
          have hord := hs.ord
          have hlab := hs.lab
          have hch := hs.child
          simp only [Tree.links] at hord hlab hch
          by_cases hex : ∃ j, ∃ hj : j < ls.length, matchingChars ls[j].1 k ≠ 0
          · obtain ⟨j, hj, hsh⟩ := hex
            have hothers : ∀ i, ∀ hi : i < ls.length, i ≠ j → matchingChars ls[i].1 k = 0 := by
              intro i hi hne
              by_contra hcon
              refine hne (share_unique_idx hord hlab hk i j hi hj ?_ ?_)
              · rw [matchingChars_comm]
                exact hcon
              · rw [matchingChars_comm]
                exact hsh
            obtain ⟨hidx, hscan⟩ := addScan_slice_share ls k hord hlab hk j hj hsh hothers
            have hmem : ls[j] ∈ ls := List.getElem_mem hj
            have hsc : SInv (π ++ ls[j].1) ls[j].2 := hch _ hmem
            have hlabj : ls[j].1 ≠ [] := hlab _ hmem
            have hlabjlen : 1 ≤ ls[j].1.length := List.length_pos.mpr hlabj
            have hm1 : 1 ≤ matchingChars ls[j].1 k := by omega
            by_cases hmL : matchingChars ls[j].1 k = ls[j].1.length
            · have hstep : addGoF (n + 1) (Tree.node k0 v0 ls d) key k v
                  = Tree.node k0 v0
                      (ls.set j (ls[j].1,
                        addGoF n ls[j].2 key (k.drop (matchingChars ls[j].1 k)) v))
                      (d + 1) := by
                rw [addGoF, if_neg hk]
                simp only [hscan, addScanAct, if_pos hmL, hidx]
              rw [hstep]
              have hLk : ls[j].1 <+: k := (matchingChars_eq_left_iff ls[j].1 k).mp hmL
              obtain ⟨r, hr⟩ := hLk
              have hdropr : k.drop (matchingChars ls[j].1 k) = r := by
                rw [hmL, ← hr, List.drop_left]
              rw [hdropr]
              by_cases hrnil : r = []
              · subst hrnil
                have hkls : k = ls[j].1 := by rw [← hr, List.append_nil]
                have hng : 1 ≤ n := by omega
                rw [addGoF_nil n ls[j].2 key v hng]
                have hsc' : SInv (π ++ ls[j].1) (Tree.node key (some v) ls[j].2.links
                    (ls[j].2.descendants + 1)) := by
                  refine SInv.mk _ key (some v) _ _ (fun _ => by rw [hkey, hkls]) ?_ ?_ ?_
                  · exact hsc.ord
                  · exact hsc.lab
                  · exact hsc.child
                exact SInv_set j hj ls[j].1 _ hs hlabj rfl hsc'
              · have hrlen : r.length < n := by
                  have h1 : ls[j].1.length + r.length = k.length := by
                    rw [← hr]
                    simp
                  omega
                have hkey' : key = (π ++ ls[j].1) ++ r := by
                  rw [hkey, ← hr, List.append_assoc]
                exact SInv_set j hj ls[j].1 _ hs hlabj rfl
                  (ih ls[j].2 (π ++ ls[j].1) key r v hsc hrnil hkey' hrlen)
            · have hm0 : 0 < matchingChars ls[j].1 k := by omega
              have hmlt : matchingChars ls[j].1 k < ls[j].1.length := by
                have := matchingChars_le_left ls[j].1 k
                omega
              have hmlek : matchingChars ls[j].1 k ≤ k.length :=
                matchingChars_le_right ls[j].1 k
              have hstep : addGoF (n + 1) (Tree.node k0 v0 ls d) key k v
                  = Tree.node k0 v0
                      (ls.set j (ls[j].1.take (matchingChars ls[j].1 k),
                        addGoF n
                          (Tree.node [] none
                            [(ls[j].1.drop (matchingChars ls[j].1 k), ls[j].2)]
                            ls[j].2.descendants)
                          key (k.drop (matchingChars ls[j].1 k)) v))
                      (d + 1) := by
                rw [addGoF, if_neg hk]
                simp only [hscan, addScanAct, if_neg hmL, if_pos hm0, hidx]
              rw [hstep]
              have hdropne : ls[j].1.drop (matchingChars ls[j].1 k) ≠ [] := drop_ne_nil hmlt
              have htke : ls[j].1.take (matchingChars ls[j].1 k)
                  = k.take (matchingChars ls[j].1 k) := matchingChars_take ls[j].1 k
              have htakene : ls[j].1.take (matchingChars ls[j].1 k) ≠ [] :=
                take_ne_nil hm1 hlabj
              have hpathfix : (π ++ ls[j].1.take (matchingChars ls[j].1 k))
                  ++ ls[j].1.drop (matchingChars ls[j].1 k) = π ++ ls[j].1 := by
                rw [List.append_assoc, List.take_append_drop]
              have hkeyq : key = (π ++ ls[j].1.take (matchingChars ls[j].1 k))
                  ++ k.drop (matchingChars ls[j].1 k) := by
                rw [hkey, htke, List.append_assoc, List.take_append_drop]
              have hchildS : SInv (π ++ ls[j].1.take (matchingChars ls[j].1 k))
                  (Tree.node [] none [(ls[j].1.drop (matchingChars ls[j].1 k), ls[j].2)]
                    ls[j].2.descendants) := by
                refine SInv.mk _ [] none _ _ (fun h => absurd rfl h) ?_ ?_ ?_
                · exact List.pairwise_singleton _ _
                · intro l hl
                  rw [List.mem_singleton] at hl
                  rw [hl]
                  exact hdropne
                · intro l hl
                  rw [List.mem_singleton] at hl
                  rw [hl]
                  rw [hpathfix]
                  exact hsc
              have hheadtake : (ls[j].1.take (matchingChars ls[j].1 k)).head htakene
                  = ls[j].1.head hlabj := head_take _ hm1 hlabj
              by_cases hk' : k.drop (matchingChars ls[j].1 k) = []
              · have hng : 1 ≤ n := by omega
                rw [hk', addGoF_nil_node n _ _ _ _ key v hng]
                have hkeyπ : key = π ++ ls[j].1.take (matchingChars ls[j].1 k) := by
                  rw [hkeyq, hk', List.append_nil]
                have hsc' : SInv (π ++ ls[j].1.take (matchingChars ls[j].1 k))
                    (Tree.node key (some v)
                      [(ls[j].1.drop (matchingChars ls[j].1 k), ls[j].2)]
                      (ls[j].2.descendants + 1)) := by
                  refine SInv.mk _ key (some v) _ _ (fun _ => hkeyπ) ?_ ?_ ?_
                  · exact List.pairwise_singleton _ _
                  · intro l hl
                    rw [List.mem_singleton] at hl
                    rw [hl]
                    exact hdropne
                  · intro l hl
                    rw [List.mem_singleton] at hl
                    rw [hl]
                    rw [hpathfix]
                    exact hsc
                exact SInv_set j hj _ _ hs htakene hheadtake hsc'
              · have hfuel' : (k.drop (matchingChars ls[j].1 k)).length < n := by
                  rw [List.length_drop]
                  omega
                exact SInv_set j hj _ _ hs htakene hheadtake
                  (ih _ _ key _ v hchildS hk' hkeyq hfuel')
          · push_neg at hex
            have hnone : ∀ l ∈ ls, matchingChars l.1 k = 0 := by
              intro l hl
              obtain ⟨i, hi, rfl⟩ := List.getElem_of_mem hl
              have := hex i hi
              omega
            have hscannone := addScan_slice_none ls k hlab hnone
              (search ls.length (linkGE ls k) - 1)
              (min (search ls.length (linkGE ls k)) (ls.length - 1))
            have hstep : addGoF (n + 1) (Tree.node k0 v0 ls d) key k v
                = Tree.node k0 v0
                    (ls.insertIdx (search ls.length (linkGE ls k))
                      (k, Tree.node key (some v) [] 1))
                    (d + 1) := by
              rw [addGoF, if_neg hk]
              simp only [hscannone]
            rw [hstep]
            have hixle : search ls.length (linkGE ls k) ≤ ls.length :=
              (search_spec ls.length (linkGE ls k) (linkGE_mono ls k hord)
                (linkGE_high ls k)).1
            obtain ⟨hbef, haft⟩ := insert_pos_bounds ls k hord hk hnone
            have hleafS : SInv (π ++ k) (Tree.node key (some v) [] 1) := by
              refine SInv.mk _ key (some v) [] 1 (fun _ => hkey) ?_ ?_ ?_ <;> simp
            have hmemins : ∀ x ∈ ls.insertIdx (search ls.length (linkGE ls k))
                (k, Tree.node key (some v) [] 1),
                x = (k, Tree.node key (some v) [] 1) ∨ x ∈ ls := by
              intro x hx
              rw [insertIdx_decomp ls _ _ hixle, List.mem_append, List.mem_cons] at hx
              rcases hx with h | h | h
              · exact Or.inr (List.take_subset _ ls h)
              · exact Or.inl h
              · exact Or.inr (List.drop_subset _ ls h)
            refine SInv.mk π k0 v0 _ (d + 1) (fun h =>
              hs.key_eq (by simpa [Tree.key] using h)) ?_ ?_ ?_
            · refine pairwise_insertIdx ls _ _ hixle hord ?_ ?_
              · intro x hx hlt
                exact ⟨hbef x hx hlt, hnone _ (List.getElem_mem hx)⟩
              · intro x hx hge
                refine ⟨haft x hx hge, ?_⟩
                rw [matchingChars_comm]
                exact hnone _ (List.getElem_mem hx)
            · intro l hl
              rcases hmemins l hl with rfl | h
              · exact hk
              · exact hlab l h
            · intro l hl
              rcases hmemins l hl with rfl | h
              · exact hleafS
              · exact hch l h

/-- Inserting the empty key only rewrites the root's key/value and bumps its
descendant counter. -/
theorem add_nil_eq {V : Type} (t : Tree V) (v : V) :
    add t [] v = Tree.node [] (some v) t.links (t.descendants + 1) := by
  rw [add]
  exact addGoF_nil 1 t [] v (by omega)

/-- Every insertion preserves the structural invariant of the root. -/
theorem add_SInv {V : Type} (t : Tree V) (key : Str) (v : V) (hs : SInv [] t) :
    SInv [] (add t key v) := by
  by_cases hk : key = []
  · subst hk
    rw [add_nil_eq]
    refine SInv.mk [] [] (some v) t.links (t.descendants + 1)
      (fun h => absurd rfl h) ?_ ?_ ?_
    · exact hs.ord
    · exact hs.lab
    · exact hs.child
  · rw [add]
    exact addGoF_SInv (key.length + 1) t [] key key v hs hk (by simp) (by omega)

/-- Every insertion keeps the root's key empty. -/
theorem add_root_key {V : Type} (t : Tree V) (key : Str) (v : V) (h : t.key = []) :
    (add t key v).key = [] := by
  by_cases hk : key = []
  · subst hk
    rw [add_nil_eq, Tree.key]
  · rw [add, addGoF_key _ _ _ _ _ hk]
    exact h

/-- Top-level `Add` correctness for a fresh non-empty key. -/
theorem add_spec {V : Type} (t : Tree V) (key : Str) (v : V) (hs : SInv [] t)
    (hd : DInv t) (hk : key ≠ []) (hfresh : ∀ e ∈ kvList t, e.1 ≠ key) :
    SInv [] (add t key v) ∧ DInv (add t key v) ∧
    (∀ e, e ∈ kvList (add t key v) ↔ e ∈ kvList t ∨ e = (key, some v)) := by
  rw [add]
  obtain ⟨h1, h2, h3, _⟩ := addGoF_spec (key.length + 1) t [] key key v hs hd hk
    (by simp) (by omega) (by simpa using hfresh)
  exact ⟨h1, h2, by simpa using h3⟩

/-- Inserting the empty key changes no stored pair. -/
theorem add_nil_kvList {V : Type} (t : Tree V) (v : V) (h : t.key = []) :
    kvList (add t [] v) = kvList t := by
  cases t with
  | node k0 v0 ls d =>
      rw [Tree.key] at h
      subst h
      rw [add_nil_eq, Tree.links, kvList, if_pos rfl, kvList, if_pos rfl]

/-- Inserting the empty key preserves the counting invariant. -/
theorem add_nil_DInv {V : Type} (t : Tree V) (v : V) (hd : DInv t) :
    DInv (add t [] v) := by
  rw [add_nil_eq]
  exact DInv.mk [] (some v) t.links (t.descendants + 1) hd.desc hd.cnt hd.branch hd.sub

/-- The fold implementing `build` preserves the structural invariant and the
empty root key, for arbitrary operation lists. -/
theorem foldl_add_SInv {V : Type} (ops : List (Str × V)) :
    ∀ t : Tree V, SInv [] t → t.key = [] →
      SInv [] (ops.foldl (fun t kv => add t kv.1 kv.2) t) ∧
      (ops.foldl (fun t kv => add t kv.1 kv.2) t).key = [] := by
  induction ops with
  | nil =>
      intro t hs hkey
      exact ⟨hs, hkey⟩
  | cons op rest ih =>
      intro t hs hkey
      rw [List.foldl_cons]
      exact ih _ (add_SInv t op.1 op.2 hs) (add_root_key t op.1 op.2 hkey)

/-- `new` satisfies every invariant. -/
theorem new_SInv {V : Type} : SInv [] (new : Tree V) := by
  refine SInv.mk [] [] none [] 0 (fun h => absurd rfl h) ?_ ?_ ?_ <;> simp

theorem new_DInv {V : Type} : DInv (new : Tree V) := by
  refine DInv.mk [] none [] 0 ?_ ?_ ?_ ?_ <;> simp

theorem new_kvList {V : Type} : kvList (new : Tree V) = [] := by
  rw [new, kvList, if_pos rfl, kvListL, List.append_nil]

/-- Every tree reachable through the public `Add` interface satisfies the
structural invariant and has an empty root key. -/
theorem build_SInv {V : Type} (ops : List (Str × V)) :
    SInv [] (build ops) ∧ (build ops).key = [] := by
  rw [build]
  exact foldl_add_SInv ops new new_SInv rfl

/-- Building from a list of distinct keys yields a well-formed tree storing
exactly the bindings with non-empty keys (the empty key is silently dropped
from the stored set). -/
theorem foldl_add_spec {V : Type} (ops : List (Str × V)) :
    ∀ t : Tree V, SInv [] t → DInv t → t.key = [] →
      (ops.map Prod.fst).Nodup →
      (∀ e ∈ kvList t, ∀ p ∈ ops, e.1 ≠ p.1) →
      SInv [] (ops.foldl (fun t kv => add t kv.1 kv.2) t) ∧
      DInv (ops.foldl (fun t kv => add t kv.1 kv.2) t) ∧
      (∀ e, e ∈ kvList (ops.foldl (fun t kv => add t kv.1 kv.2) t) ↔
        e ∈ kvList t ∨ ∃ p ∈ ops, p.1 ≠ [] ∧ e = (p.1, some p.2)) := by
  induction ops with
  | nil =>
      intro t hs hd hkey _ _
      refine ⟨hs, hd, fun e => ?_⟩
      rw [List.foldl_nil]
      constructor
      · exact Or.inl
      · rintro (h | ⟨p, hp, _⟩)
        · exact h
        · exact absurd hp (List.not_mem_nil p)
  | cons op rest ih =>
      intro t hs hd hkey hnd hfresh
      rw [List.foldl_cons]
      have hndc := List.nodup_cons.mp (by rw [List.map_cons] at hnd; exact hnd)
      have hkey' : (add t op.1 op.2).key = [] := add_root_key t op.1 op.2 hkey
      have h1 : SInv [] (add t op.1 op.2) := add_SInv t op.1 op.2 hs
      by_cases hop : op.1 = []
      · have hkv : kvList (add t op.1 op.2) = kvList t := by
          rw [hop]
          exact add_nil_kvList t op.2 hkey
        have h2 : DInv (add t op.1 op.2) := by
          rw [hop]
          exact add_nil_DInv t op.2 hd
        have hfresh' : ∀ e ∈ kvList (add t op.1 op.2), ∀ p ∈ rest, e.1 ≠ p.1 := by
          intro e he p hp
          rw [hkv] at he
          exact hfresh e he p (List.mem_cons_of_mem op hp)
        obtain ⟨g1, g2, g3⟩ := ih _ h1 h2 hkey' hndc.2 hfresh'
        refine ⟨g1, g2, fun e => ?_⟩
        rw [g3 e, hkv]
        constructor
        · rintro (h | ⟨p, hp, h⟩)
          · exact Or.inl h
          · exact Or.inr ⟨p, List.mem_cons_of_mem op hp, h⟩
        · rintro (h | ⟨p, hp, hne, h⟩)
          · exact Or.inl h
          · rcases List.mem_cons.mp hp with rfl | hp'
            · exact absurd hop hne
            · exact Or.inr ⟨p, hp', hne, h⟩
      · have hfr : ∀ e ∈ kvList t, e.1 ≠ op.1 :=
          fun e he => hfresh e he op (List.mem_cons_self op rest)
        obtain ⟨_, h2, h3⟩ := add_spec t op.1 op.2 hs hd hop hfr
        have hfresh' : ∀ e ∈ kvList (add t op.1 op.2), ∀ p ∈ rest, e.1 ≠ p.1 := by
          intro e he p hp
          rcases (h3 e).mp he with hold | hnew
          · exact hfresh e hold p (List.mem_cons_of_mem op hp)
          · intro hcon
            apply hndc.1
            have hp1 : op.1 = p.1 := by rw [← hcon, hnew]
            rw [hp1]
            exact List.mem_map.mpr ⟨p, hp, rfl⟩
        obtain ⟨g1, g2, g3⟩ := ih _ h1 h2 hkey' hndc.2 hfresh'
        refine ⟨g1, g2, fun e => ?_⟩
        rw [g3 e, h3 e]
        constructor
        · rintro ((h | h) | ⟨p, hp, hne, h⟩)
          · exact Or.inl h
          · exact Or.inr ⟨op, List.mem_cons_self op rest, hop, h⟩
          · exact Or.inr ⟨p, List.mem_cons_of_mem op hp, hne, h⟩
        · rintro (h | ⟨p, hp, hne, h⟩)
          · exact Or.inl (Or.inl h)
          · rcases List.mem_cons.mp hp with rfl | hp'
            · exact Or.inl (Or.inr h)
            · exact Or.inr ⟨p, hp', hne, h⟩

/-- The tree built from distinct keys is fully well-formed and stores
exactly the inserted bindings with non-empty keys. -/
theorem build_spec_nodup {V : Type} (ops : List (Str × V))
    (hnd : (ops.map Prod.fst).Nodup) :
    SInv [] (build ops) ∧ DInv (build ops) ∧ (build ops).key = [] ∧
    (∀ e, e ∈ kvList (build ops) ↔ ∃ p ∈ ops, p.1 ≠ [] ∧ e = (p.1, some p.2)) := by
  have hkeys := (build_SInv ops).2
  rw [build] at hkeys ⊢
  obtain ⟨h1, h2, h3⟩ := foldl_add_spec ops new new_SInv new_DInv rfl hnd
    (by
      rw [new_kvList]
      intro e he
      exact absurd he (List.not_mem_nil e))
  refine ⟨h1, h2, hkeys, fun e => ?_⟩
  rw [h3 e, new_kvList]
  constructor
  · rintro (h | h)
    · exact absurd h (List.not_mem_nil e)
    · exact h
  · exact Or.inr

/-- Specialisation of `build_spec_nodup` to all-non-empty keys. -/
theorem build_spec {V : Type} (ops : List (Str × V)) (hne : ∀ p ∈ ops, p.1 ≠ [])
    (hnd : (ops.map Prod.fst).Nodup) :
    SInv [] (build ops) ∧ DInv (build ops) ∧ (build ops).key = [] ∧
    (∀ e, e ∈ kvList (build ops) ↔ ∃ p ∈ ops, e = (p.1, some p.2)) := by
  obtain ⟨h1, h2, h3, h4⟩ := build_spec_nodup ops hnd
  refine ⟨h1, h2, h3, fun e => ?_⟩
  rw [h4 e]
  constructor
  · rintro ⟨p, hp, _, h⟩
    exact ⟨p, hp, h⟩
  · rintro ⟨p, hp, h⟩
    exact ⟨p, hp, hne p hp, h⟩

/-! ### Sorted enumeration: the stored keys of a well-formed tree are in
strictly increasing byte order -/

/-- Any extension of `π ++ a` sorts strictly before any extension of
`π ++ b` when `a` starts with a strictly smaller character than `b`. -/
theorem strLT_of_prefix_headLT {π a b u w : Str} (ha : a ≠ []) (hb : b ≠ [])
    (h : a.head ha < b.head hb) (hu : (π ++ a) <+: u) (hw : (π ++ b) <+: w) :
    strLT u w = true := by
  obtain ⟨s, rfl⟩ := hu
  obtain ⟨t, rfl⟩ := hw
  rw [List.append_assoc, List.append_assoc, strLT_append_left]
  cases a with
  | nil => exact absurd rfl ha
  | cons x a' =>
      cases b with
      | nil => exact absurd rfl hb
      | cons y b' =>
          simp only [List.head_cons] at h
          rw [List.cons_append, List.cons_append]
          exact (strLT_cons_iff x y (a' ++ s) (b' ++ t)).mpr (Or.inl h)

/-- Sortedness of the concatenated key lists of an ordered link list, given
sortedness of each child's own key list. -/
theorem kvListL_sorted {V : Type} (π : Str) :
    ∀ ls : List (Str × Tree V),
      ls.Pairwise LinkRel → (∀ l ∈ ls, l.1 ≠ []) →
      (∀ l ∈ ls, SInv (π ++ l.1) l.2) →
      (∀ l ∈ ls, ((kvList l.2).map Prod.fst).Pairwise (fun a b => strLT a b = true)) →
      ((kvListL ls).map Prod.fst).Pairwise (fun a b => strLT a b = true) := by
  intro ls
  induction ls with
  | nil =>
      intro _ _ _ _
      rw [kvListL]
      simp
  | cons hd rest ih =>
      obtain ⟨a, c⟩ := hd
      intro hord hlab hch hsorted
      obtain ⟨hrel, hord2⟩ := List.pairwise_cons.mp hord
      have hane : a ≠ [] := hlab (a, c) (List.mem_cons_self _ _)
      have hcS : SInv (π ++ a) c := hch (a, c) (List.mem_cons_self _ _)
      have h1 := hsorted (a, c) (List.mem_cons_self _ _)
      have h2 := ih hord2 (fun l hl => hlab l (List.mem_cons_of_mem _ hl))
        (fun l hl => hch l (List.mem_cons_of_mem _ hl))
        (fun l hl => hsorted l (List.mem_cons_of_mem _ hl))
      rw [kvListL, List.map_append, List.pairwise_append]
      refine ⟨h1, h2, ?_⟩
      intro x hx y hy
      obtain ⟨e1, he1, rfl⟩ := List.mem_map.mp hx
      obtain ⟨e2, he2, rfl⟩ := List.mem_map.mp hy
      obtain ⟨l, hl, he2m⟩ := kvListL_mem.mp he2
      have hlrel : LinkRel (a, c) l := hrel l hl
      have hlne : l.1 ≠ [] := hlab l (List.mem_cons_of_mem _ hl)
      have hhead : a.head hane < l.1.head hlne := headLT_of_rel hane hlne hlrel.1 hlrel.2
      exact strLT_of_prefix_headLT hane hlne hhead (kvList_ext hcS e1 he1)
        (kvList_ext (hch l (List.mem_cons_of_mem _ hl)) e2 he2m)

/-- The keys stored in a structurally well-formed subtree, enumerated by
`kvList`, are strictly increasing. -/
theorem kvList_sorted {V : Type} {π : Str} {t : Tree V} (hs : SInv π t) :
    ((kvList t).map Prod.fst).Pairwise (fun a b => strLT a b = true) := by
  induction hs with
  | mk π k v ls d hkey hord hlab hch ih =>
      have hrest := kvListL_sorted π ls hord hlab hch ih
      rw [kvList, List.map_append, List.pairwise_append]
      refine ⟨?_, hrest, ?_⟩
      · by_cases hk : k = []
        · simp [hk]
        · simp [hk]
      · intro a ha b hb
        by_cases hk : k = []
        · rw [if_pos hk] at ha
          simp at ha
        · rw [if_neg hk] at ha
          simp only [List.map_cons, List.map_nil, List.mem_singleton] at ha
          rw [ha]
          obtain ⟨e, he, rfl⟩ := List.mem_map.mp hb
          obtain ⟨l, hl, he2⟩ := kvListL_mem.mp he
          have hext : (π ++ l.1) <+: e.1 := kvList_ext (hch l hl) e he2
          have hkeq : k = π := hkey hk
          have hpp : π <+: e.1 := (List.prefix_append π l.1).trans hext
          have hlablen : l.1.length ≠ 0 := by
            simpa [List.length_eq_zero] using hlab l hl
          have hlen : π.length < e.1.length := by
            have h1 := hext.length_le
            simp only [List.length_append] at h1
            omega
          rw [hkeq]
          refine strLT_of_proper_prefix hpp ?_
          intro hcon
          rw [hcon] at hlen
          omega

/-- Strictly sorted keys are duplicate-free. -/
theorem kvKeys_nodup {V : Type} (t : Tree V) (π : Str) (hs : SInv π t) :
    ((kvList t).map Prod.fst).Nodup := by
  refine (kvList_sorted hs).imp ?_
  intro a b hab hcon
  subst hcon
  rw [strLT_irrefl] at hab
  exact Bool.false_ne_true hab

/-! ### Where `findSubtree` lands: a link target of the node being scanned -/

/-- Unfolding of one step of the candidate-link loop. -/
theorem scan_cons {V : Type} (pfx : Str) (l : Str × Tree V) (rest : List (Str × Tree V)) :
    scan pfx (l :: rest) =
      (if matchingChars pfx l.1 = 0 then scan pfx rest
       else if matchingChars pfx l.1 = l.1.length then .descend l.2 (matchingChars pfx l.1)
       else if matchingChars pfx l.1 = pfx.length then
         (if 1 < l.2.descendants then .action (.ambiguous l.2)
          else if l.2.isTerminal then .action (.found l.2)
          else .action .notFound)
       else scan pfx rest) := rfl

/-- Characterisation of the three possible scan outcomes in terms of the
scanned link list. -/
theorem scan_subtree {V : Type} (pfx : Str) :
    ∀ ls : List (Str × Tree V),
      (∀ st, scan pfx ls = .action (.found st) → ∃ l ∈ ls, st = l.2 ∧ st.isTerminal = true) ∧
      (∀ st, scan pfx ls = .action (.ambiguous st) → ∃ l ∈ ls, st = l.2) ∧
      (∀ st m, scan pfx ls = .descend st m → ∃ l ∈ ls, st = l.2) := by
  intro ls
  induction ls with
  | nil =>
      refine ⟨?_, ?_, ?_⟩
      · intro st h
        simp [scan] at h
      · intro st h
        simp [scan] at h
      · intro st m h
        simp [scan] at h
  | cons l rest ih =>
      obtain ⟨ih1, ih2, ih3⟩ := ih
      by_cases h0 : matchingChars pfx l.1 = 0
      · have hstep : scan pfx (l :: rest) = scan pfx rest := by
          rw [scan_cons, if_pos h0]
        rw [hstep]
        refine ⟨?_, ?_, ?_⟩
        · intro st h
          obtain ⟨l', hl', hrest⟩ := ih1 st h
          exact ⟨l', by simp [hl'], hrest⟩
        · intro st h
          obtain ⟨l', hl', hrest⟩ := ih2 st h
          exact ⟨l', by simp [hl'], hrest⟩
        · intro st m h
          obtain ⟨l', hl', hrest⟩ := ih3 st m h
          exact ⟨l', by simp [hl'], hrest⟩
      · by_cases hL : matchingChars pfx l.1 = l.1.length
        · have hstep : scan pfx (l :: rest) = .descend l.2 (matchingChars pfx l.1) := by
            rw [scan_cons, if_neg h0, if_pos hL]
          rw [hstep]
          refine ⟨?_, ?_, ?_⟩
          · intro st h
            simp at h
          · intro st h
            simp at h
          · intro st m h
            injection h with h1 h2
            exact ⟨l, by simp, h1.symm⟩
        · by_cases hP : matchingChars pfx l.1 = pfx.length
          · by_cases hD : 1 < l.2.descendants
            · have hstep : scan pfx (l :: rest) = .action (.ambiguous l.2) := by
                rw [scan_cons, if_neg h0, if_neg hL, if_pos hP, if_pos hD]
              rw [hstep]
              refine ⟨?_, ?_, ?_⟩
              · intro st h
                simp at h
              · intro st h
                injection h with h1
                injection h1 with h2
                exact ⟨l, by simp, h2.symm⟩
              · intro st m h
                simp at h
            · by_cases hT : l.2.isTerminal = true
              · have hstep : scan pfx (l :: rest) = .action (.found l.2) := by
                  rw [scan_cons, if_neg h0, if_neg hL, if_pos hP, if_neg hD, if_pos hT]
                rw [hstep]
                refine ⟨?_, ?_, ?_⟩
                · intro st h
                  injection h with h1
                  injection h1 with h2
                  exact ⟨l, by simp, h2.symm, h2 ▸ hT⟩
                · intro st h
                  simp at h
                · intro st m h
                  simp at h
              · have hstep : scan pfx (l :: rest) = .action .notFound := by
                  rw [scan_cons, if_neg h0, if_neg hL, if_pos hP, if_neg hD, if_neg hT]
                rw [hstep]
                refine ⟨?_, ?_, ?_⟩
                · intro st h
                  simp at h
                · intro st h
                  simp at h
                · intro st m h
                  simp at h
          · have hstep : scan pfx (l :: rest) = scan pfx rest := by
              rw [scan_cons, if_neg h0, if_neg hL, if_neg hP]
            rw [hstep]
            refine ⟨?_, ?_, ?_⟩
            · intro st h
              obtain ⟨l', hl', hrest⟩ := ih1 st h
              exact ⟨l', by simp [hl'], hrest⟩
            · intro st h
              obtain ⟨l', hl', hrest⟩ := ih2 st h
              exact ⟨l', by simp [hl'], hrest⟩
            · intro st m h
              obtain ⟨l', hl', hrest⟩ := ih3 st m h
              exact ⟨l', by simp [hl'], hrest⟩

/-- A found or ambiguous result of `findSubtree` is itself a structurally
well-formed subtree (at some path). -/
theorem findSubtreeF_SInv {V : Type} :
    ∀ (fuel : Nat) (t : Tree V) (π pfx : Str) (st : Tree V),
      SInv π t →
      (findSubtreeF fuel t pfx = .found st ∨ findSubtreeF fuel t pfx = .ambiguous st) →
      ∃ ρ, SInv ρ st := by
  intro fuel
  induction fuel with
  | zero =>
      intro t π pfx st _ h
      rcases h with h | h <;> simp [findSubtreeF] at h
  | succ n ih =>
      intro t π pfx st hs h
      by_cases hp : pfx = []
      · subst hp
        rw [findSubtreeF_nil _ _ (by omega)] at h
        by_cases ht : t.isTerminal = true
        · rw [if_pos ht] at h
          rcases h with h | h
          · injection h with h1
            exact ⟨π, h1 ▸ hs⟩
          · simp at h
        · rw [if_neg ht] at h
          rcases h with h | h
          · simp at h
          · injection h with h1
            exact ⟨π, h1 ▸ hs⟩
      · cases t with
        | node k0 v0 ls d =>
            have hch := hs.child
            simp only [Tree.links] at hch
            rw [findSubtreeF, if_neg hp] at h
            simp only [Tree.links] at h
            obtain ⟨s1, s2, s3⟩ := scan_subtree pfx
              (listSlice ls (findRange ls pfx).1 (findRange ls pfx).2)
            cases hscan : scan pfx (listSlice ls (findRange ls pfx).1 (findRange ls pfx).2) with
            | action res =>
                simp only [hscan] at h
                rcases h with h | h
                · rw [h] at hscan
                  obtain ⟨l, hl, hst, _⟩ := s1 st hscan
                  have hl2 : l ∈ ls := listSlice_subset ls _ _ l hl
                  exact ⟨π ++ l.1, by rw [hst]; exact hch l hl2⟩
                · rw [h] at hscan
                  obtain ⟨l, hl, hst⟩ := s2 st hscan
                  have hl2 : l ∈ ls := listSlice_subset ls _ _ l hl
                  exact ⟨π ++ l.1, by rw [hst]; exact hch l hl2⟩
            | descend st2 m =>
                simp only [hscan] at h
                obtain ⟨l, hl, hst2⟩ := s3 st2 m hscan
                have hl2 : l ∈ ls := listSlice_subset ls _ _ l hl
                exact ih st2 (π ++ l.1) (pfx.drop m) st
                  (by rw [hst2]; exact hch l hl2) h

/-- `findSubtree` only reports a unique match on a terminal node. -/
theorem findSubtreeF_found_terminal {V : Type} :
    ∀ (fuel : Nat) (t : Tree V) (pfx : Str) (st : Tree V),
      findSubtreeF fuel t pfx = .found st → st.isTerminal = true := by
  intro fuel
  induction fuel with
  | zero =>
      intro t pfx st h
      simp [findSubtreeF] at h
  | succ n ih =>
      intro t pfx st h
      by_cases hp : pfx = []
      · subst hp
        rw [findSubtreeF_nil _ _ (by omega)] at h
        by_cases ht : t.isTerminal = true
        · rw [if_pos ht] at h
          injection h with h1
          exact h1 ▸ ht
        · rw [if_neg ht] at h
          simp at h
      · cases t with
        | node k0 v0 ls d =>
            rw [findSubtreeF, if_neg hp] at h
            simp only [Tree.links] at h
            obtain ⟨s1, _, _⟩ := scan_subtree pfx
              (listSlice ls (findRange ls pfx).1 (findRange ls pfx).2)
            cases hscan : scan pfx (listSlice ls (findRange ls pfx).1 (findRange ls pfx).2) with
            | action res =>
                simp only [hscan] at h
                rw [h] at hscan
                obtain ⟨l, _, _, hterm⟩ := s1 st hscan
                exact hterm
            | descend st2 m =>
                simp only [hscan] at h
                exact ih st2 (pfx.drop m) st h

/-- On a structurally well-formed tree, the binary-search-narrowed resolution
agrees with the exhaustive linear scan at every node. -/
theorem findSubtreeF_eq_lin {V : Type} :
    ∀ (fuel : Nat) (t : Tree V) (π pfx : Str), SInv π t →
      findSubtreeF fuel t pfx = findSubtreeLinF fuel t pfx := by
  intro fuel
  induction fuel with
  | zero =>
      intro t π pfx _
      rfl
  | succ n ih =>
      intro t π pfx hs
      by_cases hp : pfx = []
      · subst hp
        rw [findSubtreeF, findSubtreeLinF, if_pos rfl, if_pos rfl]
      · cases t with
        | node k0 v0 ls d =>
            have hord := hs.ord
            have hlab := hs.lab
            have hch := hs.child
            simp only [Tree.links] at hord hlab hch
            rw [findSubtreeF, findSubtreeLinF, if_neg hp, if_neg hp]
            simp only [Tree.links]
            rw [listSlice_full, scan_findRange ls pfx hord hlab hp]
            obtain ⟨_, _, s3⟩ := scan_subtree pfx ls
            cases hscan : scan pfx ls with
            | action res => rfl
            | descend st2 m =>
                obtain ⟨l, hl, hst2⟩ := s3 st2 m hscan
                exact ih st2 (π ++ l.1) (pfx.drop m) (by rw [hst2]; exact hch l hl)

/-! ### Concrete computations for single-key trees -/

theorem search_one (f : Nat → Bool) : search 1 f = if f 0 then 0 else 1 := rfl

/-- Unfolding of one step of the insertion candidate loop. -/
theorem addScan_cons {V : Type} (k : Str) (l : Str × Tree V) (rest : List (Str × Tree V)) :
    addScan k (l :: rest) =
      (if matchingChars l.1 k = l.1.length then .descend 0 l (matchingChars l.1 k)
       else if 0 < matchingChars l.1 k then .split 0 l (matchingChars l.1 k)
       else (addScan k rest).bump) := rfl

/-- Inserting a non-empty key into the empty tree produces a single leaf. -/
theorem add_new_eq {V : Type} (k : Str) (v : V) (hk : k ≠ []) :
    add new k v = .node [] none [(k, .node k (some v) [] 1)] 1 := by
  rw [add, new, addGoF, if_neg hk]
  rfl

/-- Re-inserting the unique key of a one-key tree replaces the stored value
and (incorrectly accumulating) bumps both descendant counters. -/
theorem add_repeat_eq {V : Type} (k : Str) (hk : k ≠ []) (w v : V) (c d : Nat) :
    add (.node [] none [(k, .node k (some w) [] c)] d) k v
      = .node [] none [(k, .node k (some v) [] (c + 1))] (d + 1) := by
  have hklen : 1 ≤ k.length := List.length_pos.mpr hk
  rw [add, addGoF, if_neg hk]
  simp only [List.length_singleton]
  have hix : search 1 (linkGE [(k, Tree.node k (some w) [] c)] k) ≤ 1 := by
    rw [search_one]
    split_ifs <;> omega
  rw [show search 1 (linkGE [(k, Tree.node k (some w) [] c)] k) - 1 = 0 from by omega]
  rw [show (1 : Nat) - 1 = 0 from rfl, Nat.min_zero]
  rw [show listSlice [(k, Tree.node k (some w) [] c)] 0 0
    = [(k, Tree.node k (some w) [] c)] from rfl]
  rw [addScan_cons, if_pos (matchingChars_self k)]
  simp only [Nat.add_zero, matchingChars_self, List.drop_length]
  rw [addGoF_nil_node k.length k (some w) [] c k v hklen]
  rfl

/-- Unique lookup of the only key of a one-key tree. -/
theorem find_single {V : Type} (k : Str) (hk : k ≠ []) (w : Option V) (c d : Nat) :
    FindValue (.node [] none [(k, .node k w [] c)] d) k = .ok w := by
  have hklen : 1 ≤ k.length := List.length_pos.mpr hk
  have hfs : findSubtree (Tree.node [] none [(k, Tree.node k w [] c)] d) k
      = .found (Tree.node k w [] c) := by
    rw [findSubtree, findSubtreeF, if_neg hk]
    simp only [Tree.links, List.length_singleton]
    rw [findRange]
    simp only [List.length_singleton]
    rw [if_neg (by omega : ¬ 20 ≤ 1)]
    rw [show listSlice [(k, Tree.node k w [] c)] 0 (1 - 1)
      = [(k, Tree.node k w [] c)] from rfl]
    rw [scan_cons, if_neg (by rw [matchingChars_self]; omega),
      if_pos (matchingChars_self k)]
    simp only [matchingChars_self, List.drop_length]
    rw [findSubtreeF_nil _ _ hklen, if_pos (by
      rw [isTerminal_iff]
      exact hk)]
  rw [FindValue, hfs]
  rfl

/-- Repeated insertion of the same non-empty key keeps the one-leaf shape and
stores the most recent value, while accumulating both descendant counters. -/
theorem foldl_add_repeat {V : Type} (k : Str) (hk : k ≠ []) (vs : List V) :
    ∀ (w : V) (c d : Nat),
      vs.foldl (fun t v => add t k v) (.node [] none [(k, .node k (some w) [] c)] d)
        = .node [] none [(k, .node k (some (vs.getLastD w)) [] (c + vs.length))]
            (d + vs.length) := by
  induction vs with
  | nil =>
      intro w c d
      rw [List.foldl_nil, List.getLastD]
      simp
  | cons v rest ih =>
      intro w c d
      rw [List.foldl_cons, add_repeat_eq k hk w v c d, ih v (c + 1) (d + 1),
        List.getLastD_cons, List.length_cons,
        show c + (rest.length + 1) = c + 1 + rest.length from by omega,
        show d + (rest.length + 1) = d + 1 + rest.length from by omega]

/-! ### Deciding the outcome of `specResolve` from the stored-key list -/

theorem lookupA_mem_nodup {V : Type} {A : List (Str × Option V)} {k : Str} {w : Option V}
    (hmem : (k, w) ∈ A) (hnd : (A.map Prod.fst).Nodup) : lookupA k A = some w := by
  induction A with
  | nil => exact absurd hmem (List.not_mem_nil _)
  | cons e rest ih =>
      rw [List.map_cons] at hnd
      obtain ⟨hnotin, hnd2⟩ := List.nodup_cons.mp hnd
      rcases List.mem_cons.mp hmem with rfl | hmem2
      · rw [lookupA, if_pos rfl]
      · by_cases he : e.1 = k
        · exfalso
          apply hnotin
          rw [he]
          exact List.mem_map.mpr ⟨(k, w), hmem2, rfl⟩
        · rw [lookupA, if_neg he]
          exact ih hmem2 hnd2

theorem mem_filter_pref {V : Type} (A : List (Str × Option V)) (p : Str)
    (e : Str × Option V) :
    e ∈ A.filter (fun e => p.isPrefixOf e.1) ↔ e ∈ A ∧ p <+: e.1 := by
  rw [List.mem_filter]
  constructor
  · rintro ⟨h1, h2⟩
    exact ⟨h1, List.isPrefixOf_iff_prefix.mp h2⟩
  · rintro ⟨h1, h2⟩
    exact ⟨h1, List.isPrefixOf_iff_prefix.mpr h2⟩

theorem filter_keys_nodup {V : Type} {A : List (Str × Option V)}
    (hnd : (A.map Prod.fst).Nodup) (q : Str × Option V → Bool) :
    ((A.filter q).map Prod.fst).Nodup :=
  List.Nodup.sublist (List.Sublist.map Prod.fst (List.filter_sublist A)) hnd

theorem list_singleton_of_nodup {α : Type} {l : List α} {a : α} (ha : a ∈ l)
    (hall : ∀ x ∈ l, x = a) (hnd : l.Nodup) : l = [a] := by
  cases l with
  | nil => exact absurd ha (List.not_mem_nil a)
  | cons x rest =>
      have hx : x = a := hall x (List.mem_cons_self x rest)
      subst hx
      cases rest with
      | nil => rfl
      | cons y rest2 =>
          exfalso
          have hy : y = x := hall y (by simp)
          exact (List.nodup_cons.mp hnd).1 (by rw [← hy]; simp)

theorem two_le_length_of_mem_ne {α : Type} {l : List α} {a b : α} (ha : a ∈ l)
    (hb : b ∈ l) (hne : a ≠ b) : 2 ≤ l.length := by
  cases l with
  | nil => exact absurd ha (List.not_mem_nil a)
  | cons x rest =>
      cases rest with
      | nil =>
          rw [List.mem_singleton] at ha hb
          exact absurd (ha.trans hb.symm) hne
      | cons y rest2 =>
          simp only [List.length_cons]
          omega

theorem exists_pair_of_two_le {α : Type} {l : List α} (h : 2 ≤ l.length)
    (hnd : l.Nodup) : ∃ a b, a ∈ l ∧ b ∈ l ∧ a ≠ b := by
  cases l with
  | nil => simp at h
  | cons x rest =>
      cases rest with
      | nil => simp at h
      | cons y rest2 =>
          refine ⟨x, y, by simp, by simp, ?_⟩
          intro hcon
          exact (List.nodup_cons.mp hnd).1 (by rw [hcon]; simp)

/-- Exhaustive case analysis of `specResolve` over a duplicate-free
association list: an exact hit, nothing stored under the prefix, a unique
strict extension, or at least two candidates. -/
theorem resolve_cases {V : Type} (A : List (Str × Option V)) (p : Str)
    (hnd : (A.map Prod.fst).Nodup) :
    (∃ w, (p, w) ∈ A ∧ specResolve A p = .found p w) ∨
    ((∀ e ∈ A, ¬ p <+: e.1) ∧ specResolve A p = .notFound) ∨
    (∃ e, e ∈ A ∧ p <+: e.1 ∧ e.1 ≠ p ∧ (∀ x ∈ A, p <+: x.1 → x = e) ∧
      (¬ ∃ w, (p, w) ∈ A) ∧ specResolve A p = .found e.1 e.2) ∨
    ((¬ ∃ w, (p, w) ∈ A) ∧
      (∃ e1 e2, e1 ∈ A ∧ e2 ∈ A ∧ p <+: e1.1 ∧ p <+: e2.1 ∧ e1.1 ≠ e2.1) ∧
      specResolve A p = .ambiguous (A.filter (fun e => p.isPrefixOf e.1))) := by
  have hMnd : ((A.filter (fun e => p.isPrefixOf e.1)).map Prod.fst).Nodup :=
    filter_keys_nodup hnd _
  by_cases hx : ∃ w, (p, w) ∈ A
  · obtain ⟨w, hw⟩ := hx
    refine Or.inl ⟨w, hw, ?_⟩
    refine specResolve_eq_found_exact A p w (lookupA_mem_nodup ?_ hMnd)
    exact (mem_filter_pref A p (p, w)).mpr ⟨hw, List.prefix_refl p⟩
  · have hnok : ∀ e ∈ A.filter (fun e => p.isPrefixOf e.1), e.1 ≠ p := by
      intro e he hcon
      obtain ⟨heA, _⟩ := (mem_filter_pref A p e).mp he
      exact hx ⟨e.2, by
        have : e = (p, e.2) := by
          rw [← hcon]
        rw [← this]
        exact heA⟩
    rcases hMc : A.filter (fun e => p.isPrefixOf e.1) with _ | ⟨e0, M2⟩
    · refine Or.inr (Or.inl ⟨?_, specResolve_eq_notFound A p hMc⟩)
      intro e he hcon
      have : e ∈ A.filter (fun e => p.isPrefixOf e.1) :=
        (mem_filter_pref A p e).mpr ⟨he, hcon⟩
      rw [hMc] at this
      exact absurd this (List.not_mem_nil e)
    · cases M2 with
      | nil =>
          have he0 : e0 ∈ A.filter (fun e => p.isPrefixOf e.1) := by
            rw [hMc]
            exact List.mem_cons_self e0 []
          obtain ⟨he0A, he0p⟩ := (mem_filter_pref A p e0).mp he0
          refine Or.inr (Or.inr (Or.inl ⟨e0, he0A, he0p, hnok e0 he0, ?_, hx, ?_⟩))
          · intro x hxA hxp
            have : x ∈ A.filter (fun e => p.isPrefixOf e.1) :=
              (mem_filter_pref A p x).mpr ⟨hxA, hxp⟩
            rw [hMc] at this
            exact List.mem_singleton.mp this
          · exact specResolve_eq_found_one A p e0 hMc (hnok e0 he0)
      | cons e1 M3 =>
          have hlen : 2 ≤ (A.filter (fun e => p.isPrefixOf e.1)).length := by
            rw [hMc]
            simp only [List.length_cons]
            omega
          have hnone : lookupA p (A.filter (fun e => p.isPrefixOf e.1)) = none :=
            lookupA_none p _ hnok
          obtain ⟨k1, k2, hk1, hk2, hkne⟩ := exists_pair_of_two_le
            (by
              rw [List.length_map]
              exact hlen) hMnd
          obtain ⟨f1, hf1, hf1e⟩ := List.mem_map.mp hk1
          obtain ⟨f2, hf2, hf2e⟩ := List.mem_map.mp hk2
          obtain ⟨hf1A, hf1p⟩ := (mem_filter_pref A p f1).mp hf1
          obtain ⟨hf2A, hf2p⟩ := (mem_filter_pref A p f2).mp hf2
          refine Or.inr (Or.inr (Or.inr ⟨hx, ⟨f1, f2, hf1A, hf2A, hf1p, hf2p, ?_⟩,
            specResolve_eq_ambiguous A p hlen hnone⟩))
          rw [hf1e, hf2e]
          exact hkne

/-! ### From resolution outcomes to the public lookup operations -/

/-- The semantic bridge from `findSubtree` to each public lookup, built-tree
side: resolving to a unique key/value pair. -/
theorem find_ops_found {V : Type} {t : Tree V} {p : Str} {k : Str} {w : Option V}
    (h : abstr (findSubtree t p) = .found k w) :
    FindValue t p = .ok w ∧ FindKey t p = .ok k ∧
    FindKeyValue t p = .ok (k, w) ∧
    FindKeys t p = [k] ∧ FindValues t p = [w] ∧ FindKeyValues t p = [(k, w)] := by
  cases hf : findSubtree t p with
  | found st =>
      have hterm : st.isTerminal = true := by
        rw [findSubtree] at hf
        exact findSubtreeF_found_terminal _ _ _ _ hf
      rw [hf, abstr] at h
      injection h with h1 h2
      refine ⟨?_, ?_, ?_, ?_, ?_, ?_⟩
      · rw [FindValue, hf, ← h2]
      · rw [FindKey, hf, ← h1]
      · rw [FindKeyValue, hf, ← h1, ← h2]
      · rw [FindKeys, hf, ← h1]
        show (if st.isTerminal = true then [st.key] else appendDescendantKeys st []) = [st.key]
        rw [if_pos hterm]
      · rw [FindValues, hf, ← h2]
        show (if st.isTerminal = true then [st.value] else appendDescendantValues st [])
          = [st.value]
        rw [if_pos hterm]
      · rw [FindKeyValues, hf, ← h1, ← h2]
        show (if st.isTerminal = true then [(st.key, st.value)]
          else appendDescendantKeyValues st []) = [(st.key, st.value)]
        rw [if_pos hterm]
  | ambiguous st =>
      rw [hf, abstr] at h
      exact Outcome.noConfusion h
  | notFound =>
      rw [hf, abstr] at h
      exact Outcome.noConfusion h

theorem find_ops_ambiguous {V : Type} {t : Tree V} {p : Str}
    {M : List (Str × Option V)}
    (h : abstr (findSubtree t p) = .ambiguous M) :
    FindValue t p = .error .ambiguous ∧ FindKey t p = .error .ambiguous ∧
    FindKeyValue t p = .error .ambiguous ∧
    FindKeys t p = M.map Prod.fst ∧ FindValues t p = M.map Prod.snd ∧
    FindKeyValues t p = M := by
  cases hf : findSubtree t p with
  | found st =>
      rw [hf, abstr] at h
      exact Outcome.noConfusion h
  | ambiguous st =>
      rw [hf, abstr] at h
      injection h with h1
      refine ⟨?_, ?_, ?_, ?_, ?_, ?_⟩
      · rw [FindValue, hf]
      · rw [FindKey, hf]
      · rw [FindKeyValue, hf]
      · rw [FindKeys, hf]
        show appendDescendantKeys st [] = M.map Prod.fst
        rw [appendDescendantKeys_eq, h1, List.nil_append]
      · rw [FindValues, hf]
        show appendDescendantValues st [] = M.map Prod.snd
        rw [appendDescendantValues_eq, h1, List.nil_append]
      · rw [FindKeyValues, hf]
        show appendDescendantKeyValues st [] = M
        rw [appendDescendantKeyValues_eq, h1, List.nil_append]
  | notFound =>
      rw [hf, abstr] at h
      exact Outcome.noConfusion h

theorem find_ops_notFound {V : Type} {t : Tree V} {p : Str}
    (h : abstr (findSubtree t p) = .notFound) :
    FindValue t p = .error .notFound ∧ FindKey t p = .error .notFound ∧
    FindKeyValue t p = .error .notFound ∧
    FindKeys t p = [] ∧ FindValues t p = [] ∧ FindKeyValues t p = [] := by
  cases hf : findSubtree t p with
  | found st =>
      rw [hf, abstr] at h
      exact Outcome.noConfusion h
  | ambiguous st =>
      rw [hf, abstr] at h
      exact Outcome.noConfusion h
  | notFound =>
      refine ⟨?_, ?_, ?_, ?_, ?_, ?_⟩
      · rw [FindValue, hf]
      · rw [FindKey, hf]
      · rw [FindKeyValue, hf]
      · rw [FindKeys, hf]
      · rw [FindValues, hf]
      · rw [FindKeyValues, hf]

/-- On trees whose root carries no key — every reachable tree — the empty
prefix always resolves as ambiguous over the whole stored set. -/
theorem empty_prefix_ambiguous {V : Type} (t : Tree V) (h : t.key = []) :
    findSubtree t [] = .ambiguous t := by
  rw [findSubtree, findSubtreeF_nil _ _ (by omega), if_neg]
  intro hc
  exact (isTerminal_iff t).mp hc h

/-- The master bridge at the root of a built tree: the concrete search
computes the specification-level resolution over the stored pairs. -/
theorem resolve_build {V : Type} (ops : List (Str × V)) (p : Str)
    (hnd : (ops.map Prod.fst).Nodup) (hp : p ≠ []) :
    abstr (findSubtree (build ops) p) = specResolve (kvList (build ops)) p := by
  obtain ⟨h1, h2, _, _⟩ := build_spec_nodup ops hnd
  rw [findSubtree]
  have h := findSubtreeF_spec (p.length + 1) (build ops) [] p h1 h2 hp (by omega)
  simpa using h

/-! ### Inverse bridges and extensionality of the stored-pair list -/

theorem prefix_antisymm {a b : Str} (h1 : a <+: b) (h2 : b <+: a) : a = b :=
  h1.eq_of_length (le_antisymm h1.length_le h2.length_le)

theorem FindValue_notFound_abstr {V : Type} {t : Tree V} {p : Str}
    (h : FindValue t p = .error .notFound) : abstr (findSubtree t p) = .notFound := by
  cases hf : findSubtree t p with
  | found st =>
      rw [FindValue, hf] at h
      exact Except.noConfusion h
  | ambiguous st =>
      rw [FindValue, hf] at h
      injection h with h1
      exact FindErr.noConfusion h1
  | notFound => rfl

theorem FindKV_ok_abstr {V : Type} {t : Tree V} {p k : Str} {w : Option V}
    (h1 : FindKey t p = .ok k) (h2 : FindValue t p = .ok w) :
    abstr (findSubtree t p) = .found k w := by
  cases hf : findSubtree t p with
  | found st =>
      rw [FindKey, hf] at h1
      rw [FindValue, hf] at h2
      injection h1 with h1
      injection h2 with h2
      rw [abstr, h1, h2]
  | ambiguous st =>
      rw [FindKey, hf] at h1
      exact Except.noConfusion h1
  | notFound =>
      rw [FindKey, hf] at h1
      exact Except.noConfusion h1

/-- Two key-sorted association lists with the same members are equal. -/
theorem sorted_kv_eq {V : Type} {A B : List (Str × Option V)}
    (hA : (A.map Prod.fst).Pairwise (fun a b => strLT a b = true))
    (hB : (B.map Prod.fst).Pairwise (fun a b => strLT a b = true))
    (h : ∀ e, e ∈ A ↔ e ∈ B) : A = B := by
  have hkn : ∀ {C : List (Str × Option V)},
      (C.map Prod.fst).Pairwise (fun a b => strLT a b = true) → (C.map Prod.fst).Nodup := by
    intro C hC
    refine hC.imp ?_
    intro a b hab hcon
    subst hcon
    rw [strLT_irrefl] at hab
    exact Bool.false_ne_true hab
  have hAnd : A.Nodup := List.Nodup.of_map Prod.fst (hkn hA)
  have hBnd : B.Nodup := List.Nodup.of_map Prod.fst (hkn hB)
  have hperm : A.Perm B := (List.perm_ext_iff_of_nodup hAnd hBnd).mpr h
  have hAp : A.Pairwise (fun e1 e2 => strLT e1.1 e2.1 = true) := List.pairwise_map.mp hA
  have hBp : B.Pairwise (fun e1 e2 => strLT e1.1 e2.1 = true) := List.pairwise_map.mp hB
  haveI : IsAntisymm (Str × Option V) (fun e1 e2 => strLT e1.1 e2.1 = true) := ⟨by
    intro a b h1 h2
    rw [strLT_asymm h1] at h2
    exact absurd h2 Bool.false_ne_true⟩
  exact List.eq_of_perm_of_sorted hperm hAp hBp

/-! ### The claims -/

/-- C10: on every tree reachable through the public interface — including the
freshly created empty tree and a tree holding exactly one key — the
empty-string prefix makes the unique-match lookup return `ErrPrefixAmbiguous`,
never `ErrPrefixNotFound` and never a value, because the root node never
carries a key. -/
theorem C10_empty_prefix_ambiguous (V : Type) (ops : List (Str × V)) :
    FindValue (build ops) ([] : Str) = .error FindErr.ambiguous ∧
    FindValue (new : Tree V) ([] : Str) = .error FindErr.ambiguous := by
  constructor
  · rw [FindValue, empty_prefix_ambiguous (build ops) (build_SInv ops).2]
  · rw [FindValue, empty_prefix_ambiguous new rfl]

/-- C5: on every tree reachable through the public interface, resolving any
prefix with the production procedure — which at nodes with at least 20 links
binary-searches the sorted labels and examines only the two candidate links
around the insertion point — returns exactly the same result as the variant
that scans every link of every node linearly. -/
theorem C5_binary_search_equiv (V : Type) (ops : List (Str × V)) (pfx : Str) :
    findSubtree (build ops) pfx = findSubtreeLin (build ops) pfx := by
  rw [findSubtree, findSubtreeLin]
  exact findSubtreeF_eq_lin (pfx.length + 1) (build ops) [] pfx (build_SInv ops).1

/-- C8: on every tree reachable through the public interface, `FindKeys`
returns the matching stored keys in strictly ascending byte order, with no
duplicate entries. -/
theorem C8_sorted_enumeration (V : Type) (ops : List (Str × V)) (pfx : Str) :
    (FindKeys (build ops) pfx).Pairwise (fun a b => strLT a b = true) ∧
    (FindKeys (build ops) pfx).Nodup := by
  have hs := (build_SInv ops).1
  cases hf : findSubtree (build ops) pfx with
  | notFound =>
      have hK : FindKeys (build ops) pfx = [] := by
        rw [FindKeys, hf]
      rw [hK]
      exact ⟨List.Pairwise.nil, List.nodup_nil⟩
  | found st =>
      have hterm : st.isTerminal = true := by
        rw [findSubtree] at hf
        exact findSubtreeF_found_terminal _ _ _ _ hf
      have hK : FindKeys (build ops) pfx = [st.key] := by
        rw [FindKeys, hf]
        show (if st.isTerminal = true then [st.key] else appendDescendantKeys st [])
          = [st.key]
        rw [if_pos hterm]
      rw [hK]
      exact ⟨List.pairwise_singleton _ _, List.nodup_singleton _⟩
  | ambiguous st =>
      rw [findSubtree] at hf
      obtain ⟨ρ, hρ⟩ := findSubtreeF_SInv (pfx.length + 1) (build ops) [] pfx st hs
        (Or.inr hf)
      have hK : FindKeys (build ops) pfx = (kvList st).map Prod.fst := by
        rw [FindKeys, findSubtree, hf]
        show appendDescendantKeys st [] = (kvList st).map Prod.fst
        rw [appendDescendantKeys_eq, List.nil_append]
      rw [hK]
      exact ⟨kvList_sorted hρ, kvKeys_nodup st ρ hρ⟩

/-- C4: on every tree and prefix, the find-all operations return the empty
sequence when resolution reports not-found, and exactly the single key/value
of the resolved node — without its deeper descendants — when resolution
reports a unique match. -/
theorem C4_findall_empty_and_singleton (V : Type) (t : Tree V) (pfx : Str) :
    (findSubtree t pfx = .notFound →
      FindKeys t pfx = [] ∧ FindValues t pfx = [] ∧ FindKeyValues t pfx = []) ∧
    (∀ st, findSubtree t pfx = .found st →
      FindKeys t pfx = [st.key] ∧ FindValues t pfx = [st.value] ∧
      FindKeyValues t pfx = [(st.key, st.value)]) := by
  constructor
  · intro h
    refine ⟨?_, ?_, ?_⟩
    · rw [FindKeys, h]
    · rw [FindValues, h]
    · rw [FindKeyValues, h]
  · intro st h
    have hterm : st.isTerminal = true := by
      rw [findSubtree] at h
      exact findSubtreeF_found_terminal _ _ _ _ h
    refine ⟨?_, ?_, ?_⟩
    · rw [FindKeys, h]
      show (if st.isTerminal = true then [st.key] else appendDescendantKeys st [])
        = [st.key]
      rw [if_pos hterm]
    · rw [FindValues, h]
      show (if st.isTerminal = true then [st.value] else appendDescendantValues st [])
        = [st.value]
      rw [if_pos hterm]
    · rw [FindKeyValues, h]
      show (if st.isTerminal = true then [(st.key, st.value)]
        else appendDescendantKeyValues st []) = [(st.key, st.value)]
      rw [if_pos hterm]

theorem C4_findall_empty_and_singleton_witness :
    FindKeys (build [((['a'] : Str), (1 : Nat))]) ['b'] = [] ∧
    FindKeys (build [((['a'] : Str), (1 : Nat))]) ['a'] = [['a']] := by
  refine ⟨((C4_findall_empty_and_singleton Nat (build [(['a'], 1)]) ['b']).1 (by rfl)).1, ?_⟩
  exact ((C4_findall_empty_and_singleton Nat (build [(['a'], 1)]) ['a']).2
    (.node ['a'] (some 1) [] 1) (by rfl)).1

/-- C3: the claimed invariant — the `descendants` counter of every node equals
the number of terminal nodes in its subtree even after re-inserting an
existing key — is violated by the code: re-inserting the single key `"a"`
leaves one terminal node but records a descendant count of 2 at the root (and
at the leaf). -/
theorem C3_descendant_overcount :
    (add (add (new : Tree Nat) ['a'] 1) ['a'] 2).descendants = 2 ∧
    countTerm (add (add (new : Tree Nat) ['a'] 1) ['a'] 2) = 1 ∧
    (∀ l ∈ (add (add (new : Tree Nat) ['a'] 1) ['a'] 2).links,
      l.2.descendants = 2 ∧ countTerm l.2 = 1) := by
  refine ⟨by decide, by decide, by decide⟩

/-- C2: the round-trip claim fails for the empty key — after inserting key
`""` into an empty index, looking it up returns `ErrPrefixAmbiguous` instead
of the stored value, because the root node never counts as terminal. -/
theorem C2_empty_key_counterexample :
    (add (new : Tree Nat) [] 5).value = some 5 ∧
    FindValue (add (new : Tree Nat) [] 5) [] = .error FindErr.ambiguous := by
  refine ⟨by decide, by decide⟩

/-- C2 (amended to non-empty keys): after inserting a non-empty key — possibly
repeatedly, with different values — into an otherwise-empty index, the
unique-match lookup of exactly that key returns the most recently inserted
value with no error. -/
theorem C2_roundtrip_nonempty (V : Type) (k : Str) (hk : k ≠ []) (v0 : V)
    (vs : List V) :
    FindValue (vs.foldl (fun t v => add t k v) (add new k v0)) k
      = .ok (some (vs.getLastD v0)) := by
  rw [add_new_eq k v0 hk, foldl_add_repeat k hk vs v0 1 1]
  exact find_single k hk (some (vs.getLastD v0)) (1 + vs.length) (1 + vs.length)

theorem C2_roundtrip_nonempty_witness :
    ((['a'] : Str) ≠ []) ∧
    FindValue (List.foldl (fun t v => add t ['a'] v) (add new ['a'] (1 : Nat)) [2, 3])
      ['a'] = .ok (some 3) :=
  ⟨by decide, C2_roundtrip_nonempty Nat ['a'] (by decide) 1 [2, 3]⟩

/-- C6: if key `k` is stored and is also a proper prefix of another stored
key `k2`, the unique-match lookup of exactly `k` returns `k` and its value as
a unique match, never `ErrPrefixAmbiguous`. -/
theorem C6_exact_match_precedence (V : Type) (ops : List (Str × V)) (k k2 : Str)
    (v : V) (hne : ∀ q ∈ ops, q.1 ≠ []) (hnd : (ops.map Prod.fst).Nodup)
    (hkv : (k, v) ∈ ops) (hk2 : k2 ∈ ops.map Prod.fst) (hkpref : k <+: k2)
    (hkk2 : k ≠ k2) :
    FindValue (build ops) k = .ok (some v) ∧ FindKey (build ops) k = .ok k := by
  have hk : k ≠ [] := hne (k, v) hkv
  have hknd := kvKeys_nodup (build ops) [] (build_SInv ops).1
  have hres := resolve_build ops k hnd hk
  have hmem := (build_spec ops hne hnd).2.2.2
  have hwA : (k, some v) ∈ kvList (build ops) := (hmem _).mpr ⟨(k, v), hkv, rfl⟩
  have hsp : specResolve (kvList (build ops)) k = .found k (some v) :=
    specResolve_eq_found_exact _ _ _ (lookupA_mem_nodup
      ((mem_filter_pref _ _ _).mpr ⟨hwA, List.prefix_refl k⟩)
      (filter_keys_nodup hknd _))
  rw [hsp] at hres
  obtain ⟨h1, h2, _⟩ := find_ops_found hres
  exact ⟨h1, h2⟩

theorem C6_exact_match_precedence_witness :
    FindValue (build [((['a'] : Str), (1 : Nat)), (['a', 'b'], 2)]) ['a']
      = .ok (some 1) :=
  (C6_exact_match_precedence Nat [(['a'], 1), (['a', 'b'], 2)] ['a'] ['a', 'b'] 1
    (by decide) (by decide) (by decide) (by decide) (by decide) (by decide)).1

/-- C1 (counterexample to the original claim): with exactly one stored key
`"a"`, the empty prefix is a leading substring of exactly one stored key, yet
the unique-match lookup returns `ErrPrefixAmbiguous` rather than the value. -/
theorem C1_empty_prefix_counterexample :
    (([] : Str) <+: ['a']) ∧
    FindValue (build [((['a'] : Str), (1 : Nat))]) ['a'] = .ok (some 1) ∧
    FindValue (build [((['a'] : Str), (1 : Nat))]) [] = .error FindErr.ambiguous := by
  refine ⟨⟨['a'], rfl⟩, by decide, by decide⟩

/-- C1 (amended to non-empty prefixes): for a tree built from distinct
non-empty keys and any non-empty prefix, the unique-match lookup succeeds
exactly when the prefix equals a stored key or extends to exactly one stored
key, is ambiguous exactly when the prefix is unstored and extends to two or
more stored keys, is not-found exactly when no stored key extends it, and any
returned value is the value bound to a matching stored key. -/
theorem C1_find_trichotomy (V : Type) (ops : List (Str × V)) (p : Str)
    (hne : ∀ q ∈ ops, q.1 ≠ []) (hnd : (ops.map Prod.fst).Nodup) (hp : p ≠ []) :
    ((∃ w, FindValue (build ops) p = .ok w) ↔
      ∃ k, k ∈ ops.map Prod.fst ∧ p <+: k ∧
        (k = p ∨ ∀ k2 ∈ ops.map Prod.fst, p <+: k2 → k2 = k)) ∧
    (FindValue (build ops) p = .error FindErr.ambiguous ↔
      (p ∉ ops.map Prod.fst ∧ ∃ k1 k2, k1 ∈ ops.map Prod.fst ∧
        k2 ∈ ops.map Prod.fst ∧ p <+: k1 ∧ p <+: k2 ∧ k1 ≠ k2)) ∧
    (FindValue (build ops) p = .error FindErr.notFound ↔
      ∀ k ∈ ops.map Prod.fst, ¬ p <+: k) ∧
    (∀ w, FindValue (build ops) p = .ok w →
      ∃ k v, (k, v) ∈ ops ∧ p <+: k ∧ w = some v) := by
  have hknd := kvKeys_nodup (build ops) [] (build_SInv ops).1
  have hres := resolve_build ops p hnd hp
  have hmem := (build_spec ops hne hnd).2.2.2
  have hkey_of : ∀ e ∈ kvList (build ops), e.1 ∈ ops.map Prod.fst := by
    intro e he
    obtain ⟨q, hq, heq⟩ := (hmem e).mp he
    rw [heq]
    exact List.mem_map.mpr ⟨q, hq, rfl⟩
  have hval_of : ∀ e ∈ kvList (build ops), ∃ v, (e.1, v) ∈ ops ∧ e.2 = some v := by
    intro e he
    obtain ⟨q, hq, heq⟩ := (hmem e).mp he
    refine ⟨q.2, ?_, by rw [heq]⟩
    rw [heq]
    exact hq
  have hof_key : ∀ k ∈ ops.map Prod.fst,
      ∃ v, (k, v) ∈ ops ∧ (k, some v) ∈ kvList (build ops) := by
    intro k hk
    obtain ⟨q, hq, hqe⟩ := List.mem_map.mp hk
    refine ⟨q.2, ?_, (hmem _).mpr ⟨q, hq, by rw [hqe]⟩⟩
    rw [← hqe]
    exact hq
  rcases resolve_cases (kvList (build ops)) p hknd with
    ⟨w, hw, hsp⟩ | ⟨hall, hsp⟩ |
    ⟨e, heA, hep, hene, huniq, hnx, hsp⟩ |
    ⟨hnx, ⟨e1, e2, h1A, h2A, h1p, h2p, hne12⟩, hsp⟩
  · rw [hsp] at hres
    obtain ⟨hFV, _, _, _, _, _⟩ := find_ops_found hres
    have hpk : p ∈ ops.map Prod.fst := hkey_of (p, w) hw
    refine ⟨?_, ?_, ?_, ?_⟩
    · exact iff_of_true ⟨w, hFV⟩ ⟨p, hpk, List.prefix_refl p, Or.inl rfl⟩
    · refine iff_of_false ?_ ?_
      · rw [hFV]
        intro hcon
        exact Except.noConfusion hcon
      · rintro ⟨hnp, _⟩
        exact hnp hpk
    · refine iff_of_false ?_ ?_
      · rw [hFV]
        intro hcon
        exact Except.noConfusion hcon
      · intro hcon
        exact hcon p hpk (List.prefix_refl p)
    · intro w2 hw2
      rw [hFV] at hw2
      injection hw2 with hww
      obtain ⟨v, hv, hv2⟩ := hval_of (p, w) hw
      exact ⟨p, v, hv, List.prefix_refl p, by rw [← hww]; exact hv2⟩
  · rw [hsp] at hres
    obtain ⟨hFV, _, _, _, _, _⟩ := find_ops_notFound hres
    have hnone : ∀ k ∈ ops.map Prod.fst, ¬ p <+: k := by
      intro k hk hpk
      obtain ⟨v, _, hkA⟩ := hof_key k hk
      exact hall (k, some v) hkA hpk
    refine ⟨?_, ?_, ?_, ?_⟩
    · refine iff_of_false ?_ ?_
      · rintro ⟨w, hw⟩
        rw [hFV] at hw
        exact Except.noConfusion hw
      · rintro ⟨k, hk, hpk, _⟩
        exact hnone k hk hpk
    · refine iff_of_false ?_ ?_
      · rw [hFV]
        intro hcon
        injection hcon with h1
        exact FindErr.noConfusion h1
      · rintro ⟨_, k1, k2, hk1, _, hp1, _, _⟩
        exact hnone k1 hk1 hp1
    · exact iff_of_true hFV hnone
    · intro w hw
      rw [hFV] at hw
      exact Except.noConfusion hw
  · rw [hsp] at hres
    obtain ⟨hFV, _, _, _, _, _⟩ := find_ops_found hres
    have hkey_mem : e.1 ∈ ops.map Prod.fst := hkey_of e heA
    have huniq_keys : ∀ k2 ∈ ops.map Prod.fst, p <+: k2 → k2 = e.1 := by
      intro k2 hk2 hpk2
      obtain ⟨v, _, hkA⟩ := hof_key k2 hk2
      exact congrArg Prod.fst (huniq (k2, some v) hkA hpk2)
    refine ⟨?_, ?_, ?_, ?_⟩
    · exact iff_of_true ⟨e.2, hFV⟩ ⟨e.1, hkey_mem, hep, Or.inr huniq_keys⟩
    · refine iff_of_false ?_ ?_
      · rw [hFV]
        intro hcon
        exact Except.noConfusion hcon
      · rintro ⟨_, k1, k2, hk1, hk2, hp1, hp2, hk12⟩
        exact hk12 ((huniq_keys k1 hk1 hp1).trans (huniq_keys k2 hk2 hp2).symm)
    · refine iff_of_false ?_ ?_
      · rw [hFV]
        intro hcon
        exact Except.noConfusion hcon
      · intro hcon
        exact hcon e.1 hkey_mem hep
    · intro w hw
      rw [hFV] at hw
      injection hw with hww
      obtain ⟨v, hv, hv2⟩ := hval_of e heA
      exact ⟨e.1, v, hv, hep, by rw [← hww]; exact hv2⟩
  · rw [hsp] at hres
    obtain ⟨hFV, _, _, _, _, _⟩ := find_ops_ambiguous hres
    have hpnot : p ∉ ops.map Prod.fst := by
      intro hpk
      obtain ⟨v, _, hkA⟩ := hof_key p hpk
      exact hnx ⟨some v, hkA⟩
    refine ⟨?_, ?_, ?_, ?_⟩
    · refine iff_of_false ?_ ?_
      · rintro ⟨w, hw⟩
        rw [hFV] at hw
        exact Except.noConfusion hw
      · rintro ⟨k, hk, hpk, hcase⟩
        rcases hcase with rfl | huk
        · exact hpnot hk
        · exact hne12 ((huk e1.1 (hkey_of e1 h1A) h1p).trans
            (huk e2.1 (hkey_of e2 h2A) h2p).symm)
    · exact iff_of_true hFV ⟨hpnot, e1.1, e2.1, hkey_of e1 h1A, hkey_of e2 h2A,
        h1p, h2p, hne12⟩
    · refine iff_of_false ?_ ?_
      · rw [hFV]
        intro hcon
        injection hcon with h1
        exact FindErr.noConfusion h1
      · intro hcon
        exact hcon e1.1 (hkey_of e1 h1A) h1p
    · intro w hw
      rw [hFV] at hw
      exact Except.noConfusion hw

theorem C1_find_trichotomy_witness :
    ((∀ q ∈ [((['a'] : Str), (1 : Nat)), (['a', 'b'], 2)], q.1 ≠ []) ∧
      ([((['a'] : Str), (1 : Nat)), (['a', 'b'], 2)].map Prod.fst).Nodup ∧
      ((['b'] : Str) ≠ [])) ∧
    FindValue (build [((['a'] : Str), (1 : Nat)), (['a', 'b'], 2)]) ['b']
      = .error FindErr.notFound := by
  refine ⟨⟨by decide, by decide, by decide⟩, ?_⟩
  exact ((C1_find_trichotomy Nat [(['a'], 1), (['a', 'b'], 2)] ['b']
    (by decide) (by decide) (by decide)).2.2.1).mpr (by decide)

/-- C7 (counterexample to the original claim): two orderings of the same set
of distinct key-value pairs — which share the key `"a"` with different
values — give different lookup results, because the later insertion
overwrites the value. -/
theorem C7_duplicate_key_counterexample :
    [((['a'] : Str), (1 : Nat)), (['a'], 2)].Perm [((['a'] : Str), (2 : Nat)), (['a'], 1)] ∧
    [((['a'] : Str), (1 : Nat)), (['a'], 2)].Nodup ∧
    FindValue (build [((['a'] : Str), (1 : Nat)), (['a'], 2)]) ['a'] = .ok (some 2) ∧
    FindValue (build [((['a'] : Str), (2 : Nat)), (['a'], 1)]) ['a'] = .ok (some 1) := by
  refine ⟨by decide, by decide, by decide, by decide⟩

/-- C7 (amended to distinct keys): building from any two orderings of the same
set of pairs with pairwise-distinct keys gives identical results for every
query prefix on every lookup operation. -/
theorem C7_insertion_order_independence (V : Type) (ops1 ops2 : List (Str × V))
    (hperm : ops1.Perm ops2) (hnd : (ops1.map Prod.fst).Nodup) (p : Str) :
    FindValue (build ops1) p = FindValue (build ops2) p ∧
    FindKey (build ops1) p = FindKey (build ops2) p ∧
    FindKeyValue (build ops1) p = FindKeyValue (build ops2) p ∧
    FindKeys (build ops1) p = FindKeys (build ops2) p ∧
    FindValues (build ops1) p = FindValues (build ops2) p ∧
    FindKeyValues (build ops1) p = FindKeyValues (build ops2) p := by
  have hnd2 : (ops2.map Prod.fst).Nodup := ((hperm.map Prod.fst).nodup_iff).mp hnd
  have hm1 := (build_spec_nodup ops1 hnd).2.2.2
  have hm2 := (build_spec_nodup ops2 hnd2).2.2.2
  have hkv : kvList (build ops1) = kvList (build ops2) := by
    refine sorted_kv_eq (kvList_sorted (build_SInv ops1).1)
      (kvList_sorted (build_SInv ops2).1) ?_
    intro e
    rw [hm1 e, hm2 e]
    constructor
    · rintro ⟨q, hq, hqne, he⟩
      exact ⟨q, hperm.mem_iff.mp hq, hqne, he⟩
    · rintro ⟨q, hq, hqne, he⟩
      exact ⟨q, hperm.mem_iff.mpr hq, hqne, he⟩
  by_cases hp : p = []
  · subst hp
    have ha1 : abstr (findSubtree (build ops1) []) = .ambiguous (kvList (build ops1)) := by
      rw [empty_prefix_ambiguous (build ops1) (build_SInv ops1).2, abstr]
    have ha2 : abstr (findSubtree (build ops2) []) = .ambiguous (kvList (build ops1)) := by
      rw [empty_prefix_ambiguous (build ops2) (build_SInv ops2).2, abstr, hkv]
    obtain ⟨a1, a2, a3, a4, a5, a6⟩ := find_ops_ambiguous ha1
    obtain ⟨b1, b2, b3, b4, b5, b6⟩ := find_ops_ambiguous ha2
    exact ⟨a1.trans b1.symm, a2.trans b2.symm, a3.trans b3.symm, a4.trans b4.symm,
      a5.trans b5.symm, a6.trans b6.symm⟩
  · have hres1 := resolve_build ops1 p hnd hp
    have hres2 := resolve_build ops2 p hnd2 hp
    rw [hkv] at hres1
    have heq1 : abstr (findSubtree (build ops1) p)
        = abstr (findSubtree (build ops2) p) := by
      rw [hres1, hres2]
    cases ho : abstr (findSubtree (build ops2) p) with
    | found k w =>
        rw [ho] at heq1
        obtain ⟨a1, a2, a3, a4, a5, a6⟩ := find_ops_found heq1
        obtain ⟨b1, b2, b3, b4, b5, b6⟩ := find_ops_found ho
        exact ⟨a1.trans b1.symm, a2.trans b2.symm, a3.trans b3.symm, a4.trans b4.symm,
          a5.trans b5.symm, a6.trans b6.symm⟩
    | ambiguous M =>
        rw [ho] at heq1
        obtain ⟨a1, a2, a3, a4, a5, a6⟩ := find_ops_ambiguous heq1
        obtain ⟨b1, b2, b3, b4, b5, b6⟩ := find_ops_ambiguous ho
        exact ⟨a1.trans b1.symm, a2.trans b2.symm, a3.trans b3.symm, a4.trans b4.symm,
          a5.trans b5.symm, a6.trans b6.symm⟩
    | notFound =>
        rw [ho] at heq1
        obtain ⟨a1, a2, a3, a4, a5, a6⟩ := find_ops_notFound heq1
        obtain ⟨b1, b2, b3, b4, b5, b6⟩ := find_ops_notFound ho
        exact ⟨a1.trans b1.symm, a2.trans b2.symm, a3.trans b3.symm, a4.trans b4.symm,
          a5.trans b5.symm, a6.trans b6.symm⟩

theorem C7_insertion_order_independence_witness :
    ([((['a'] : Str), (1 : Nat)), (['b'], 2)].Perm
      [((['b'] : Str), (2 : Nat)), (['a'], 1)]) ∧
    FindValue (build [((['a'] : Str), (1 : Nat)), (['b'], 2)]) ['a']
      = FindValue (build [((['b'] : Str), (2 : Nat)), (['a'], 1)]) ['a'] :=
  ⟨by decide, (C7_insertion_order_independence Nat [(['a'], 1), (['b'], 2)]
    [(['b'], 2), (['a'], 1)] (by decide) (by decide) ['a']).1⟩

/-- C9 (counterexample to the original claim): with stored keys `"a"` and
`"ab"`, the empty prefix is ambiguous, the extension `"a"` resolves uniquely
with value 1, and the further single-character extension `"ab"` — still a
prefix of the stored key `"ab"` — resolves uniquely but with a different
value, contradicting "remain Unique with the same value". -/
theorem C9_value_changes_counterexample :
    FindValue (build [((['a'] : Str), (1 : Nat)), (['a', 'b'], 2)]) []
      = .error FindErr.ambiguous ∧
    FindValue (build [((['a'] : Str), (1 : Nat)), (['a', 'b'], 2)]) ['a']
      = .ok (some 1) ∧
    FindValue (build [((['a'] : Str), (1 : Nat)), (['a', 'b'], 2)]) ['a', 'b']
      = .ok (some 2) := by
  refine ⟨by decide, by decide, by decide⟩

/-- C9 (amended): extensions of an ambiguous prefix that still lead towards a
stored key never become not-found; and once a prefix resolves uniquely to a
stored key `k`, every further extension that stays a prefix of that same `k`
keeps resolving uniquely to `k` with the same value. -/
theorem C9_monotone_disambiguation (V : Type) (ops : List (Str × V)) (p p2 k : Str)
    (hne : ∀ q ∈ ops, q.1 ≠ []) (hnd : (ops.map Prod.fst).Nodup) :
    ((FindValue (build ops) p = .error FindErr.ambiguous) → p <+: p2 → p ≠ p2 →
      k ∈ ops.map Prod.fst → p2 <+: k →
      FindValue (build ops) p2 ≠ .error FindErr.notFound) ∧
    (∀ w, FindKey (build ops) p = .ok k → FindValue (build ops) p = .ok w →
      p <+: p2 → p2 <+: k →
      FindKey (build ops) p2 = .ok k ∧ FindValue (build ops) p2 = .ok w) := by
  have hknd := kvKeys_nodup (build ops) [] (build_SInv ops).1
  have hmem := (build_spec ops hne hnd).2.2.2
  have hof_key : ∀ k2 ∈ ops.map Prod.fst, ∃ v, (k2, some v) ∈ kvList (build ops) := by
    intro k2 hk2
    obtain ⟨q, hq, rfl⟩ := List.mem_map.mp hk2
    exact ⟨q.2, (hmem _).mpr ⟨q, hq, rfl⟩⟩
  constructor
  · intro hamb hpp2 hppne hk hp2k hcon
    have hp2ne : p2 ≠ [] := by
      intro h0
      rw [h0] at hpp2
      exact hppne ((List.prefix_nil.mp hpp2).trans h0.symm)
    have hres2 := resolve_build ops p2 hnd hp2ne
    have habs := FindValue_notFound_abstr hcon
    rw [habs] at hres2
    obtain ⟨v, hkA⟩ := hof_key k hk
    rcases resolve_cases (kvList (build ops)) p2 hknd with
      ⟨w2, _, hsp⟩ | ⟨hall, hsp⟩ | ⟨e, _, _, _, _, _, hsp⟩ | ⟨_, _, hsp⟩
    · rw [hsp] at hres2
      exact Outcome.noConfusion hres2
    · exact hall (k, some v) hkA hp2k
    · rw [hsp] at hres2
      exact Outcome.noConfusion hres2
    · rw [hsp] at hres2
      exact Outcome.noConfusion hres2
  · intro w hfk hfv hpp2 hp2k
    have hpne : p ≠ [] := by
      intro h0
      have h := empty_prefix_ambiguous (build ops) (build_SInv ops).2
      rw [h0, FindKey, h] at hfk
      exact Except.noConfusion hfk
    have hp2ne : p2 ≠ [] := by
      intro h0
      rw [h0] at hpp2
      exact hpne (List.prefix_nil.mp hpp2)
    have hres := resolve_build ops p hnd hpne
    have habs := FindKV_ok_abstr hfk hfv
    rw [habs] at hres
    have hres2 := resolve_build ops p2 hnd hp2ne
    rcases resolve_cases (kvList (build ops)) p hknd with
      ⟨w2, hw2, hsp⟩ | ⟨_, hsp⟩ |
      ⟨e, heA, hep, hene, huniq, hnx, hsp⟩ | ⟨_, _, hsp⟩
    · rw [hsp] at hres
      injection hres with hk1 hk2
      have hkp : p2 <+: p := by
        rw [← hk1]
        exact hp2k
      have hp2p : p2 = p := prefix_antisymm hkp hpp2
      rw [hp2p]
      exact ⟨hfk, hfv⟩
    · rw [hsp] at hres
      exact Outcome.noConfusion hres
    · rw [hsp] at hres
      injection hres with hk1 hk2
      by_cases hx2 : ∃ w2, (p2, w2) ∈ kvList (build ops)
      · obtain ⟨w2, hw2⟩ := hx2
        have he2 := huniq (p2, w2) hw2 hpp2
        have hp2e : p2 = e.1 := congrArg Prod.fst he2
        have hw2e : w2 = e.2 := congrArg Prod.snd he2
        have hsp2 : specResolve (kvList (build ops)) p2 = .found p2 w2 :=
          specResolve_eq_found_exact _ _ _ (lookupA_mem_nodup
            ((mem_filter_pref _ _ _).mpr ⟨hw2, List.prefix_refl p2⟩)
            (filter_keys_nodup hknd _))
        rw [hsp2] at hres2
        obtain ⟨f1, f2, _⟩ := find_ops_found hres2
        refine ⟨?_, ?_⟩
        · rw [hk1, ← hp2e]
          exact f2
        · rw [hk2, ← hw2e]
          exact f1
      · have hp2e1 : p2 <+: e.1 := by
          rw [← hk1]
          exact hp2k
        have heM2 : e ∈ (kvList (build ops)).filter (fun x => p2.isPrefixOf x.1) :=
          (mem_filter_pref _ _ _).mpr ⟨heA, hp2e1⟩
        have hallM2 : ∀ x ∈ (kvList (build ops)).filter (fun x => p2.isPrefixOf x.1),
            x = e := by
          intro x hx
          obtain ⟨hxA, hxp⟩ := (mem_filter_pref _ _ _).mp hx
          exact huniq x hxA (hpp2.trans hxp)
        have hndM2 : ((kvList (build ops)).filter (fun x => p2.isPrefixOf x.1)).Nodup :=
          List.Nodup.sublist (List.filter_sublist _)
            (List.Nodup.of_map Prod.fst hknd)
        have hM2 : (kvList (build ops)).filter (fun x => p2.isPrefixOf x.1) = [e] :=
          list_singleton_of_nodup heM2 hallM2 hndM2
        have hene2 : e.1 ≠ p2 := by
          intro hcon
          refine hx2 ⟨e.2, ?_⟩
          rw [← hcon]
          exact heA
        have hsp2 : specResolve (kvList (build ops)) p2 = .found e.1 e.2 :=
          specResolve_eq_found_one _ _ e hM2 hene2
        rw [hsp2] at hres2
        obtain ⟨f1, f2, _⟩ := find_ops_found hres2
        refine ⟨?_, ?_⟩
        · rw [hk1]
          exact f2
        · rw [hk2]
          exact f1
    · rw [hsp] at hres
      exact Outcome.noConfusion hres

theorem C9_monotone_disambiguation_witness :
    FindValue (build [((['a', 'b'] : Str), (1 : Nat)), (['c'], 2)]) ['a']
      ≠ .error FindErr.notFound ∧
    (FindKey (build [((['a', 'b'] : Str), (1 : Nat)), (['c'], 2)]) ['a', 'b']
        = .ok ['a', 'b'] ∧
      FindValue (build [((['a', 'b'] : Str), (1 : Nat)), (['c'], 2)]) ['a', 'b']
        = .ok (some 1)) :=
  ⟨(C9_monotone_disambiguation Nat [(['a', 'b'], 1), (['c'], 2)] [] ['a'] ['a', 'b']
      (by decide) (by decide)).1 (by decide) (by decide) (by decide) (by decide)
      (by decide),
    (C9_monotone_disambiguation Nat [(['a', 'b'], 1), (['c'], 2)] ['a'] ['a', 'b']
      ['a', 'b'] (by decide) (by decide)).2 (some 1) (by decide) (by decide)
      (by decide) (by decide)⟩

end Prefixtree
